import Mathlib

/-!
# Verification development for the peer-to-peer transport layer (`net.cpp`)

Shallow embedding of the ban store, the message framer, the inbound eviction
policy, the transaction relay cache, the accept path, the dialers, the
disconnect pass, the send queue, the inactivity check and the outbound traffic
target, followed by theorems about them.

Conventions of the embedding:
* `int64_t` times are `Int`; `unsigned int` counters are `Nat`, reduced
  modulo `2 ^ 32` where the source subtracts or adds them;
* a `std::map` is an association list with at most one pair per key, or a
  total function when it is only read through `operator[]`;
* a byte is a `Nat`; byte buffers are lists;
* `GetTime()` is an explicit argument `now`; `uint64_t` counters are `Nat`,
  reduced modulo `2 ^ 64` where the source subtracts or multiplies them.
-/

namespace Net

/-! ## Ban store (`net.cpp` 520-640) -/

/-- A ban entry: creation time, absolute expiry and reason code. -/
structure CBanEntry where
  nCreateTime : Int
  nBanUntil : Int
  banReason : Nat
deriving DecidableEq, Repr

/-- The ban store: `setBanned` (a `std::map` keyed by subnet) and the flag
`setBannedIsDirty`. -/
structure BanStore (S : Type) where
  setBanned : List (S × CBanEntry)
  setBannedIsDirty : Bool

/-- Lookup in a `std::map`: `find`. -/
def mapFind {S V : Type} [DecidableEq S] (m : List (S × V)) (k : S) : Option V :=
  match m with
  | [] => none
  | p :: rest => if p.1 = k then some p.2 else mapFind rest k

/-- The insertion half of `operator[]`: an absent key receives the
default-constructed value, a present key is left alone. -/
def mapTouch {S V : Type} [DecidableEq S] (m : List (S × V)) (k : S) (d : V) : List (S × V) :=
  match mapFind m k with
  | some _ => m
  | none => m ++ [(k, d)]

/-- Assignment through `operator[]` to a key that is present. -/
def mapAssign {S V : Type} [DecidableEq S] (m : List (S × V)) (k : S) (v : V) : List (S × V) :=
  m.map (fun p => if p.1 = k then (k, v) else p)

/-- Source `CNode::IsBanned(CNetAddr ip)`: the loop over the whole map; `subNetMatch`
stands for `CSubNet::Match`. -/
def IsBanned {S A : Type} (subNetMatch : S → A → Bool) (setBanned : List (S × CBanEntry))
    (now : Int) (ip : A) : Bool :=
  setBanned.foldl
    (fun fResult it => if subNetMatch it.1 ip && decide (now < it.2.nBanUntil) then true else fResult)
    false

/-- The expiry computed at the head of `CNode::Ban`: a non-positive offset is
replaced by the `-bantime` argument (`argBantime`) and measured from now. -/
def banUntil (argBantime now bantimeoffset : Int) (sinceUnixEpoch : Bool) : Int :=
  let offset := if bantimeoffset ≤ 0 then argBantime else bantimeoffset
  let epoch := if bantimeoffset ≤ 0 then false else sinceUnixEpoch
  (if epoch then 0 else now) + offset

/-- Source `CNode::Ban(const CSubNet&, ...)`. `dflt` is the default-constructed
`CBanEntry` that `setBanned[subNet]` creates for an absent key. -/
def Ban {S : Type} [DecidableEq S] (dflt : CBanEntry) (argBantime now : Int) (st : BanStore S)
    (subNet : S) (banReason : Nat) (bantimeoffset : Int) (sinceUnixEpoch : Bool) : BanStore S :=
  let banEntry : CBanEntry :=
    { nCreateTime := now
      nBanUntil := banUntil argBantime now bantimeoffset sinceUnixEpoch
      banReason := banReason }
  let m1 := mapTouch st.setBanned subNet dflt
  let cur := (mapFind m1 subNet).getD dflt
  let m2 := if cur.nBanUntil < banEntry.nBanUntil then mapAssign m1 subNet banEntry else m1
  { setBanned := m2, setBannedIsDirty := true }

/-- Modelled from the spec: `CBanEntry()` is declared in `net.h`; a fresh entry
has no reason, creation time 0 and expiry 0. -/
def CBanEntry.null : CBanEntry := { nCreateTime := 0, nBanUntil := 0, banReason := 0 }

/-- Modelled from the spec: `CSubNet` (netbase) is an address and a prefix
length; here an IPv4 address is its 32-bit value. -/
structure CSubNet where
  network : Nat
  prefixLen : Nat
deriving DecidableEq, Repr

/-- Modelled from the spec: `CSubNet::Match` (netbase): the address lies in the
subnet when it agrees with the network address on the first `prefixLen` bits. -/
def CSubNet.Match (s : CSubNet) (ip : Nat) : Bool :=
  ip / 2 ^ (32 - s.prefixLen) == s.network / 2 ^ (32 - s.prefixLen)

/-- Dotted-quad IPv4 address as a 32-bit value. -/
def ipv4 (a b c d : Nat) : Nat := a * 2 ^ 24 + b * 2 ^ 16 + c * 2 ^ 8 + d

/-! ## Message framer (`net.cpp` 707-790) -/

/-- Wire message header (`protocol.h`): network magic, command name, declared
payload length (32-bit unsigned) and checksum. -/
structure CMessageHeader where
  pchMessageStart : List Nat
  pchCommand : List Nat
  nMessageSize : Nat
  nChecksum : Nat
deriving DecidableEq, Repr

/-- What the framer takes from outside `net.cpp`: the two size limits, the
network magic and the deserialisation `hdrbuf >> hdr` of the 24 header bytes
(`none` when it throws). -/
structure FramerParams where
  MAX_SIZE : Nat
  MAX_PROTOCOL_MESSAGE_LENGTH : Nat
  MessageStart : List Nat
  deserializeHeader : List Nat → Option CMessageHeader

/-- A message in progress (`CNetMessage`). -/
structure CNetMessage where
  in_data : Bool
  hdrbuf : List Nat
  hdr : CMessageHeader
  nHdrPos : Nat
  vRecv : List Nat
  nDataPos : Nat
  nTime : Int
deriving DecidableEq, Repr

/-- Modelled from the spec: the constructor of `CNetMessage` is in `net.h`: a
zeroed 24-byte header buffer, header mode, both positions 0, and a header
carrying the network magic with the length field set to all ones. -/
def CNetMessage.fresh (messageStart : List Nat) : CNetMessage :=
  { in_data := false
    hdrbuf := List.replicate 24 0
    hdr := { pchMessageStart := messageStart, pchCommand := List.replicate 12 0,
             nMessageSize := 2 ^ 32 - 1, nChecksum := 0 }
    nHdrPos := 0
    vRecv := []
    nDataPos := 0
    nTime := 0 }

/-- Modelled from the spec: `CNetMessage::complete()` is in `net.h`: true once
the message is in payload mode and the payload position equals the declared
length. -/
def CNetMessage.complete (m : CNetMessage) : Bool :=
  m.in_data && decide (m.hdr.nMessageSize = m.nDataPos)

/-- Conversion of an `unsigned int` to `int` (two's complement, 32 bits). -/
def toInt32 (n : Nat) : Int :=
  if n % 2 ^ 32 < 2 ^ 31 then ((n % 2 ^ 32 : Nat) : Int) else ((n % 2 ^ 32 : Nat) : Int) - 2 ^ 32

/-- The effect of `memcpy(&dst[pos], src, src.size())` on a buffer. -/
def memcpy (dst : List Nat) (pos : Nat) (src : List Nat) : List Nat :=
  dst.take pos ++ src ++ dst.drop (pos + src.length)

/-- The effect of `resize(n)` on a byte buffer: truncate or pad with zeros. -/
def resize (v : List Nat) (n : Nat) : List Nat :=
  v.take n ++ List.replicate (n - v.length) 0

/-- Source `CNetMessage::readHeader(pch, nBytes)`: the message afterwards and the
returned `int`. -/
def readHeader (P : FramerParams) (m : CNetMessage) (pch : List Nat) (nBytes : Nat) :
    CNetMessage × Int :=
  let nRemaining := (24 + 2 ^ 32 - m.nHdrPos) % 2 ^ 32
  let nCopy := min nRemaining nBytes
  let m1 := { m with hdrbuf := memcpy m.hdrbuf m.nHdrPos (pch.take nCopy),
                     nHdrPos := (m.nHdrPos + nCopy) % 2 ^ 32 }
  if m1.nHdrPos < 24 then (m1, toInt32 nCopy)
  else
    match P.deserializeHeader m1.hdrbuf with
    | none => (m1, -1)
    | some h =>
      let m2 := { m1 with hdr := h }
      if h.nMessageSize > P.MAX_SIZE then (m2, -1)
      else ({ m2 with in_data := true }, toInt32 nCopy)

/-- Source `CNetMessage::readData(pch, nBytes)`: the message afterwards and the
returned `int`. -/
def readData (m : CNetMessage) (pch : List Nat) (nBytes : Nat) : CNetMessage × Int :=
  let nRemaining := (m.hdr.nMessageSize + 2 ^ 32 - m.nDataPos) % 2 ^ 32
  let nCopy := min nRemaining nBytes
  let vRecv1 :=
    if m.vRecv.length < (m.nDataPos + nCopy) % 2 ^ 32 then
      resize m.vRecv (min m.hdr.nMessageSize ((m.nDataPos + nCopy + 256 * 1024) % 2 ^ 32))
    else m.vRecv
  ({ m with vRecv := memcpy vRecv1 m.nDataPos (pch.take nCopy),
            nDataPos := (m.nDataPos + nCopy) % 2 ^ 32 }, toInt32 nCopy)

/-- The head of the loop body of `ReceiveMsgBytes`: the messages in front of
the one being filled, and that message (a new one when the queue is empty or its
last message is complete). -/
def currentMessage (P : FramerParams) (vRecvMsg : List CNetMessage) :
    List CNetMessage × CNetMessage :=
  match vRecvMsg.getLast? with
  | none => ([], CNetMessage.fresh P.MessageStart)
  | some back =>
    if back.complete then (vRecvMsg, CNetMessage.fresh P.MessageStart)
    else (vRecvMsg.dropLast, back)

/-- One iteration of the `while (nBytes > 0)` loop of `CNode::ReceiveMsgBytes`:
`Except.error q` is `return false` with receive queue `q`; otherwise the queue,
the advanced pointer and the remaining byte count. `now` is `GetTimeMicros()`. -/
def receiveIteration (P : FramerParams) (now : Int) (vRecvMsg : List CNetMessage)
    (pch : List Nat) (nBytes : Nat) : Except (List CNetMessage) (List CNetMessage × List Nat × Nat) :=
  let (front, msg) := currentMessage P vRecvMsg
  let (msg1, handled) := if !msg.in_data then readHeader P msg pch nBytes else readData msg pch nBytes
  if handled < 0 then Except.error (front ++ [msg1])
  else if msg1.in_data && decide (msg1.hdr.nMessageSize > P.MAX_PROTOCOL_MESSAGE_LENGTH) then
    Except.error (front ++ [msg1])
  else
    let msg2 := if msg1.complete then { msg1 with nTime := now } else msg1
    Except.ok (front ++ [msg2], pch.drop handled.toNat,
      (((nBytes : Int) - handled) % 2 ^ 32).toNat)

/-- The loop of `CNode::ReceiveMsgBytes` with a bound on the number of
iterations; `none` when the bound is used up. -/
def receiveLoop (P : FramerParams) (now : Int) :
    Nat → List CNetMessage → List Nat → Nat → Option (Bool × List CNetMessage)
  | 0, _, _, _ => none
  | fuel + 1, vRecvMsg, pch, nBytes =>
    if nBytes = 0 then some (true, vRecvMsg)
    else
      match receiveIteration P now vRecvMsg pch nBytes with
      | Except.error q => some (false, q)
      | Except.ok (q, pch1, nBytes1) => receiveLoop P now fuel q pch1 nBytes1

/-- Source `CNode::ReceiveMsgBytes(pch, nBytes)` on the receive queue `vRecvMsg`, with
`nBytes` the length of the buffer: the returned flag and the queue afterwards. -/
def ReceiveMsgBytes (P : FramerParams) (now : Int) (vRecvMsg : List CNetMessage)
    (pch : List Nat) : Option (Bool × List CNetMessage) :=
  receiveLoop P now (pch.length + 1) vRecvMsg pch pch.length

/-- Feeding chunks in order while every call returns true; `none` as soon as a
call returns false. -/
def feedChunks (P : FramerParams) (now : Int) :
    List CNetMessage → List (List Nat) → Option (List CNetMessage)
  | q, [] => some q
  | q, c :: cs =>
    match ReceiveMsgBytes P now q c with
    | some (true, q1) => feedChunks P now q1 cs
    | _ => none

/-- A sample header layout for examples: four magic bytes, twelve command
bytes, the little-endian length and the little-endian checksum. -/
def sampleDeserialize (b : List Nat) : Option CMessageHeader :=
  if b.length = 24 then
    some { pchMessageStart := b.take 4
           pchCommand := (b.drop 4).take 12
           nMessageSize := b.getD 16 0 + 2 ^ 8 * b.getD 17 0 + 2 ^ 16 * b.getD 18 0 + 2 ^ 24 * b.getD 19 0
           nChecksum := b.getD 20 0 + 2 ^ 8 * b.getD 21 0 + 2 ^ 16 * b.getD 22 0 + 2 ^ 24 * b.getD 23 0 }
  else none

/-- Sample parameters for examples. -/
def sampleParams : FramerParams :=
  { MAX_SIZE := 0x02000000
    MAX_PROTOCOL_MESSAGE_LENGTH := 3 * 1024 * 1024
    MessageStart := [1, 2, 3, 4]
    deserializeHeader := sampleDeserialize }

/-- A 24-byte header declaring `len` payload bytes (`len < 256`). -/
def sampleHeader (len : Nat) : List Nat :=
  [1, 2, 3, 4] ++ List.replicate 12 0 ++ [len, 0, 0, 0] ++ [0, 0, 0, 0]

/-- The stream `s` is a 24-byte header that deserialises to `h`, followed by
exactly `h.nMessageSize` payload bytes. -/
structure ValidStream (P : FramerParams) (s : List Nat) (h : CMessageHeader) : Prop where
  length_eq : s.length = 24 + h.nMessageSize
  deser : P.deserializeHeader (s.take 24) = some h

/-- The declared length of `h` is within the protocol maximum, and the size
limits satisfy `MAX_PROTOCOL_MESSAGE_LENGTH ≤ MAX_SIZE < 2 ^ 31`. -/
structure Limits (P : FramerParams) (h : CMessageHeader) : Prop where
  size_le : h.nMessageSize ≤ P.MAX_PROTOCOL_MESSAGE_LENGTH
  proto_le : P.MAX_PROTOCOL_MESSAGE_LENGTH ≤ P.MAX_SIZE
  max_lt : P.MAX_SIZE < 2 ^ 31

/-- The message `m` is what the framer holds after consuming the first `n`
bytes of the stream `s`. -/
structure Filled (s : List Nat) (h : CMessageHeader) (n : Nat) (m : CNetMessage) : Prop where
  hdrbuf_length : m.hdrbuf.length = 24
  hdrbuf_take : m.hdrbuf.take (min n 24) = s.take (min n 24)
  nHdrPos_eq : m.nHdrPos = min n 24
  in_data_eq : m.in_data = decide (24 ≤ n)
  nDataPos_eq : m.nDataPos = n - 24
  vRecv_length : m.vRecv.length ≤ h.nMessageSize
  nDataPos_le : n - 24 ≤ m.vRecv.length
  vRecv_take : m.vRecv.take (n - 24) = (s.drop 24).take (n - 24)
  hdr_eq : 24 ≤ n → m.hdr = h
  vRecv_nil : n ≤ 24 → m.vRecv = []

/-- The receive queue while the stream `s` is being fed from an empty queue:
empty before the first byte, a single message afterwards. -/
def Feeding (s : List Nat) (h : CMessageHeader) (n : Nat) (q : List CNetMessage) : Prop :=
  (n = 0 ∧ q = []) ∨ ∃ m, q = [m] ∧ Filled s h n m

/-! ## Inbound eviction (`net.cpp` 845-966) -/

/-- The fields of a connection (`CNode`) that eviction reads or writes;
`netGroup` is `addr.GetGroup()`. -/
structure CNode where
  id : Int
  fWhitelisted : Bool
  fInbound : Bool
  fDisconnect : Bool
  nTimeConnected : Int
  nMinPingUsecTime : Int
  netGroup : List Nat
  vchKeyedNetGroup : List Nat
deriving DecidableEq, Repr

/-- Source `struct NodeEvictionCandidate`. -/
structure NodeEvictionCandidate where
  id : Int
  nTimeConnected : Int
  nMinPingUsecTime : Int
  vchNetGroup : List Nat
  vchKeyedNetGroup : List Nat
deriving DecidableEq, Repr

/-- The constructor `NodeEvictionCandidate(CNode* pnode)`. -/
def NodeEvictionCandidate.ofNode (pnode : CNode) : NodeEvictionCandidate :=
  { id := pnode.id
    nTimeConnected := pnode.nTimeConnected
    nMinPingUsecTime := pnode.nMinPingUsecTime
    vchNetGroup := pnode.netGroup
    vchKeyedNetGroup := pnode.vchKeyedNetGroup }

/-- Comparison `operator<` on `std::vector<unsigned char>`: lexicographic comparison, a
proper prefix being smaller. -/
def vecLess : List Nat → List Nat → Bool
  | _, [] => false
  | [], _ :: _ => true
  | a :: as, b :: bs => if a < b then true else if b < a then false else vecLess as bs

/-- Source `ReverseCompareNodeMinPingTime`. -/
def ReverseCompareNodeMinPingTime (a b : NodeEvictionCandidate) : Bool :=
  decide (a.nMinPingUsecTime > b.nMinPingUsecTime)

/-- Source `ReverseCompareNodeTimeConnected`. -/
def ReverseCompareNodeTimeConnected (a b : NodeEvictionCandidate) : Bool :=
  decide (a.nTimeConnected > b.nTimeConnected)

/-- Source `CompareKeyedNetGroup`. -/
def CompareKeyedNetGroup (a b : NodeEvictionCandidate) : Bool :=
  vecLess a.vchKeyedNetGroup b.vchKeyedNetGroup

/-- A sorting routine, as `std::sort` is used: from a comparison and a vector
to the rearranged vector. -/
abbrev SortFn := (NodeEvictionCandidate → NodeEvictionCandidate → Bool) →
  List NodeEvictionCandidate → List NodeEvictionCandidate

/-- What `std::sort` guarantees for the comparison `comp`: the result is a
rearrangement of the input in which no element is followed by one that compares
before it. The order of equivalent elements is left open. -/
def SortsBy (sort : SortFn) (comp : NodeEvictionCandidate → NodeEvictionCandidate → Bool) : Prop :=
  ∀ l, (sort comp l).Perm l ∧ (sort comp l).Pairwise (fun a b => comp b a = false)

/-- The sorting routine meets the guarantee of `std::sort` for the three
comparisons eviction uses. -/
def IsStdSort (sort : SortFn) : Prop :=
  SortsBy sort CompareKeyedNetGroup ∧ SortsBy sort ReverseCompareNodeMinPingTime ∧
    SortsBy sort ReverseCompareNodeTimeConnected

/-- One admissible sorting routine (insertion sort), for examples. -/
def insertionSortFn : SortFn :=
  fun comp l => l.insertionSort (fun a b => comp b a = false)

/-- The first block of `AttemptToEvictConnection`: the candidates, in registry
order. -/
def collectCandidates (vNodes : List CNode) : List NodeEvictionCandidate :=
  (vNodes.filter (fun pnode => !pnode.fWhitelisted && pnode.fInbound && !pnode.fDisconnect)).map
    NodeEvictionCandidate.ofNode

/-- Erasure `v.erase(v.end() - k, v.end())`. -/
def eraseTail {α : Type} (v : List α) (k : Nat) : List α := v.take (v.length - k)

/-- Sort by keyed network group and erase the last `min(4, size)`. -/
def protectByNetGroup (sort : SortFn) (v : List NodeEvictionCandidate) : List NodeEvictionCandidate :=
  eraseTail (sort CompareKeyedNetGroup v) (min 4 v.length)

/-- Sort by reverse minimum ping and erase the last `min(8, size)`. -/
def protectByPing (sort : SortFn) (v : List NodeEvictionCandidate) : List NodeEvictionCandidate :=
  eraseTail (sort ReverseCompareNodeMinPingTime v) (min 8 v.length)

/-- Sort by reverse connect time and erase the last `size / 2`. -/
def protectByAge (sort : SortFn) (v : List NodeEvictionCandidate) : List NodeEvictionCandidate :=
  eraseTail (sort ReverseCompareNodeTimeConnected v) (v.length / 2)

/-- The variables of the grouping loop: `naMostConnections`, `nMostConnections`,
`nMostConnectionsTime` and `mapAddrCounts` (read only through `operator[]`, so a
total function with the empty vector as default). -/
structure GroupScan where
  naMostConnections : List Nat
  nMostConnections : Nat
  nMostConnectionsTime : Int
  mapAddrCounts : List Nat → List NodeEvictionCandidate

/-- The variables before the loop. -/
def GroupScan.init : GroupScan :=
  { naMostConnections := [], nMostConnections := 0, nMostConnectionsTime := 0,
    mapAddrCounts := fun _ => [] }

/-- One iteration of the grouping loop. -/
def GroupScan.step (s : GroupScan) (candidate : NodeEvictionCandidate) : GroupScan :=
  let counts : List Nat → List NodeEvictionCandidate :=
    fun g => if g = candidate.vchNetGroup then s.mapAddrCounts g ++ [candidate] else s.mapAddrCounts g
  let grouptime := ((counts candidate.vchNetGroup).headD candidate).nTimeConnected
  let groupsize := (counts candidate.vchNetGroup).length
  if groupsize > s.nMostConnections ∨
      (groupsize = s.nMostConnections ∧ grouptime > s.nMostConnectionsTime) then
    { naMostConnections := candidate.vchNetGroup, nMostConnections := groupsize,
      nMostConnectionsTime := grouptime, mapAddrCounts := counts }
  else { s with mapAddrCounts := counts }

/-- The candidates left after the three protection steps, `none` where the
function returns false because a step leaves nothing. -/
def survivors (sort : SortFn) (vEvictionCandidates : List NodeEvictionCandidate) :
    Option (List NodeEvictionCandidate) :=
  if vEvictionCandidates.isEmpty then none
  else
    let v1 := protectByNetGroup sort vEvictionCandidates
    if v1.isEmpty then none
    else
      let v2 := protectByPing sort v1
      if v2.isEmpty then none
      else
        let v3 := protectByAge sort v2
        if v3.isEmpty then none else some v3

/-- Source `vEvictionNodes`: the vector of the chosen network group. -/
def evictionNodes (v3 : List NodeEvictionCandidate) : List NodeEvictionCandidate :=
  let scan := v3.foldl GroupScan.step GroupScan.init
  scan.mapAddrCounts scan.naMostConnections

/-- The decision part of `AttemptToEvictConnection`, from the candidates to the
candidate whose id becomes `nEvictionId`; `none` where the function returns
false before the flagging loop. -/
def selectEviction (sort : SortFn) (fPreferNewConnection : Bool)
    (vEvictionCandidates : List NodeEvictionCandidate) : Option NodeEvictionCandidate :=
  match survivors sort vEvictionCandidates with
  | none => none
  | some v3 =>
    match evictionNodes v3 with
    | [] => none
    | first :: rest =>
      if decide ((first :: rest).length ≤ 1) && !fPreferNewConnection then none
      else some first

/-- The flagging loop: the first connection of the registry with the given id
gets `fDisconnect = true`; `none` when no connection has that id. -/
def flagById (nEvictionId : Int) : List CNode → Option (List CNode)
  | [] => none
  | pnode :: rest =>
    if pnode.id = nEvictionId then some ({ pnode with fDisconnect := true } :: rest)
    else (flagById nEvictionId rest).map (fun r => pnode :: r)

/-- Source `AttemptToEvictConnection(fPreferNewConnection)` on the registry `vNodes`:
the returned flag and the registry afterwards. -/
def AttemptToEvictConnection (sort : SortFn) (fPreferNewConnection : Bool) (vNodes : List CNode) :
    Bool × List CNode :=
  match selectEviction sort fPreferNewConnection (collectCandidates vNodes) with
  | none => (false, vNodes)
  | some c =>
    match flagById c.id vNodes with
    | some vNodes1 => (true, vNodes1)
    | none => (false, vNodes)

/-- An inbound, non-whitelisted, unflagged connection for examples: id `i`,
connect time `t`, minimum ping `p`, network group `[g]`, keyed group `[k]`. -/
def sampleNode (i t p : Int) (g k : Nat) : CNode :=
  { id := i, fWhitelisted := false, fInbound := true, fDisconnect := false,
    nTimeConnected := t, nMinPingUsecTime := p, netGroup := [g], vchKeyedNetGroup := [k] }

/-- A registry for examples: fourteen eviction candidates with ids 0..13 (the
later the id, the earlier the connect time, the lower the ping and the higher
the keyed network group, each in a network group of its own), one whitelisted
inbound connection and one outbound connection. -/
def evictionSample : List CNode :=
  [sampleNode 0 100 50 0 0, sampleNode 1 99 49 1 1, sampleNode 2 98 48 2 2,
   sampleNode 3 97 47 3 3, sampleNode 4 96 46 4 4, sampleNode 5 95 45 5 5,
   sampleNode 6 94 44 6 6, sampleNode 7 93 43 7 7, sampleNode 8 92 42 8 8,
   sampleNode 9 91 41 9 9, sampleNode 10 90 40 10 10, sampleNode 11 89 39 11 11,
   sampleNode 12 88 38 12 12, sampleNode 13 87 37 13 13,
   { sampleNode 14 86 36 14 14 with fWhitelisted := true },
   { sampleNode 15 85 35 15 15 with fInbound := false }]

/-! ## Relay cache (`net.cpp` 2142-2160) -/

/-- The relay cache: `mapRelay` (inventory key to serialized payload) and the
expiry queue `vRelayExpiration`. -/
structure RelayState (K : Type) where
  mapRelay : List (K × List Nat)
  vRelayExpiration : List (Int × K)

/-- Erasure `std::map::erase(key)`. -/
def mapErase {K V : Type} [DecidableEq K] (m : List (K × V)) (k : K) : List (K × V) :=
  m.filter (fun p => !decide (p.1 = k))

/-- Insertion `std::map::insert(make_pair(k, v))`: a key that is present keeps its value. -/
def mapInsert {K V : Type} [DecidableEq K] (m : List (K × V)) (k : K) (v : V) : List (K × V) :=
  match mapFind m k with
  | some _ => m
  | none => m ++ [(k, v)]

/-- The loop `while (!vRelayExpiration.empty() && vRelayExpiration.front().first < GetTime())`. -/
def expireRelay {K : Type} [DecidableEq K] (now : Int) :
    List (K × List Nat) → List (Int × K) → RelayState K
  | m, [] => { mapRelay := m, vRelayExpiration := [] }
  | m, e :: q =>
    if e.1 < now then expireRelay now (mapErase m e.2) q
    else { mapRelay := m, vRelayExpiration := e :: q }

/-- The block of `RelayTransaction(tx, ss)` under `cs_mapRelay`, for inventory
key `inv` and serialized payload `ss`, at time `now`. -/
def RelayTransaction {K : Type} [DecidableEq K] (st : RelayState K) (now : Int) (inv : K)
    (ss : List Nat) : RelayState K :=
  let st1 := expireRelay now st.mapRelay st.vRelayExpiration
  { mapRelay := mapInsert st1.mapRelay inv ss
    vRelayExpiration := st1.vRelayExpiration ++ [(now + 15 * 60, inv)] }

/-- The empty relay cache. -/
def RelayState.empty {K : Type} : RelayState K := { mapRelay := [], vRelayExpiration := [] }

/-- A sequence of `RelayTransaction` calls, each given as (time, key, payload). -/
def relayAll {K : Type} [DecidableEq K] (st : RelayState K) (calls : List (Int × K × List Nat)) :
    RelayState K :=
  calls.foldl (fun s c => RelayTransaction s c.1 c.2.1 c.2.2) st

/-- The relay cache as `RelayTransaction` calls made up to time `last` leave it:
the expiry queue is in expiry order, no expiry is later than `last + 15 * 60`,
and every key of `mapRelay` has an entry in the queue. -/
def RelayInv {K : Type} [DecidableEq K] (last : Int) (st : RelayState K) : Prop :=
  st.vRelayExpiration.Pairwise (fun a b => a.1 ≤ b.1) ∧
  (∀ e ∈ st.vRelayExpiration, e.1 ≤ last + 15 * 60) ∧
  (∀ k, mapFind st.mapRelay k ≠ none → ∃ e ∈ st.vRelayExpiration, e.2 = k)

/-! ## Framer examples with a checksum field -/

/-- A 24-byte header declaring `len` payload bytes (`len < 256`) and carrying
the checksum field `sum` (`sum < 256`). -/
def sampleHeaderSum (len sum : Nat) : List Nat :=
  [1, 2, 3, 4] ++ List.replicate 12 0 ++ [len, 0, 0, 0] ++ [sum, 0, 0, 0]

/-- A message for examples whose header has just been accepted with declared
length 3. -/
def sampleDataMessage : CNetMessage :=
  { in_data := true
    hdrbuf := sampleHeader 3
    hdr := { pchMessageStart := [1, 2, 3, 4], pchCommand := List.replicate 12 0,
             nMessageSize := 3, nChecksum := 0 }
    nHdrPos := 24
    vRecv := []
    nDataPos := 0
    nTime := 0 }

/-- The bounds that `CNetMessage::readData` keeps on the payload buffer of a
message whose declared length is `hdr.nMessageSize`. -/
def DataBounds (m : CNetMessage) : Prop :=
  m.nDataPos ≤ m.vRecv.length ∧
  m.vRecv.length ≤ min m.hdr.nMessageSize (m.nDataPos + 256 * 1024) ∧
  m.nDataPos ≤ m.hdr.nMessageSize

/-- A sequence of `readData` calls on one message, each given as the buffer
`pch` and the count `nBytes`. -/
def readDataAll (m : CNetMessage) (calls : List (List Nat × Nat)) : CNetMessage :=
  calls.foldl (fun msg c => (readData msg c.1 c.2).1) m

/-! ## Inbound eviction: the chosen group -/

/-- The number of survivors in the coarse network group `g`. -/
def groupSize (v3 : List NodeEvictionCandidate) (g : List Nat) : Nat :=
  v3.countP (fun c => decide (c.vchNetGroup = g))

/-- The value of `naMostConnections` after the grouping loop. -/
def chosenGroup (v3 : List NodeEvictionCandidate) : List Nat :=
  (v3.foldl GroupScan.step GroupScan.init).naMostConnections

/-- What the grouping loop maintains over the candidates `l` processed so far:
the map holds each group's members in processing order, no group is larger
than `nMostConnections`, the chosen group has exactly that size and
`nMostConnectionsTime` is the connect time of its first member, and no group of
that size has a first member connected later. -/
def ScanInv (l : List NodeEvictionCandidate) (s : GroupScan) : Prop :=
  (∀ g, s.mapAddrCounts g = l.filter (fun c => decide (c.vchNetGroup = g))) ∧
  (∀ g, (s.mapAddrCounts g).length ≤ s.nMostConnections) ∧
  (l ≠ [] → (s.mapAddrCounts s.naMostConnections).length = s.nMostConnections ∧
    ∃ first, (s.mapAddrCounts s.naMostConnections).head? = some first ∧
      s.nMostConnectionsTime = first.nTimeConnected) ∧
  (l = [] → s.nMostConnections = 0) ∧
  (∀ g first, (s.mapAddrCounts g).head? = some first →
    (s.mapAddrCounts g).length = s.nMostConnections →
    first.nTimeConnected ≤ s.nMostConnectionsTime)

/-- A registry for examples with two network groups of two survivors each.
Ids 16..19 have the highest keyed groups and ids 8..15 the lowest pings, so ids
0..7 are left after the first two steps; of these, ids 4..7 are the older half.
The survivors are ids 0..3: network group 7 holds the connections made at
times 100 and 50, network group 8 those made at times 90 and 80. -/
def tieSample : List CNode :=
  [sampleNode 0 100 500 7 0, sampleNode 1 90 501 8 1, sampleNode 2 80 502 8 2,
   sampleNode 3 50 503 7 3, sampleNode 4 40 504 9 4, sampleNode 5 30 505 10 5,
   sampleNode 6 29 506 11 6, sampleNode 7 28 507 12 7,
   sampleNode 8 27 8 13 8, sampleNode 9 26 9 14 9, sampleNode 10 25 10 15 10,
   sampleNode 11 24 11 16 11, sampleNode 12 23 12 17 12, sampleNode 13 22 13 18 13,
   sampleNode 14 21 14 19 14, sampleNode 15 20 15 20 15,
   sampleNode 16 19 600 21 16, sampleNode 17 18 601 22 17, sampleNode 18 17 602 23 18,
   sampleNode 19 16 603 24 19]

/-! ## Accepting a connection (`net.cpp` 968-1046) -/

/-- What `AcceptConnection` reads besides the registry: the outcome of `accept`,
the listening socket, the peer address, the whitelist ranges, the ban store, the
clock, the inbound limit `nMaxConnections - MAX_OUTBOUND_CONNECTIONS`, the
masternode flags, and the id, network group and keyed network group the new
connection would get. -/
structure AcceptInput (S A : Type) where
  fSocketValid : Bool
  fSelectable : Bool
  listenWhitelisted : Bool
  addr : A
  vWhitelistedRange : List S
  setBanned : List (S × CBanEntry)
  now : Int
  nMaxInbound : Int
  fMasterNode : Bool
  fSynced : Bool
  fProd : Bool
  nLastNodeId : Int
  addrGroup : List Nat
  keyedNetGroup : List Nat

/-- The result of `AcceptConnection`: whether the connection was added, whether
`AttemptToEvictConnection` was called, and the registry afterwards. -/
structure AcceptResult where
  fAccepted : Bool
  fEvictionTried : Bool
  vNodes : List CNode
deriving DecidableEq, Repr

/-- Source `CNode::IsWhitelistedRange(addr)`. -/
def IsWhitelistedRange {S A : Type} (subNetMatch : S → A → Bool) (vWhitelistedRange : List S)
    (addr : A) : Bool :=
  vWhitelistedRange.any (fun subnet => subNetMatch subnet addr)

/-- The connection `new CNode(hSocket, addr, "", true)` with `fWhitelisted`
assigned, restricted to the fields of `CNode` modelled here. -/
def newInboundNode {S A : Type} (inp : AcceptInput S A) (whitelisted : Bool) : CNode :=
  { id := inp.nLastNodeId, fWhitelisted := whitelisted, fInbound := true, fDisconnect := false,
    nTimeConnected := inp.now, nMinPingUsecTime := 2 ^ 63 - 1, netGroup := inp.addrGroup,
    vchKeyedNetGroup := inp.keyedNetGroup }

/-- Source `AcceptConnection(hListenSocket)` on the registry `vNodes`. -/
def AcceptConnection {S A : Type} (subNetMatch : S → A → Bool) (sort : SortFn)
    (inp : AcceptInput S A) (vNodes : List CNode) : AcceptResult :=
  let whitelisted := inp.listenWhitelisted || IsWhitelistedRange subNetMatch inp.vWhitelistedRange inp.addr
  let nInbound : Int := ((vNodes.filter (fun pnode => pnode.fInbound)).length : Int)
  if !inp.fSocketValid then { fAccepted := false, fEvictionTried := false, vNodes := vNodes }
  else if !inp.fSelectable then { fAccepted := false, fEvictionTried := false, vNodes := vNodes }
  else if IsBanned subNetMatch inp.setBanned inp.now inp.addr && !whitelisted then
    { fAccepted := false, fEvictionTried := false, vNodes := vNodes }
  else
    let full := decide (nInbound ≥ inp.nMaxInbound)
    let ev := if full then AttemptToEvictConnection sort whitelisted vNodes else (true, vNodes)
    if full && !ev.1 then { fAccepted := false, fEvictionTried := true, vNodes := ev.2 }
    else if inp.fMasterNode && !inp.fSynced && !whitelisted && inp.fProd then
      { fAccepted := false, fEvictionTried := full, vNodes := ev.2 }
    else
      { fAccepted := true, fEvictionTried := full,
        vNodes := ev.2 ++ [newInboundNode inp whitelisted] }

/-- An accepted, selectable connection from 10.1.2.3 for examples, not
whitelisted, with 10.0.0.0/8 banned until time 500 and the clock at 100. -/
def sampleAcceptInput : AcceptInput CSubNet Nat :=
  { fSocketValid := true, fSelectable := true, listenWhitelisted := false,
    addr := ipv4 10 1 2 3, vWhitelistedRange := [],
    setBanned := [({ network := ipv4 10 0 0 0, prefixLen := 8 },
      { nCreateTime := 0, nBanUntil := 500, banReason := 1 })],
    now := 100, nMaxInbound := 125, fMasterNode := false, fSynced := true, fProd := true,
    nLastNodeId := 99, addrGroup := [10, 1], keyedNetGroup := [5] }

/-! ## Opportunistic dialer (`ThreadOpenConnections`, `net.cpp` 1546-1621) -/

/-- What the dialer asks of an address: `IsValid`, `GetGroup`, `IsLocal`,
`IsLimited`, `nLastTry`, `GetPort`; the default port of the chain; and the
default-constructed `CAddress` that `addrConnect` starts as. -/
structure DialEnv (A : Type) where
  IsValid : A → Bool
  GetGroup : A → List Nat
  IsLocal : A → Bool
  IsLimited : A → Bool
  nLastTry : A → Int
  GetPort : A → Nat
  defaultPort : Nat
  addrDefault : A

/-- The set `setConnected`: the network groups of the outbound connections. -/
def setConnected (vNodes : List CNode) : List (List Nat) :=
  (vNodes.filter (fun pnode => !pnode.fInbound)).map (fun pnode => pnode.netGroup)

/-- The inner `while (true)` loop of one round: `select k` is what the `k`-th
call of `addrman.Select()` returns, `nTries` the counter at the head of the
iteration; the value is `addrConnect` when the loop is left, `none` when the
bound on the number of iterations is used up. -/
def selectLoop {A : Type} (E : DialEnv A) (connected : List (List Nat)) (nANow : Int)
    (select : Nat → A) : Nat → Nat → Option A
  | 0, _ => none
  | fuel + 1, nTries =>
    let addr := select nTries
    if !E.IsValid addr || connected.contains (E.GetGroup addr) || E.IsLocal addr then
      some E.addrDefault
    else if nTries + 1 > 100 then some E.addrDefault
    else if E.IsLimited addr then selectLoop E connected nANow select fuel (nTries + 1)
    else if decide (nANow - E.nLastTry addr < 600) && decide (nTries + 1 < 30) then
      selectLoop E connected nANow select fuel (nTries + 1)
    else if decide (E.GetPort addr ≠ E.defaultPort) && decide (nTries + 1 < 50) then
      selectLoop E connected nANow select fuel (nTries + 1)
    else some addr

/-- One round of the opportunistic dialer after the seed handling: the outer
`some` says that the inner loop was left, the inner value is the address passed
to `OpenNetworkConnection`, if any. -/
def dialRound {A : Type} (E : DialEnv A) (vNodes : List CNode) (nANow : Int)
    (select : Nat → A) : Option (Option A) :=
  match selectLoop E (setConnected vNodes) nANow select 102 0 with
  | none => none
  | some addrConnect => some (if E.IsValid addrConnect then some addrConnect else none)

/-- An address for examples: validity, network group, local, limited, last
try, port. -/
structure SampleAddr where
  fValid : Bool
  group : List Nat
  fLocal : Bool
  fLimited : Bool
  nLastTry : Int
  port : Nat
deriving DecidableEq, Repr

/-- The dialer environment for `SampleAddr`, default port 40000, with an invalid
default address. -/
def sampleDialEnv : DialEnv SampleAddr :=
  { IsValid := fun a => a.fValid, GetGroup := fun a => a.group, IsLocal := fun a => a.fLocal,
    IsLimited := fun a => a.fLimited, nLastTry := fun a => a.nLastTry, GetPort := fun a => a.port,
    defaultPort := 40000,
    addrDefault := { fValid := false, group := [], fLocal := false, fLimited := false,
                     nLastTry := 0, port := 0 } }

/-- A sequence of candidates for examples: a limited address, an address tried
a moment ago, then a good address in group 77. -/
def sampleSelect (k : Nat) : SampleAddr :=
  if k = 0 then { fValid := true, group := [70], fLocal := false, fLimited := true,
                  nLastTry := 0, port := 40000 }
  else if k = 1 then { fValid := true, group := [71], fLocal := false, fLimited := false,
                       nLastTry := 999, port := 40000 }
  else { fValid := true, group := [77], fLocal := false, fLimited := false,
         nLastTry := 0, port := 40000 }

/-! ## Disconnect pass of `ThreadSocketHandler` (`net.cpp` 1050-1115) -/

/-- The fields of a connection that the disconnect pass reads or writes:
`fRecvEmpty` is `vRecvMsg.empty()`, `fSendEmpty` is `ssSend.empty()`. -/
structure SockNode where
  id : Int
  fDisconnect : Bool
  nRefCount : Int
  fNetworkNode : Bool
  fInbound : Bool
  fMasternode : Bool
  fRecvEmpty : Bool
  nSendSize : Nat
  fSendEmpty : Bool
deriving DecidableEq, Repr

/-- The registry `vNodes`, the pool `vNodesDisconnected`, and the connections
deleted so far. -/
structure SockState where
  vNodes : List SockNode
  vNodesDisconnected : List SockNode
  deleted : List SockNode
deriving DecidableEq, Repr

/-- Modelled from the spec: `CNode::AddRef()` is in `net.h`: one more reference. -/
def SockNode.AddRef (pnode : SockNode) : SockNode :=
  { pnode with nRefCount := pnode.nRefCount + 1 }

/-- Modelled from the spec: `CNode::Release()` is in `net.h`: one reference
less. -/
def SockNode.Release (pnode : SockNode) : SockNode :=
  { pnode with nRefCount := pnode.nRefCount - 1 }

/-- The test of the first loop: the connection is flagged, or it is unreferenced
with nothing queued. -/
def shouldRemove (pnode : SockNode) : Bool :=
  pnode.fDisconnect ||
    (decide (pnode.nRefCount ≤ 0) && pnode.fRecvEmpty && decide (pnode.nSendSize = 0) &&
      pnode.fSendEmpty)

/-- Source `CNode::CloseSocketDisconnect()`; `lockRecv` is the outcome of
`TRY_LOCK(cs_vRecvMsg, lockRecv)`. -/
def CloseSocketDisconnect (lockRecv : Bool) (pnode : SockNode) : SockNode :=
  { pnode with fDisconnect := true, fRecvEmpty := pnode.fRecvEmpty || lockRecv }

/-- The body of the first loop for a connection that is removed: close, and
release the references the registry held. -/
def removeNode (tryRecv : Int → Bool) (pnode : SockNode) : SockNode :=
  let p1 := CloseSocketDisconnect (tryRecv pnode.id) pnode
  let p2 := if p1.fNetworkNode || p1.fInbound then p1.Release else p1
  if p2.fMasternode then p2.Release else p2

/-- The first loop ("Disconnect nodes"): every connection of the copy that meets
the test leaves `vNodes` and is pushed to `vNodesDisconnected`. -/
def disconnectNodes (tryRecv : Int → Bool) (st : SockState) : SockState :=
  { st with
    vNodes := st.vNodes.filter (fun pnode => !shouldRemove pnode)
    vNodesDisconnected :=
      st.vNodesDisconnected ++ (st.vNodes.filter shouldRemove).map (removeNode tryRecv) }

/-- The test of the second loop: no reference is left and the three
`TRY_LOCK`s (`tryLocks`) all succeed. -/
def canDelete (tryLocks : Int → Bool) (pnode : SockNode) : Bool :=
  decide (pnode.nRefCount ≤ 0) && tryLocks pnode.id

/-- The second loop ("Delete disconnected nodes"). -/
def deleteDisconnected (tryLocks : Int → Bool) (st : SockState) : SockState :=
  { st with
    vNodesDisconnected := st.vNodesDisconnected.filter (fun pnode => !canDelete tryLocks pnode)
    deleted := st.deleted ++ st.vNodesDisconnected.filter (canDelete tryLocks) }

/-- One disconnect pass: both loops. -/
def disconnectPass (tryRecv tryLocks : Int → Bool) (st : SockState) : SockState :=
  deleteDisconnected tryLocks (disconnectNodes tryRecv st)

/-- The connections a pass deletes. -/
def deletedNow (tryRecv tryLocks : Int → Bool) (st : SockState) : List SockNode :=
  (disconnectNodes tryRecv st).vNodesDisconnected.filter (canDelete tryLocks)

/-- Source `CopyNodeVector()`: every connection of the registry gets one more
reference. -/
def CopyNodeVector (st : SockState) : SockState :=
  { st with vNodes := st.vNodes.map SockNode.AddRef }

/-- Source `ReleaseNodeVector(vecNodes)`, the vector given by the ids of its
connections: each of them, wherever it is by now, loses one reference. -/
def ReleaseNodeVector (vecNodes : List Int) (st : SockState) : SockState :=
  { st with
    vNodes := st.vNodes.map (fun pnode => if pnode.id ∈ vecNodes then pnode.Release else pnode)
    vNodesDisconnected :=
      st.vNodesDisconnected.map (fun pnode => if pnode.id ∈ vecNodes then pnode.Release else pnode) }

/-- A flagged inbound connection for examples, with the reference of the
registry and one more from a holder. -/
def sampleSockNode : SockNode :=
  { id := 7, fDisconnect := true, nRefCount := 2, fNetworkNode := false, fInbound := true,
    fMasternode := false, fRecvEmpty := true, nSendSize := 0, fSendEmpty := true }

/-! ## Send queue (`net.cpp` 798-842, 2577-2614) -/

/-- The outcome of one `send()` call: the returned count, and whether the error
code is a hard one (none of would-block, message-size, interrupted,
in-progress). -/
structure SendResult where
  nBytes : Int
  fHardError : Bool
deriving DecidableEq, Repr

/-- The socket as `SocketSendData` sees it: the outcome of the `k`-th `send()`
call of an invocation when asked to send `len` bytes. -/
abbrev SendFn := Nat → Nat → SendResult

/-- The send side of a connection: the queue `vSendMsg`, `nSendOffset`,
`nSendSize`, `nSendBytes`, `nLastSend`, `fDisconnect`; and, for the statements,
the bytes the socket has accepted so far (`wire`) and the blocks queued so far
by `EndMessage` (`queued`). -/
structure SendState where
  vSendMsg : List (List Nat)
  nSendOffset : Nat
  nSendSize : Nat
  nSendBytes : Nat
  nLastSend : Int
  fDisconnect : Bool
  wire : List Nat
  queued : List (List Nat)
deriving DecidableEq, Repr

/-- A new connection: nothing queued, nothing sent. -/
def SendState.init : SendState :=
  { vSendMsg := [], nSendOffset := 0, nSendSize := 0, nSendBytes := 0, nLastSend := 0,
    fDisconnect := false, wire := [], queued := [] }

/-- The `while` loop of `SocketSendData`, from the iterator position `it` (the
blocks not yet passed): the state and the position when the loop is left,
`none` when `assert(data.size() > pnode->nSendOffset)` fails. `k` counts the
`send()` calls made. -/
def sendLoop (send : SendFn) (now : Int) : Nat → List (List Nat) → SendState →
    Option (SendState × List (List Nat))
  | _, [], st => some (st, [])
  | k, data :: rest, st =>
    if data.length > st.nSendOffset then
      let r := send k (data.length - st.nSendOffset)
      if r.nBytes > 0 then
        let st1 : SendState :=
          { st with
            nLastSend := now
            nSendBytes := st.nSendBytes + r.nBytes.toNat
            nSendOffset := st.nSendOffset + r.nBytes.toNat
            wire := st.wire ++ (data.drop st.nSendOffset).take r.nBytes.toNat }
        if st1.nSendOffset = data.length then
          sendLoop send now (k + 1) rest
            { st1 with nSendOffset := 0, nSendSize := st1.nSendSize - data.length }
        else some (st1, data :: rest)
      else
        some ({ st with fDisconnect := st.fDisconnect || (decide (r.nBytes < 0) && r.fHardError) },
          data :: rest)
    else none

/-- Source `SocketSendData(pnode)`: the loop, the two assertions made when the
whole queue was passed, and the erasure of the blocks passed; `none` when an
assertion fails. -/
def SocketSendData (send : SendFn) (now : Int) (st : SendState) : Option SendState :=
  match sendLoop send now 0 st.vSendMsg st with
  | none => none
  | some (st1, it) =>
    if it.isEmpty && !(decide (st1.nSendOffset = 0) && decide (st1.nSendSize = 0)) then none
    else some { st1 with vSendMsg := it }

/-- Modelled from the spec: the header layout of `protocol.h` (4 bytes of magic,
12 of command, 4 of length, 4 of checksum): `CMessageHeader::HEADER_SIZE`. -/
def HEADER_SIZE : Nat := 24

/-- Modelled from the spec: `CMessageHeader::MESSAGE_SIZE_OFFSET`. -/
def MESSAGE_SIZE_OFFSET : Nat := 16

/-- Modelled from the spec: `CMessageHeader::CHECKSUM_OFFSET`. -/
def CHECKSUM_OFFSET : Nat := 20

/-- The four little-endian bytes of a 32-bit value (`WriteLE32`). -/
def le32 (n : Nat) : List Nat :=
  [n % 256, n / 256 % 256, n / 65536 % 256, n / 16777216 % 256]

/-- The block `EndMessage` queues: `ssSend` with the payload size and the
checksum written into the header; `checksum` is the first 4 bytes of the double
hash, as a 32-bit value. -/
def frameMessage (checksum : List Nat → Nat) (ssSend : List Nat) : List Nat :=
  let nSize := (ssSend.length + 2 ^ 32 - HEADER_SIZE) % 2 ^ 32
  let s1 := memcpy ssSend MESSAGE_SIZE_OFFSET (le32 nSize)
  memcpy s1 CHECKSUM_OFFSET (le32 (checksum (s1.drop HEADER_SIZE)))

/-- Source `CNode::EndMessage()` for the stream content `ssSend` (after the
optional fuzzing); `fDrop` is the outcome of the `-dropmessagestest` draw;
`none` when an assertion fails. -/
def EndMessage (checksum : List Nat → Nat) (send : SendFn) (now : Int) (fDrop : Bool)
    (ssSend : List Nat) (st : SendState) : Option SendState :=
  if fDrop then some st
  else if ssSend.length = 0 then some st
  else if ssSend.length < CHECKSUM_OFFSET + 4 then none
  else
    let block := frameMessage checksum ssSend
    let st1 : SendState :=
      { st with
        vSendMsg := st.vSendMsg ++ [block]
        nSendSize := st.nSendSize + block.length
        queued := st.queued ++ [block] }
    if st.vSendMsg.isEmpty then SocketSendData send now st1 else some st1

/-- A call on the send side of a connection. -/
inductive SendOp where
  | endMessage (fDrop : Bool) (ssSend : List Nat) (send : SendFn)
  | socketSendData (send : SendFn)

/-- An interleaving of `EndMessage` and `SocketSendData` calls. -/
def runSendOps (checksum : List Nat → Nat) (now : Int) : SendState → List SendOp → Option SendState
  | st, [] => some st
  | st, SendOp.endMessage fDrop ssSend send :: ops =>
    match EndMessage checksum send now fDrop ssSend st with
    | none => none
    | some st1 => runSendOps checksum now st1 ops
  | st, SendOp.socketSendData send :: ops =>
    match SocketSendData send now st with
    | none => none
    | some st1 => runSendOps checksum now st1 ops

/-- A `send()` never reports more bytes than it was asked to send. -/
def SendFn.WellBehaved (send : SendFn) : Prop := ∀ k len, (send k len).nBytes ≤ (len : Int)

/-- The calls of an interleaving use well-behaved sockets, and every stream
handed to `EndMessage` is empty or starts with a whole header (as
`BeginMessage` writes it). -/
def SendOp.Admissible : SendOp → Prop
  | SendOp.endMessage _ ssSend send => send.WellBehaved ∧ (ssSend.length = 0 ∨ HEADER_SIZE ≤ ssSend.length)
  | SendOp.socketSendData send => send.WellBehaved

/-- The send queue between calls: every block is non-empty, `nSendSize` is the
total size of the queue, `nSendOffset` lies inside the front block (0 on an
empty queue), and the bytes accepted by the socket followed by the bytes still
to send are the queued blocks, in order. -/
def SendInv (it : List (List Nat)) (st : SendState) : Prop :=
  (∀ b ∈ it, b ≠ []) ∧
  st.nSendSize = (it.map List.length).sum ∧
  (it = [] → st.nSendOffset = 0) ∧
  (∀ b rest, it = b :: rest → st.nSendOffset < b.length) ∧
  st.wire ++ it.flatten.drop st.nSendOffset = st.queued.flatten

/-- A socket for examples that accepts at most 3 bytes per call. -/
def sampleSend : SendFn := fun _ len => { nBytes := min 3 len, fHardError := false }

/-- A socket for examples that would block. -/
def sampleBlocked : SendFn := fun _ _ => { nBytes := -1, fHardError := false }

/-- An interleaving for examples: two messages queued, the socket taking at most
3 bytes per call or blocking. -/
def sampleSendOps : List SendOp :=
  [SendOp.endMessage false (sampleHeader 2 ++ [7, 8]) sampleSend,
   SendOp.socketSendData sampleSend,
   SendOp.endMessage false (sampleHeader 0) sampleBlocked,
   SendOp.socketSendData sampleSend]

/-! ## Inactivity check of `ThreadSocketHandler` (`net.cpp` 1283-1306) -/

/-- The constants the inactivity check takes from outside `net.cpp`:
`TIMEOUT_INTERVAL` (`net.h`) and `BIP0031_VERSION` (`version.h`). -/
structure TimeoutParams where
  TIMEOUT_INTERVAL : Int
  BIP0031_VERSION : Int

/-- The fields of a connection that the inactivity check reads or writes. -/
structure TimedNode where
  nTimeConnected : Int
  nLastSend : Int
  nLastRecv : Int
  nVersion : Int
  nPingNonceSent : Nat
  nPingUsecStart : Int
  fDisconnect : Bool
deriving DecidableEq, Repr

/-- The receive-silence threshold of the inactivity check, the expression
`pnode->nVersion > BIP0031_VERSION ? TIMEOUT_INTERVAL : 90*60`. -/
def receiveTimeout (T : TimeoutParams) (nVersion : Int) : Int :=
  if nVersion > T.BIP0031_VERSION then T.TIMEOUT_INTERVAL else 90 * 60

/-- The inactivity check of `ThreadSocketHandler` for one connection; `nTime` is
`GetTime()` and `nowMicros` is `GetTimeMicros()`. -/
def inactivityCheck (T : TimeoutParams) (nTime nowMicros : Int) (pnode : TimedNode) : TimedNode :=
  if nTime - pnode.nTimeConnected > 60 then
    if pnode.nLastRecv = 0 ∨ pnode.nLastSend = 0 then { pnode with fDisconnect := true }
    else if nTime - pnode.nLastSend > T.TIMEOUT_INTERVAL then { pnode with fDisconnect := true }
    else if nTime - pnode.nLastRecv > receiveTimeout T pnode.nVersion then
      { pnode with fDisconnect := true }
    else if pnode.nPingNonceSent ≠ 0 ∧
        pnode.nPingUsecStart + T.TIMEOUT_INTERVAL * 1000000 < nowMicros then
      { pnode with fDisconnect := true }
    else pnode
  else pnode

/-- Modelled from the spec: `TIMEOUT_INTERVAL` is 20 minutes (`net.h`); the
protocol version that introduced the ping reply is 60000 (`version.h`). -/
def sampleTimeouts : TimeoutParams := { TIMEOUT_INTERVAL := 20 * 60, BIP0031_VERSION := 60000 }

/-- A connection for examples: connected at time 0, last send at 9500, last
receive at 7000, no ping outstanding, with protocol version `nVersion`. -/
def sampleTimedNode (nVersion : Int) : TimedNode :=
  { nTimeConnected := 0, nLastSend := 9500, nLastRecv := 7000, nVersion := nVersion,
    nPingNonceSent := 0, nPingUsecStart := 0, fDisconnect := false }

/-! ## One-shot dialer (`net.cpp` 157-161, 1508-1524) -/

/-- Source `AddOneShot(strDest)` on the queue `vOneShots`. -/
def AddOneShot {D : Type} (vOneShots : List D) (strDest : D) : List D := vOneShots ++ [strDest]

/-- Source `ProcessOneShot()` on the queue `vOneShots`: the queue afterwards and the
destination a connection was opened to, if any. `fGrant` is whether the
non-blocking `CSemaphoreGrant grant(*semOutbound, true)` obtained a slot, and
`OpenNetworkConnection` is the outcome of the connection attempt. -/
def ProcessOneShot {D : Type} (fGrant : Bool) (OpenNetworkConnection : D → Bool)
    (vOneShots : List D) : List D × Option D :=
  match vOneShots with
  | [] => ([], none)
  | strDest :: rest =>
    if fGrant then
      if !OpenNetworkConnection strDest then (AddOneShot rest strDest, none)
      else (rest, some strDest)
    else (rest, none)

/-! ## Ban store: sweeping and unbanning (`net.cpp` 588-633) -/

/-- The loop of `CNode::SweepBanned`: the entries kept and the dirty flag. -/
def sweepLoop {S : Type} (now : Int) : List (S × CBanEntry) → Bool → List (S × CBanEntry) × Bool
  | [], dirty => ([], dirty)
  | it :: rest, dirty =>
    if now > it.2.nBanUntil then sweepLoop now rest true
    else
      let r := sweepLoop now rest dirty
      (it :: r.1, r.2)

/-- Source `CNode::SweepBanned()`. -/
def SweepBanned {S : Type} (now : Int) (st : BanStore S) : BanStore S :=
  let r := sweepLoop now st.setBanned st.setBannedIsDirty
  { setBanned := r.1, setBannedIsDirty := r.2 }

/-- Source `CNode::Unban(const CSubNet&)`: the returned flag and the store afterwards;
`setBanned.erase(subNet)` returns the number of entries it removed. -/
def Unban {S : Type} [DecidableEq S] (st : BanStore S) (subNet : S) : Bool × BanStore S :=
  let m1 := mapErase st.setBanned subNet
  if st.setBanned.length - m1.length ≠ 0 then (true, { setBanned := m1, setBannedIsDirty := true })
  else (false, { st with setBanned := m1 })

/-- Source `CNode::Unban(const CNetAddr&)`; `ofAddr` is the constructor `CSubNet(addr)`. -/
def UnbanAddr {S A : Type} [DecidableEq S] (ofAddr : A → S) (st : BanStore S) (addr : A) :
    Bool × BanStore S :=
  Unban st (ofAddr addr)

/-- Modelled from the spec: the constructor `CSubNet(const CNetAddr&)` (netbase)
gives the subnet that holds exactly that address. -/
def CSubNet.ofAddr (ip : Nat) : CSubNet := { network := ip, prefixLen := 32 }

/-- A ban store for examples: 10.0.0.0/8 banned until time 1000. -/
def sampleBanStore : BanStore CSubNet :=
  { setBanned := [({ network := ipv4 10 0 0 0, prefixLen := 8 },
      { nCreateTime := 0, nBanUntil := 1000, banReason := 1 })],
    setBannedIsDirty := false }

/-- A ban store for examples with three entries, expiring at 50, 100 and 1000. -/
def sampleSweepStore : BanStore CSubNet :=
  { setBanned :=
      [({ network := ipv4 10 0 0 0, prefixLen := 8 }, { nCreateTime := 0, nBanUntil := 50, banReason := 1 }),
       ({ network := ipv4 11 0 0 0, prefixLen := 8 }, { nCreateTime := 0, nBanUntil := 100, banReason := 1 }),
       ({ network := ipv4 12 0 0 0, prefixLen := 8 }, { nCreateTime := 0, nBanUntil := 1000, banReason := 1 })],
    setBannedIsDirty := false }

/-! ## Outbound traffic target (`net.cpp` 2228-2281) -/

/-- The counters of the outbound target, all `uint64_t`. -/
structure OutboundState where
  nMaxOutboundLimit : Nat
  nMaxOutboundTotalBytesSentInCycle : Nat
  nMaxOutboundCycleStartTime : Nat
  nMaxOutboundTimeframe : Nat
deriving DecidableEq, Repr

/-- Subtraction of `uint64_t` values. -/
def sub64 (a b : Nat) : Nat := (a + 2 ^ 64 - b % 2 ^ 64) % 2 ^ 64

/-- Source `CNode::GetMaxOutboundTimeLeftInCycle()`; `now` and `now2` are the two
readings of `GetTime()`, converted to `uint64_t`. -/
def GetMaxOutboundTimeLeftInCycle (st : OutboundState) (now now2 : Int) : Nat :=
  if st.nMaxOutboundLimit = 0 then 0
  else if st.nMaxOutboundCycleStartTime = 0 then st.nMaxOutboundTimeframe
  else
    let cycleEndTime := (st.nMaxOutboundCycleStartTime + st.nMaxOutboundTimeframe) % 2 ^ 64
    if cycleEndTime < (now % 2 ^ 64).toNat then 0
    else sub64 cycleEndTime (now2 % 2 ^ 64).toNat

/-- Source `CNode::OutboundTargetReached(historicalBlockServingLimit)`; `MAX_BLOCK_SIZE` is
the constant of `consensus.h`. -/
def OutboundTargetReached (MAX_BLOCK_SIZE : Nat) (st : OutboundState) (now now2 : Int)
    (historicalBlockServingLimit : Bool) : Bool :=
  if st.nMaxOutboundLimit = 0 then false
  else if historicalBlockServingLimit then
    let timeLeftInCycle := GetMaxOutboundTimeLeftInCycle st now now2
    let buffer := (timeLeftInCycle / 600 * MAX_BLOCK_SIZE) % 2 ^ 64
    if buffer ≥ st.nMaxOutboundLimit ∨
        st.nMaxOutboundTotalBytesSentInCycle ≥ sub64 st.nMaxOutboundLimit buffer then true
    else false
  else if st.nMaxOutboundTotalBytesSentInCycle ≥ st.nMaxOutboundLimit then true
  else false

/-- Source `CNode::GetOutboundTargetBytesLeft()`. -/
def GetOutboundTargetBytesLeft (st : OutboundState) : Nat :=
  if st.nMaxOutboundLimit = 0 then 0
  else if st.nMaxOutboundTotalBytesSentInCycle ≥ st.nMaxOutboundLimit then 0
  else sub64 st.nMaxOutboundLimit st.nMaxOutboundTotalBytesSentInCycle

/-- Counters for examples: a limit of 5000 bytes, 1200 sent, one hour of a cycle
that has not started yet. -/
def sampleOutbound : OutboundState :=
  { nMaxOutboundLimit := 5000, nMaxOutboundTotalBytesSentInCycle := 1200,
    nMaxOutboundCycleStartTime := 0, nMaxOutboundTimeframe := 3600 }

/-! ## Send queue: the invariant without the bookkeeping of sent bytes -/

/-- The send queue from the iterator position `it` on: every block is non-empty,
`nSendSize` is the total size of the blocks, and `nSendOffset` is 0 on an empty
queue and inside the front block otherwise. -/
def SendQueueInv (it : List (List Nat)) (st : SendState) : Prop :=
  (∀ b ∈ it, b ≠ []) ∧
  st.nSendSize = (it.map List.length).sum ∧
  (it = [] → st.nSendOffset = 0) ∧
  (∀ b rest, it = b :: rest → st.nSendOffset < b.length)

/-- A send state for examples: two blocks queued, the first partly sent. -/
def sampleSendState : SendState :=
  { vSendMsg := [[1, 2, 3, 4, 5], [6, 7]], nSendOffset := 2, nSendSize := 7, nSendBytes := 2,
    nLastSend := 3, fDisconnect := false, wire := [1, 2], queued := [[1, 2, 3, 4, 5], [6, 7]] }

/-! ## Message framer: reachable queues and feeding schedules -/

/-- The receive queues reachable from the empty queue through `ReceiveMsgBytes`
calls that returned true; the buffer of a call has fewer than `2 ^ 32` bytes,
`nBytes` being an `unsigned int`. -/
inductive Reachable (P : FramerParams) : List CNetMessage → Prop
  | empty : Reachable P []
  | call (now : Int) (q : List CNetMessage) (pch : List Nat) (q1 : List CNetMessage) :
      Reachable P q → pch.length < 2 ^ 32 → ReceiveMsgBytes P now q pch = some (true, q1) →
      Reachable P q1

/-- What every message of a reachable queue satisfies: the header buffer has 24
bytes; in header mode fewer than 24 of them are filled and there is no payload
yet; in payload mode the declared length is within the protocol maximum and the
payload position lies inside the buffer, which is no longer than the declared
length. -/
structure MsgInv (P : FramerParams) (m : CNetMessage) : Prop where
  hdrbuf_length : m.hdrbuf.length = 24
  header_mode : m.in_data = false → m.nHdrPos < 24 ∧ m.nDataPos = 0 ∧ m.vRecv = []
  data_mode : m.in_data = true → m.hdr.nMessageSize ≤ P.MAX_PROTOCOL_MESSAGE_LENGTH ∧
    m.nDataPos ≤ m.vRecv.length ∧ m.vRecv.length ≤ m.hdr.nMessageSize

/-- What every reachable queue satisfies: each message satisfies `MsgInv`, and
every message but the last is complete. -/
def FramerInv (P : FramerParams) (q : List CNetMessage) : Prop :=
  (∀ m ∈ q, MsgInv P m) ∧ ∀ m ∈ q.dropLast, m.complete = true

/-- A message without its timestamp and without the part of the payload buffer
beyond the payload position. -/
structure MsgView where
  in_data : Bool
  hdrbuf : List Nat
  hdr : CMessageHeader
  nHdrPos : Nat
  payload : List Nat
  nDataPos : Nat
deriving DecidableEq, Repr

/-- The view of a message. -/
def CNetMessage.view (m : CNetMessage) : MsgView :=
  { in_data := m.in_data, hdrbuf := m.hdrbuf, hdr := m.hdr, nHdrPos := m.nHdrPos,
    payload := m.vRecv.take m.nDataPos, nDataPos := m.nDataPos }

/-- The number of bytes a message still takes: the rest of the header in header
mode, the rest of the declared payload in payload mode. -/
def bytesWanted (v : MsgView) : Nat :=
  if v.in_data then v.hdr.nMessageSize - v.nDataPos else 24 - v.nHdrPos

/-- The effect on the view of handing a message `bytes` (no more than it still
takes): payload bytes are appended; header bytes are copied into the header
buffer, and when that completes the header it is deserialised and checked
against both size limits (`none` where `ReceiveMsgBytes` returns false). -/
def viewStep (P : FramerParams) (v : MsgView) (bytes : List Nat) : Option MsgView :=
  if v.in_data then
    some { v with payload := v.payload ++ bytes, nDataPos := v.nDataPos + bytes.length }
  else
    let hdrbuf := memcpy v.hdrbuf v.nHdrPos bytes
    let pos := v.nHdrPos + bytes.length
    if pos < 24 then some { v with hdrbuf := hdrbuf, nHdrPos := pos }
    else
      match P.deserializeHeader hdrbuf with
      | none => none
      | some h =>
        if h.nMessageSize > P.MAX_SIZE ∨ h.nMessageSize > P.MAX_PROTOCOL_MESSAGE_LENGTH then none
        else some { v with hdrbuf := hdrbuf, nHdrPos := pos, hdr := h, in_data := true }

/-- Two `ReceiveMsgBytes` calls in a row, on `a` and then on `b`; the second call is
made only when the first returned true. -/
def receiveTwoCalls (P : FramerParams) (now1 now2 : Int) (vRecvMsg : List CNetMessage)
    (a b : List Nat) : Option (Bool × List CNetMessage) :=
  match ReceiveMsgBytes P now1 vRecvMsg a with
  | some (true, q1) => ReceiveMsgBytes P now2 q1 b
  | r => r

/-- Two feeding schedules have the same outcome: both return, with the same
flag, and when the flag is true the two queues hold the same messages up to
timestamps and spare buffer capacity. -/
def SameOutcome (r1 r2 : Option (Bool × List CNetMessage)) : Prop :=
  ∃ x1 x2, r1 = some x1 ∧ r2 = some x2 ∧ x1.1 = x2.1 ∧
    (x1.1 = true → x1.2.map CNetMessage.view = x2.2.map CNetMessage.view)

/-- A stream for examples: a message with a 2-byte payload, a message with an
empty payload, and the first 5 header bytes of a third message. -/
def sampleStream : List Nat :=
  sampleHeader 2 ++ [7, 8] ++ sampleHeader 0 ++ [1, 2, 3, 4, 0]

/-- The queue after the first 25 bytes of `sampleStream` were received in one
call: one message, with one of its two payload bytes. -/
def sampleQueue : List CNetMessage :=
  ((ReceiveMsgBytes sampleParams 0 [] (sampleStream.take 25)).getD (false, [])).2

/-! ## Theorems: ban store -/

theorem isBanned_foldl_iff {S A : Type} (subNetMatch : S → A → Bool) (now : Int) (ip : A)
    (l : List (S × CBanEntry)) (acc : Bool) :
    l.foldl (fun fResult it =>
        if subNetMatch it.1 ip && decide (now < it.2.nBanUntil) then true else fResult) acc = true ↔
      acc = true ∨ ∃ it ∈ l, subNetMatch it.1 ip = true ∧ now < it.2.nBanUntil := by
  induction l generalizing acc with
  | nil => simp
  | cons x xs ih =>
    rw [List.foldl_cons, ih]
    by_cases h : subNetMatch x.1 ip = true ∧ now < x.2.nBanUntil
    · obtain ⟨h1, h2⟩ := h
      simp [h1, h2]
    · have h' : (subNetMatch x.1 ip && decide (now < x.2.nBanUntil)) = false := by
        rcases Bool.eq_false_or_eq_true (subNetMatch x.1 ip) with hm | hm
        · by_cases hn : now < x.2.nBanUntil
          · exact absurd ⟨hm, hn⟩ h
          · simp [hn]
        · simp [hm]
      simp only [h', Bool.false_eq_true, if_false, List.mem_cons, exists_eq_or_imp]
      constructor
      · rintro (ha | ⟨it, hit, hm⟩)
        · exact Or.inl ha
        · exact Or.inr (Or.inr ⟨it, hit, hm⟩)
      · rintro (ha | hx | ⟨it, hit, hm⟩)
        · exact Or.inl ha
        · exact absurd hx h
        · exact Or.inr ⟨it, hit, hm⟩

theorem isBanned_iff {S A : Type} (subNetMatch : S → A → Bool) (setBanned : List (S × CBanEntry))
    (now : Int) (ip : A) :
    IsBanned subNetMatch setBanned now ip = true ↔
      ∃ it ∈ setBanned, subNetMatch it.1 ip = true ∧ now < it.2.nBanUntil := by
  unfold IsBanned
  rw [isBanned_foldl_iff]
  simp

/-- C3: `CNode::IsBanned(ip)` at time `t` is true exactly when the store holds an
entry whose subnet matches `ip` and whose `nBanUntil` is after `t`; with the
single entry 10.0.0.0/8 expiring at `T`, 10.1.2.3 is banned at every `t < T`, not
banned at any `t ≥ T`, and 11.0.0.0 is never banned. -/
theorem IsBanned_iff_match_and_unexpired :
    (∀ (S A : Type) (subNetMatch : S → A → Bool) (setBanned : List (S × CBanEntry)) (t : Int)
        (ip : A),
        IsBanned subNetMatch setBanned t ip = true ↔
          ∃ it ∈ setBanned, subNetMatch it.1 ip = true ∧ t < it.2.nBanUntil) ∧
    (∀ (T t created : Int) (reason : Nat),
        (IsBanned CSubNet.Match [(⟨ipv4 10 0 0 0, 8⟩, ⟨created, T, reason⟩)] t (ipv4 10 1 2 3) =
          decide (t < T)) ∧
        IsBanned CSubNet.Match [(⟨ipv4 10 0 0 0, 8⟩, ⟨created, T, reason⟩)] t (ipv4 11 0 0 0) =
          false) := by
  refine ⟨fun S A m s t ip => isBanned_iff m s t ip, ?_⟩
  intro T t created reason
  have h1 : CSubNet.Match ⟨ipv4 10 0 0 0, 8⟩ (ipv4 10 1 2 3) = true := by decide
  have h2 : CSubNet.Match ⟨ipv4 10 0 0 0, 8⟩ (ipv4 11 0 0 0) = false := by decide
  constructor
  · by_cases h : t < T
    · rw [decide_eq_true h, isBanned_iff]
      exact ⟨_, List.mem_singleton.mpr rfl, h1, h⟩
    · rw [decide_eq_false h, ← Bool.not_eq_true, isBanned_iff]
      rintro ⟨it, hit, -, hlt⟩
      rw [List.mem_singleton] at hit
      subst hit
      exact h hlt
  · rw [← Bool.not_eq_true, isBanned_iff]
    rintro ⟨it, hit, hm, -⟩
    rw [List.mem_singleton] at hit
    subst hit
    rw [h2] at hm
    exact Bool.noConfusion hm

theorem mapFind_append_absent {S V : Type} [DecidableEq S] (m : List (S × V)) (k : S) (d : V)
    (h : mapFind m k = none) : mapFind (m ++ [(k, d)]) k = some d := by
  induction m with
  | nil => simp [mapFind]
  | cons p rest ih =>
    simp only [mapFind] at h
    by_cases hp : p.1 = k
    · simp [hp] at h
    · simp only [hp, if_false] at h
      simp only [List.cons_append, mapFind, hp, if_false]
      exact ih h

theorem mapFind_mapTouch_absent {S V : Type} [DecidableEq S] (m : List (S × V)) (k : S) (d : V)
    (h : mapFind m k = none) : mapFind (mapTouch m k d) k = some d := by
  unfold mapTouch
  rw [h]
  exact mapFind_append_absent m k d h

theorem mapTouch_present {S V : Type} [DecidableEq S] (m : List (S × V)) (k : S) (d v : V)
    (h : mapFind m k = some v) : mapTouch m k d = m := by
  unfold mapTouch
  rw [h]

theorem mapFind_mapAssign {S V : Type} [DecidableEq S] (m : List (S × V)) (k : S) (v w : V)
    (h : mapFind m k = some w) : mapFind (mapAssign m k v) k = some v := by
  induction m with
  | nil => simp [mapFind] at h
  | cons p rest ih =>
    simp only [mapFind] at h
    by_cases hp : p.1 = k
    · simp [mapAssign, mapFind, hp]
    · simp only [hp, if_false] at h
      have := ih h
      simp only [mapAssign] at this
      simp [mapAssign, mapFind, hp, this]

/-- The entry `CNode::Ban` leaves for a subnet, from the entry found there
(after `operator[]` has created the default one). -/
theorem mapFind_Ban {S : Type} [DecidableEq S] (dflt : CBanEntry) (arg now : Int) (st : BanStore S)
    (subNet : S) (r : Nat) (off : Int) (ep : Bool) :
    mapFind (Ban dflt arg now st subNet r off ep).setBanned subNet =
      some (if ((mapFind st.setBanned subNet).getD dflt).nBanUntil < banUntil arg now off ep then
        { nCreateTime := now, nBanUntil := banUntil arg now off ep, banReason := r }
        else (mapFind st.setBanned subNet).getD dflt) := by
  unfold Ban
  cases hf : mapFind st.setBanned subNet with
  | none =>
    have h1 := mapFind_mapTouch_absent st.setBanned subNet dflt hf
    simp only [h1, Option.getD_some, Option.getD_none]
    split_ifs with hlt
    · exact mapFind_mapAssign _ _ _ _ h1
    · exact h1
  | some w =>
    have h1 := mapTouch_present st.setBanned subNet dflt w hf
    simp only [h1, hf, Option.getD_some]
    split_ifs with hlt
    · exact mapFind_mapAssign _ _ _ _ hf
    · exact hf

/-- C4 (amended): for a subnet not yet in the store, after two successive
`CNode::Ban` calls with computed expiries `E1` and `E2` the stored `nBanUntil` is
the greatest of `E1`, `E2` and the expiry of the default entry that
`setBanned[subNet]` creates, in either order of the two bans; so it is
`max(E1, E2)` whenever that is at least the default expiry (which is 0). -/
theorem Ban_twice_keeps_max {S : Type} [DecidableEq S] (dflt : CBanEntry) (arg1 arg2 now1 now2 : Int)
    (st : BanStore S) (subNet : S) (r1 r2 : Nat) (off1 off2 : Int) (ep1 ep2 : Bool)
    (habsent : mapFind st.setBanned subNet = none) :
    (mapFind (Ban dflt arg2 now2 (Ban dflt arg1 now1 st subNet r1 off1 ep1) subNet r2 off2 ep2).setBanned
        subNet).map CBanEntry.nBanUntil =
      some (max dflt.nBanUntil (max (banUntil arg1 now1 off1 ep1) (banUntil arg2 now2 off2 ep2))) ∧
    (mapFind (Ban dflt arg1 now1 (Ban dflt arg2 now2 st subNet r2 off2 ep2) subNet r1 off1 ep1).setBanned
        subNet).map CBanEntry.nBanUntil =
      some (max dflt.nBanUntil (max (banUntil arg1 now1 off1 ep1) (banUntil arg2 now2 off2 ep2))) ∧
    (dflt.nBanUntil ≤ max (banUntil arg1 now1 off1 ep1) (banUntil arg2 now2 off2 ep2) →
      (mapFind (Ban dflt arg2 now2 (Ban dflt arg1 now1 st subNet r1 off1 ep1) subNet r2 off2 ep2).setBanned
        subNet).map CBanEntry.nBanUntil =
      some (max (banUntil arg1 now1 off1 ep1) (banUntil arg2 now2 off2 ep2))) := by
  have key : ∀ (a1 a2 n1 n2 : Int) (q1 q2 : Nat) (o1 o2 : Int) (e1 e2 : Bool),
      (mapFind (Ban dflt a2 n2 (Ban dflt a1 n1 st subNet q1 o1 e1) subNet q2 o2 e2).setBanned
        subNet).map CBanEntry.nBanUntil =
      some (max dflt.nBanUntil (max (banUntil a1 n1 o1 e1) (banUntil a2 n2 o2 e2))) := by
    intro a1 a2 n1 n2 q1 q2 o1 o2 e1 e2
    rw [mapFind_Ban, mapFind_Ban, habsent]
    simp only [Option.getD_some, Option.getD_none, Option.map_some']
    congr 1
    split_ifs <;> simp only [] at * <;> omega
  refine ⟨key _ _ _ _ _ _ _ _ _ _, ?_, ?_⟩
  · rw [key, max_comm (banUntil arg2 now2 off2 ep2)]
  · intro hle
    rw [key, max_eq_right hle]

theorem Ban_twice_keeps_max_witness :
    mapFind ([] : List (CSubNet × CBanEntry)) ⟨ipv4 10 0 0 0, 8⟩ = none ∧
    (mapFind (Ban CBanEntry.null 86400 200
        (Ban CBanEntry.null 86400 100 ⟨[], false⟩ (⟨ipv4 10 0 0 0, 8⟩ : CSubNet) 1 500 false)
        ⟨ipv4 10 0 0 0, 8⟩ 2 50 false).setBanned ⟨ipv4 10 0 0 0, 8⟩).map CBanEntry.nBanUntil =
      some 600 :=
  ⟨rfl, (Ban_twice_keeps_max CBanEntry.null 86400 86400 100 200 ⟨[], false⟩
      (⟨ipv4 10 0 0 0, 8⟩ : CSubNet) 1 2 500 50 false false rfl).2.2 (by decide)⟩

/-- C4 (counterexample): with `-bantime` set to -200 and the clock at 100, two
bans of a new subnet with offset 0 both compute the expiry -100, and the entry
stored afterwards is the default one with `nBanUntil = 0`, not `max(E1, E2)`. -/
theorem Ban_twice_not_max_of_expiries :
    banUntil (-200) 100 0 false = -100 ∧
    (mapFind (Ban CBanEntry.null (-200) 100
        (Ban CBanEntry.null (-200) 100 ⟨[], false⟩ (⟨ipv4 10 0 0 0, 8⟩ : CSubNet) 1 0 false)
        ⟨ipv4 10 0 0 0, 8⟩ 1 0 false).setBanned ⟨ipv4 10 0 0 0, 8⟩).map CBanEntry.nBanUntil = some 0 ∧
    (0 : Int) ≠ max (banUntil (-200) 100 0 false) (banUntil (-200) 100 0 false) := by
  decide

/-! ## Theorems: message framer -/

theorem toInt32_of_lt (n : Nat) (h : n < 2 ^ 31) : toInt32 n = (n : Int) := by
  unfold toInt32
  have h1 : n % 2 ^ 32 = n := Nat.mod_eq_of_lt (by omega)
  rw [h1, if_pos h]

theorem memcpy_length (dst : List Nat) (pos : Nat) (src : List Nat)
    (h : pos + src.length ≤ dst.length) : (memcpy dst pos src).length = dst.length := by
  unfold memcpy
  simp only [List.length_append, List.length_take, List.length_drop]
  omega

theorem memcpy_take (s dst : List Nat) (pos k : Nat) (src : List Nat)
    (hdst : dst.take pos = s.take pos) (hpos : pos ≤ dst.length)
    (hsrc : src = (s.drop pos).take k) (hk : src.length = k) :
    (memcpy dst pos src).take (pos + k) = s.take (pos + k) := by
  unfold memcpy
  have hl : (dst.take pos ++ src).length = pos + k := by
    simp only [List.length_append, List.length_take, hk]
    omega
  rw [List.take_append_of_le_length (by omega), List.take_of_length_le (by omega), hdst,
    List.take_add, ← hsrc]

theorem resize_length (v : List Nat) (n : Nat) : (resize v n).length = n := by
  unfold resize
  simp only [List.length_append, List.length_take, List.length_replicate]
  omega

theorem resize_take (v : List Nat) (n j : Nat) (hj : j ≤ v.length) (hjn : j ≤ n) :
    (resize v n).take j = v.take j := by
  unfold resize
  rw [List.take_append_of_le_length (by simp only [List.length_take]; omega), List.take_take]
  congr 1
  omega

theorem take_chunk (s c : List Nat) (n k : Nat) (hc : c = (s.drop n).take c.length)
    (hk : k ≤ c.length) : c.take k = (s.drop n).take k := by
  have h1 : c.take k = ((s.drop n).take c.length).take k := by rw [← hc]
  rw [h1, List.take_take, Nat.min_eq_left hk]

theorem chunk_length_le (s c : List Nat) (n : Nat) (hc : c = (s.drop n).take c.length) :
    c.length ≤ s.length - n := by
  have h := congrArg List.length hc
  simp only [List.length_take, List.length_drop] at h
  omega

theorem drop_chunk (s c : List Nat) (n k : Nat) (hc : c = (s.drop n).take c.length) :
    c.drop k = (s.drop (n + k)).take (c.drop k).length := by
  have h1 : c.drop k = ((s.drop n).take c.length).drop k := by rw [← hc]
  rw [h1, List.drop_take, List.drop_drop, List.length_take, List.length_drop]
  have hcl := chunk_length_le s c n hc
  congr 1
  omega

theorem Limits.lt {P : FramerParams} {h : CMessageHeader} (L : Limits P h) :
    h.nMessageSize < 2 ^ 31 := by
  have := L.size_le; have := L.proto_le; have := L.max_lt; omega

/-- The header buffer after `readHeader` has copied the next `k` header bytes. -/
theorem hdrbuf_after {s : List Nat} {h : CMessageHeader} {n : Nat} {m : CNetMessage}
    (F : Filled s h n m) (hn : n < 24) (c : List Nat) (hc : c = (s.drop n).take c.length)
    (k : Nat) (hk : k = min (24 - n) c.length) :
    (memcpy m.hdrbuf n (c.take k)).length = 24 ∧
      (memcpy m.hdrbuf n (c.take k)).take (n + k) = s.take (n + k) := by
  have hkc : k ≤ c.length := by omega
  have hsl : (c.take k).length = k := by simp only [List.length_take]; omega
  have hbuf0 : m.hdrbuf.take n = s.take n := by
    have := F.hdrbuf_take
    rwa [Nat.min_eq_left (by omega)] at this
  constructor
  · rw [memcpy_length _ _ _ (by rw [hsl, F.hdrbuf_length]; omega), F.hdrbuf_length]
  · exact memcpy_take s m.hdrbuf n k (c.take k) hbuf0 (by rw [F.hdrbuf_length]; omega)
      (take_chunk s c n k hc hkc) hsl

theorem readHeader_filled {P : FramerParams} {s : List Nat} {h : CMessageHeader}
    (V : ValidStream P s h) {n : Nat} {m : CNetMessage} (F : Filled s h n m) (hn : n < 24)
    (c : List Nat) (hc : c = (s.drop n).take c.length)
    (hlim : 24 ≤ n + c.length → Limits P h) :
    ∃ m1, readHeader P m c c.length = (m1, ((min (24 - n) c.length : Nat) : Int)) ∧
      Filled s h (n + min (24 - n) c.length) m1 := by
  have hpos : m.nHdrPos = n := by rw [F.nHdrPos_eq]; omega
  have e1 : (24 + 2 ^ 32 - n) % 2 ^ 32 = 24 - n := by omega
  obtain ⟨k, hk⟩ : ∃ k, k = min (24 - n) c.length := ⟨_, rfl⟩
  have hk24 : n + k ≤ 24 := by omega
  have e2 : (n + k) % 2 ^ 32 = n + k := by omega
  have e3 : toInt32 k = (k : Int) := toInt32_of_lt k (by omega)
  obtain ⟨hlen, htake⟩ := hdrbuf_after F hn c hc k hk
  have hnil : m.vRecv = [] := F.vRecv_nil (by omega)
  simp only [readHeader, hpos, e1, ← hk, e2, e3]
  by_cases hlt : n + k < 24
  · simp only [hlt, if_true]
    refine ⟨_, rfl, ?_⟩
    refine ⟨hlen, ?_, ?_, ?_, ?_, ?_, ?_, ?_, ?_, ?_⟩
    · simp only [Nat.min_eq_left (Nat.le_of_lt hlt)]; exact htake
    · simp only [Nat.min_eq_left (Nat.le_of_lt hlt)]
    · simp only [F.in_data_eq]; simp; omega
    · simp only [F.nDataPos_eq]; omega
    · exact F.vRecv_length
    · simp only []; omega
    · simp only [show n + k - 24 = 0 by omega, List.take_zero]
    · intro h24; omega
    · intro _; exact hnil
  · have h24 : n + k = 24 := by omega
    have L := hlim (by omega)
    have hfull : memcpy m.hdrbuf n (c.take k) = s.take 24 := by
      have h0 := htake
      rw [h24, List.take_of_length_le (by rw [hlen])] at h0
      exact h0
    simp only [hlt, if_false, hfull, V.deser]
    have hsz : ¬ h.nMessageSize > P.MAX_SIZE := by
      have := L.size_le; have := L.proto_le; omega
    simp only [hsz, if_false]
    refine ⟨_, rfl, ?_⟩
    refine ⟨?_, ?_, ?_, ?_, ?_, ?_, ?_, ?_, ?_, ?_⟩
    · simp only [List.length_take]; have := V.length_eq; omega
    · simp only [h24, Nat.min_self, List.take_take]
    · simp only [h24, Nat.min_self]
    · simp [h24]
    · simp only [F.nDataPos_eq]; omega
    · exact F.vRecv_length
    · simp only []; omega
    · simp only [show n + k - 24 = 0 by omega, List.take_zero]
    · intro _; rfl
    · intro _; exact hnil

theorem readData_filled {P : FramerParams} {s : List Nat} {h : CMessageHeader}
    (L : Limits P h) {n : Nat} {m : CNetMessage} (F : Filled s h n m) (hn : 24 ≤ n)
    (c : List Nat) (hc : c = (s.drop n).take c.length) :
    ∃ m1, readData m c c.length = (m1, ((min (24 + h.nMessageSize - n) c.length : Nat) : Int)) ∧
      Filled s h (n + min (24 + h.nMessageSize - n) c.length) m1 := by
  have hL : h.nMessageSize < 2 ^ 31 := L.lt
  have hhdr : m.hdr = h := F.hdr_eq hn
  obtain ⟨d, hd⟩ : ∃ d, d = n - 24 := ⟨_, rfl⟩
  have hpos : m.nDataPos = d := by rw [F.nDataPos_eq, hd]
  have hdlen : d ≤ m.vRecv.length := by rw [hd]; exact F.nDataPos_le
  have hvl := F.vRecv_length
  have e1 : (h.nMessageSize + 2 ^ 32 - d) % 2 ^ 32 = 24 + h.nMessageSize - n := by omega
  obtain ⟨k, hk⟩ : ∃ k, k = min (24 + h.nMessageSize - n) c.length := ⟨_, rfl⟩
  have hkc : k ≤ c.length := by omega
  have hkL : d + k ≤ h.nMessageSize := by omega
  have e2 : (d + k) % 2 ^ 32 = d + k := by omega
  have e3 : (d + k + 256 * 1024) % 2 ^ 32 = d + k + 256 * 1024 := by omega
  have e4 : toInt32 k = (k : Int) := toInt32_of_lt k (by omega)
  have hsrc : c.take k = ((s.drop 24).drop d).take k := by
    have h1 := take_chunk s c n k hc hkc
    have h2 : (s.drop 24).drop d = s.drop n := by
      rw [List.drop_drop]
      rw [show 24 + d = n by omega]
    rw [h2]
    exact h1
  have hsl : (c.take k).length = k := by simp only [List.length_take]; omega
  obtain ⟨v1, hv1⟩ : ∃ v1, v1 = (if m.vRecv.length < d + k then
      resize m.vRecv (min h.nMessageSize (d + k + 256 * 1024)) else m.vRecv) := ⟨_, rfl⟩
  have hv1len : v1.length ≤ h.nMessageSize ∧ d + k ≤ v1.length := by
    rw [hv1]
    split_ifs with hlt
    · rw [resize_length]; omega
    · omega
  have hv1take : v1.take d = (s.drop 24).take d := by
    have h0 : m.vRecv.take d = (s.drop 24).take d := by rw [hd]; exact F.vRecv_take
    rw [hv1]
    split_ifs with hlt
    · rw [resize_take _ _ _ hdlen (by omega)]; exact h0
    · exact h0
  have hlen : (memcpy v1 d (c.take k)).length = v1.length :=
    memcpy_length _ _ _ (by rw [hsl]; omega)
  have htake : (memcpy v1 d (c.take k)).take (d + k) = (s.drop 24).take (d + k) :=
    memcpy_take (s.drop 24) v1 d k (c.take k) hv1take (by omega) hsrc hsl
  have hnil : n + k ≤ 24 → memcpy v1 d (c.take k) = [] := by
    intro hle
    have hk0 : k = 0 := by omega
    have hd0 : d = 0 := by omega
    have hv : m.vRecv = [] := F.vRecv_nil (by omega)
    have hv1nil : v1 = [] := by
      rw [hv1, hv, hk0, hd0]
      simp
    rw [hv1nil, hk0]
    simp [memcpy]
  simp only [readData, hhdr, hpos, e1, ← hk, e2, e3, e4, ← hv1]
  refine ⟨_, rfl, ?_⟩
  refine ⟨F.hdrbuf_length, ?_, ?_, ?_, ?_, ?_, ?_, ?_, ?_, ?_⟩
  · have := F.hdrbuf_take
    rw [Nat.min_eq_right hn] at this
    rw [Nat.min_eq_right (by omega)]
    exact this
  · rw [Nat.min_eq_right (by omega)]
    have := F.nHdrPos_eq
    rw [Nat.min_eq_right hn] at this
    exact this
  · simp only [F.in_data_eq]; simp; omega
  · simp only []; omega
  · simp only [hlen]; exact hv1len.1
  · simp only [hlen]; omega
  · simp only [show n + k - 24 = d + k by omega]; exact htake
  · intro _; rfl
  · exact hnil

theorem Filled.le_total {s : List Nat} {h : CMessageHeader} {n : Nat} {m : CNetMessage}
    (F : Filled s h n m) : n ≤ 24 + h.nMessageSize := by
  have := F.vRecv_length; have := F.nDataPos_le; omega

theorem Filled.complete_iff {s : List Nat} {h : CMessageHeader} {n : Nat} {m : CNetMessage}
    (F : Filled s h n m) : m.complete = true ↔ n = 24 + h.nMessageSize := by
  unfold CNetMessage.complete
  rw [F.in_data_eq, F.nDataPos_eq]
  by_cases hn : 24 ≤ n
  · rw [F.hdr_eq hn]
    simp only [hn, decide_True, Bool.true_and, decide_eq_true_eq]
    omega
  · have := F.le_total
    simp only [hn, decide_False, Bool.false_and, Bool.false_eq_true, false_iff]
    omega

theorem Filled.setTime {s : List Nat} {h : CMessageHeader} {n : Nat} {m : CNetMessage}
    (F : Filled s h n m) (t : Int) : Filled s h n { m with nTime := t } :=
  ⟨F.hdrbuf_length, F.hdrbuf_take, F.nHdrPos_eq, F.in_data_eq, F.nDataPos_eq, F.vRecv_length,
    F.nDataPos_le, F.vRecv_take, F.hdr_eq, F.vRecv_nil⟩

theorem Filled.fresh (s : List Nat) (h : CMessageHeader) (ms : List Nat) :
    Filled s h 0 (CNetMessage.fresh ms) := by
  refine ⟨?_, ?_, ?_, ?_, ?_, ?_, ?_, ?_, ?_, ?_⟩ <;> simp [CNetMessage.fresh]

theorem currentMessage_feeding {P : FramerParams} {s : List Nat} {h : CMessageHeader} {n : Nat}
    {q : List CNetMessage} (G : Feeding s h n q) (hn : n < 24 + h.nMessageSize) :
    ∃ m, currentMessage P q = ([], m) ∧ Filled s h n m := by
  rcases G with ⟨h0, hq⟩ | ⟨m, hq, F⟩
  · subst h0; subst hq
    exact ⟨_, rfl, Filled.fresh s h _⟩
  · subst hq
    have hc : m.complete = false := by
      rw [← Bool.not_eq_true, F.complete_iff]
      omega
    refine ⟨m, ?_, F⟩
    simp [currentMessage, hc]

theorem receiveIteration_feeding {P : FramerParams} {s : List Nat} {h : CMessageHeader}
    (V : ValidStream P s h) (now : Int) {n : Nat} {q : List CNetMessage} (G : Feeding s h n q)
    (c : List Nat) (hc : c = (s.drop n).take c.length) (hpos : 0 < c.length)
    (hlim : 24 ≤ n + c.length → Limits P h) :
    ∃ m2 k, 1 ≤ k ∧ k ≤ c.length ∧
      receiveIteration P now q c c.length = Except.ok ([m2], c.drop k, c.length - k) ∧
      Filled s h (n + k) m2 := by
  have hcl := chunk_length_le s c n hc
  have hsl := V.length_eq
  have hc32 : c.length < 2 ^ 32 := by
    by_cases h24 : 24 ≤ n + c.length
    · have := (hlim h24).lt; omega
    · omega
  obtain ⟨m, hcur, F⟩ := currentMessage_feeding (P := P) G (by omega)
  have hstep : ∃ m1 k, 1 ≤ k ∧ k ≤ c.length ∧
      (if !m.in_data then readHeader P m c c.length else readData m c c.length) = (m1, (k : Int)) ∧
      Filled s h (n + k) m1 := by
    by_cases hn : n < 24
    · obtain ⟨m1, h1, F1⟩ := readHeader_filled V F hn c hc hlim
      refine ⟨m1, min (24 - n) c.length, by omega, by omega, ?_, F1⟩
      rw [F.in_data_eq]
      simp only [show ¬ 24 ≤ n by omega, decide_False, Bool.not_false, if_true]
      exact h1
    · obtain ⟨m1, h1, F1⟩ := readData_filled (hlim (by omega)) F (by omega) c hc
      refine ⟨m1, min (24 + h.nMessageSize - n) c.length, by omega, by omega, ?_, F1⟩
      rw [F.in_data_eq]
      simp only [show 24 ≤ n by omega, decide_True, Bool.not_true, Bool.false_eq_true, if_false]
      exact h1
  obtain ⟨m1, k, hk1, hkc, hrd, F1⟩ := hstep
  have hover : (m1.in_data && decide (m1.hdr.nMessageSize > P.MAX_PROTOCOL_MESSAGE_LENGTH)) = false := by
    rw [F1.in_data_eq]
    by_cases h24 : 24 ≤ n + k
    · rw [F1.hdr_eq h24]
      have := (hlim (by omega)).size_le
      simp only [h24, decide_True, Bool.true_and, decide_eq_false_iff_not]
      omega
    · simp [h24]
  have hneg : ¬ ((k : Int) < 0) := by omega
  have hsub : ((((c.length : Nat) : Int) - (k : Int)) % 2 ^ 32).toNat = c.length - k := by
    omega
  refine ⟨if m1.complete then { m1 with nTime := now } else m1, k, hk1, hkc, ?_, ?_⟩
  · simp only [receiveIteration, hcur, hrd, hneg, if_false, hover, Bool.false_eq_true,
      List.nil_append, Int.toNat_ofNat, hsub]
  · split_ifs
    · exact F1.setTime now
    · exact F1

theorem receiveLoop_feeding {P : FramerParams} {s : List Nat} {h : CMessageHeader}
    (V : ValidStream P s h) (now : Int) :
    ∀ (fuel : Nat) (c : List Nat) (n : Nat) (q : List CNetMessage), c.length < fuel →
      Feeding s h n q → c = (s.drop n).take c.length → (24 ≤ n + c.length → Limits P h) →
      ∃ q1, receiveLoop P now fuel q c c.length = some (true, q1) ∧
        Feeding s h (n + c.length) q1 := by
  intro fuel
  induction fuel with
  | zero => intro c n q hf; omega
  | succ fuel ih =>
    intro c n q hf G hc hlim
    by_cases h0 : c.length = 0
    · refine ⟨q, ?_, ?_⟩
      · simp [receiveLoop, h0]
      · rw [h0]; exact G
    · obtain ⟨m2, k, hk1, hkc, hit, F2⟩ :=
        receiveIteration_feeding V now G c hc (Nat.pos_of_ne_zero h0) hlim
      have hlen : (c.drop k).length = c.length - k := List.length_drop k c
      obtain ⟨q1, hq1, G1⟩ := ih (c.drop k) (n + k) [m2] (by omega) (Or.inr ⟨m2, rfl, F2⟩)
        (drop_chunk s c n k hc) (fun h24 => hlim (by omega))
      refine ⟨q1, ?_, ?_⟩
      · rw [hlen] at hq1
        simp only [receiveLoop, h0, if_false, hit]
        exact hq1
      · rw [hlen] at G1
        rw [show n + c.length = n + k + (c.length - k) by omega]
        exact G1

theorem feedChunks_feeding {P : FramerParams} {s : List Nat} {h : CMessageHeader}
    (V : ValidStream P s h) (now : Int) :
    ∀ (chunks : List (List Nat)) (n : Nat) (q : List CNetMessage), Feeding s h n q →
      chunks.flatten = (s.drop n).take chunks.flatten.length →
      (24 ≤ n + chunks.flatten.length → Limits P h) →
      ∃ q1, feedChunks P now q chunks = some q1 ∧ Feeding s h (n + chunks.flatten.length) q1 := by
  intro chunks
  induction chunks with
  | nil => intro n q G _ _; exact ⟨q, rfl, by simpa using G⟩
  | cons c cs ih =>
    intro n q G hj hlim
    simp only [List.flatten_cons, List.length_append] at hj hlim
    have hc : c = (s.drop n).take c.length := by
      have h1 := congrArg (List.take c.length) hj
      rw [List.take_left, List.take_take, Nat.min_eq_left (by omega)] at h1
      exact h1
    have hcs : cs.flatten = (s.drop (n + c.length)).take cs.flatten.length := by
      have h1 := congrArg (List.drop c.length) hj
      rw [List.drop_left, List.drop_take, List.drop_drop] at h1
      rw [Nat.add_sub_cancel_left] at h1
      exact h1
    obtain ⟨q1, hq1, G1⟩ := receiveLoop_feeding V now (c.length + 1) c n q (by omega) G hc
      (fun h24 => hlim (by omega))
    obtain ⟨q2, hq2, G2⟩ := ih (n + c.length) q1 G1 hcs (fun h24 => hlim (by omega))
    refine ⟨q2, ?_, ?_⟩
    · simp only [feedChunks, ReceiveMsgBytes, hq1]
      exact hq2
    · simp only [List.flatten_cons, List.length_append]
      rw [← Nat.add_assoc]
      exact G2

theorem flatten_length_pos (l : List (List Nat)) (hl : l ≠ []) (hne : ∀ c ∈ l, c ≠ []) :
    0 < l.flatten.length := by
  cases l with
  | nil => exact absurd rfl hl
  | cons c cs =>
    have hc : c ≠ [] := hne c (List.mem_cons_self c cs)
    have : 0 < c.length := List.length_pos.mpr hc
    simp only [List.flatten_cons, List.length_append]
    omega

theorem receiveIteration_reject {P : FramerParams} {s : List Nat} {h : CMessageHeader}
    (V : ValidStream P s h) (now : Int) {n : Nat} {q : List CNetMessage} (G : Feeding s h n q)
    (hn : n < 24) (c : List Nat) (hc : c = (s.drop n).take c.length) (h24 : 24 ≤ n + c.length)
    (hbig : P.MAX_PROTOCOL_MESSAGE_LENGTH < h.nMessageSize) :
    ∃ m1, receiveIteration P now q c c.length = Except.error [m1] ∧ m1.vRecv = [] := by
  obtain ⟨m, hcur, F⟩ := currentMessage_feeding (P := P) G (by omega)
  have hpos : m.nHdrPos = n := by rw [F.nHdrPos_eq]; omega
  have hin : m.in_data = false := by rw [F.in_data_eq]; simp; omega
  have hnil : m.vRecv = [] := F.vRecv_nil (by omega)
  have e1 : (24 + 2 ^ 32 - n) % 2 ^ 32 = 24 - n := by omega
  have hk : 24 - n = min (24 - n) c.length := by omega
  have e0 : min (24 - n) c.length = 24 - n := by omega
  have e2 : (n + (24 - n)) % 2 ^ 32 = 24 := by omega
  have e3 : toInt32 (24 - n) = ((24 - n : Nat) : Int) := toInt32_of_lt _ (by omega)
  obtain ⟨hlen, htake⟩ := hdrbuf_after F hn c hc (24 - n) hk
  have hfull : memcpy m.hdrbuf n (c.take (24 - n)) = s.take 24 := by
    have h0 := htake
    rw [show n + (24 - n) = 24 by omega, List.take_of_length_le (by rw [hlen])] at h0
    exact h0
  have hneg : ¬ (((24 - n : Nat) : Int) < 0) := by omega
  have hrd : readHeader P m c c.length =
      if h.nMessageSize > P.MAX_SIZE then
        ({ m with hdrbuf := s.take 24, nHdrPos := 24, hdr := h }, -1)
      else ({ m with hdrbuf := s.take 24, nHdrPos := 24, hdr := h, in_data := true },
        ((24 - n : Nat) : Int)) := by
    simp only [readHeader, hpos, e1, e0, e2, e3, hfull, V.deser, lt_irrefl, if_false]
  by_cases hsz : h.nMessageSize > P.MAX_SIZE
  · refine ⟨{ m with hdrbuf := s.take 24, nHdrPos := 24, hdr := h }, ?_, hnil⟩
    simp only [receiveIteration, hcur, hin, Bool.not_false, if_true, hrd, hsz, List.nil_append]
    rfl
  · refine ⟨{ m with hdrbuf := s.take 24, nHdrPos := 24, hdr := h, in_data := true }, ?_, hnil⟩
    have hbig1 : h.nMessageSize > P.MAX_PROTOCOL_MESSAGE_LENGTH := hbig
    simp only [receiveIteration, hcur, hin, Bool.not_false, if_true, hrd, hsz, if_false, hneg,
      hbig1, decide_True, Bool.and_self, List.nil_append]

/-- C1: a 24-byte header that deserialises with declared length `L` within the
protocol maximum, followed by exactly `L` payload bytes and cut into non-empty
chunks, fed chunk by chunk to `CNode::ReceiveMsgBytes` from an empty receive
queue: every call returns true, the queue holds exactly one message after each
chunk, that message is complete after the last chunk and after no earlier one,
and at the end the header length is `L` and `vRecv` is the payload. The size
limits are taken with `MAX_PROTOCOL_MESSAGE_LENGTH ≤ MAX_SIZE < 2 ^ 31`. -/
theorem ReceiveMsgBytes_single_message (P : FramerParams) (now : Int) (H p : List Nat)
    (h : CMessageHeader) (chunks : List (List Nat))
    (hH : H.length = 24) (hdes : P.deserializeHeader H = some h)
    (hL : h.nMessageSize ≤ P.MAX_PROTOCOL_MESSAGE_LENGTH) (hp : p.length = h.nMessageSize)
    (hcut : chunks.flatten = H ++ p) (hne : ∀ c ∈ chunks, c ≠ [])
    (hlim : P.MAX_PROTOCOL_MESSAGE_LENGTH ≤ P.MAX_SIZE) (hmax : P.MAX_SIZE < 2 ^ 31) :
    ∀ k, 0 < k → k ≤ chunks.length →
      ∃ m, feedChunks P now [] (chunks.take k) = some [m] ∧
        (m.complete = true ↔ k = chunks.length) ∧
        (k = chunks.length → m.hdr.nMessageSize = h.nMessageSize ∧ m.vRecv = p) := by
  intro k hk0 hkl
  have V : ValidStream P (H ++ p) h :=
    ⟨by simp only [List.length_append, hH, hp], by rw [← hH, List.take_left]; exact hdes⟩
  have hsplit : (chunks.take k).flatten ++ (chunks.drop k).flatten = H ++ p := by
    rw [← List.flatten_append, List.take_append_drop, hcut]
  have hpre : (chunks.take k).flatten =
      ((H ++ p).drop 0).take (chunks.take k).flatten.length := by
    rw [List.drop_zero, ← hsplit, List.take_left]
  obtain ⟨q1, hq1, G1⟩ := feedChunks_feeding V now (chunks.take k) 0 [] (Or.inl ⟨rfl, rfl⟩) hpre
    (fun _ => ⟨hL, hlim, hmax⟩)
  have htk : chunks.take k ≠ [] := by
    intro hnil
    have := congrArg List.length hnil
    simp only [List.length_take, List.length_nil] at this
    omega
  have hN : 0 < (chunks.take k).flatten.length :=
    flatten_length_pos _ htk (fun c hc => hne c (List.mem_of_mem_take hc))
  have hlen : (chunks.take k).flatten.length + (chunks.drop k).flatten.length =
      24 + h.nMessageSize := by
    have := congrArg List.length hsplit
    simp only [List.length_append, hH, hp] at this
    exact this
  rcases G1 with ⟨h0, -⟩ | ⟨m, hq, F⟩
  · omega
  · subst hq
    rw [Nat.zero_add] at F
    have hiff : (chunks.take k).flatten.length = 24 + h.nMessageSize ↔ k = chunks.length := by
      constructor
      · intro hfull
        by_contra hk
        have hd : chunks.drop k ≠ [] := by
          intro hnil
          have := congrArg List.length hnil
          simp only [List.length_drop, List.length_nil] at this
          omega
        have := flatten_length_pos _ hd (fun c hc => hne c (List.mem_of_mem_drop hc))
        omega
      · intro hk
        have hd : chunks.drop k = [] := by rw [hk]; exact List.drop_length chunks
        rw [hd, List.flatten_nil, List.length_nil] at hlen
        omega
    refine ⟨m, hq1, ?_, ?_⟩
    · rw [F.complete_iff, hiff]
    · intro hk
      have hfull := hiff.mpr hk
      rw [hfull] at F
      refine ⟨by rw [F.hdr_eq (by omega)], ?_⟩
      have h1 := F.vRecv_take
      have h2 := F.vRecv_length
      have h3 := F.nDataPos_le
      rw [show 24 + h.nMessageSize - 24 = h.nMessageSize by omega] at h1 h3
      rw [List.take_of_length_le (by omega), ← hH, List.drop_left,
        List.take_of_length_le (by omega)] at h1
      exact h1

theorem ReceiveMsgBytes_single_message_witness :
    ∃ m, feedChunks sampleParams 7 [] ([sampleHeader 3 ++ [9], [8, 7]].take 2) = some [m] ∧
      (m.complete = true ↔ 2 = [sampleHeader 3 ++ [9], [8, 7]].length) ∧
      (2 = [sampleHeader 3 ++ [9], [8, 7]].length →
        m.hdr.nMessageSize = 3 ∧ m.vRecv = [9, 8, 7]) :=
  ReceiveMsgBytes_single_message sampleParams 7 (sampleHeader 3) [9, 8, 7]
    ⟨[1, 2, 3, 4], List.replicate 12 0, 3, 0⟩ [sampleHeader 3 ++ [9], [8, 7]]
    (by decide) (by decide) (by decide) (by decide) (by decide) (by decide) (by decide)
    (by decide) 2 (by decide) (by decide)

/-- C2: with `MAX_PROTOCOL_MESSAGE_LENGTH ≤ MAX_SIZE < 2 ^ 31`, for a header
that deserialises to `h` and an input that is a prefix of the header followed by
the declared number of payload bytes, cut anywhere: the calls before the 24th
header byte return true, and the `CNode::ReceiveMsgBytes` call that supplies the
24th header byte returns false exactly when `h.nMessageSize` exceeds
`MAX_PROTOCOL_MESSAGE_LENGTH`; when it does, `vRecv` of every queued message is
still empty. So length `MAX_PROTOCOL_MESSAGE_LENGTH + 1` is rejected and length
`MAX_PROTOCOL_MESSAGE_LENGTH` is not. -/
theorem ReceiveMsgBytes_rejects_iff_oversized (P : FramerParams) (now : Int) (H p : List Nat)
    (h : CMessageHeader) (pre : List (List Nat)) (c : List Nat)
    (hH : H.length = 24) (hdes : P.deserializeHeader H = some h)
    (hp : p.length = h.nMessageSize)
    (hlim : P.MAX_PROTOCOL_MESSAGE_LENGTH ≤ P.MAX_SIZE) (hmax : P.MAX_SIZE < 2 ^ 31)
    (hpre : pre.flatten.length < 24) (h24 : 24 ≤ pre.flatten.length + c.length)
    (hcut : pre.flatten ++ c = (H ++ p).take (pre.flatten.length + c.length)) :
    ∃ q r q1, feedChunks P now [] pre = some q ∧ ReceiveMsgBytes P now q c = some (r, q1) ∧
      (r = false ↔ P.MAX_PROTOCOL_MESSAGE_LENGTH < h.nMessageSize) ∧
      (P.MAX_PROTOCOL_MESSAGE_LENGTH < h.nMessageSize → ∀ m ∈ q1, m.vRecv = []) ∧
      (h.nMessageSize = P.MAX_PROTOCOL_MESSAGE_LENGTH + 1 → r = false) ∧
      (h.nMessageSize = P.MAX_PROTOCOL_MESSAGE_LENGTH → r = true) := by
  have V : ValidStream P (H ++ p) h :=
    ⟨by simp only [List.length_append, hH, hp], by rw [← hH, List.take_left]; exact hdes⟩
  have hpre1 : pre.flatten = ((H ++ p).drop 0).take pre.flatten.length := by
    have h1 := congrArg (List.take pre.flatten.length) hcut
    rw [List.take_left, List.take_take, Nat.min_eq_left (by omega)] at h1
    rw [List.drop_zero]
    exact h1
  have hc : c = ((H ++ p).drop (0 + pre.flatten.length)).take c.length := by
    have h1 := congrArg (List.drop pre.flatten.length) hcut
    rw [List.drop_left, List.drop_take, Nat.add_sub_cancel_left] at h1
    rw [Nat.zero_add]
    exact h1
  obtain ⟨q, hq, G⟩ := feedChunks_feeding V now pre 0 [] (Or.inl ⟨rfl, rfl⟩) hpre1
    (fun h' => by omega)
  by_cases hbig : P.MAX_PROTOCOL_MESSAGE_LENGTH < h.nMessageSize
  · obtain ⟨m1, hit, hnil⟩ := receiveIteration_reject V now G (by omega) c hc (by omega) hbig
    have hc0 : c.length ≠ 0 := by omega
    refine ⟨q, false, [m1], hq, ?_, ?_, ?_, ?_, ?_⟩
    · simp only [ReceiveMsgBytes, receiveLoop, hc0, if_false, hit]
    · simp only [hbig]
    · intro _ m hm
      rw [List.mem_singleton] at hm
      rw [hm]
      exact hnil
    · intro _; rfl
    · intro he; omega
  · obtain ⟨q1, hq1, -⟩ := receiveLoop_feeding V now (c.length + 1) c (0 + pre.flatten.length) q
      (by omega) G hc (fun _ => ⟨by omega, hlim, hmax⟩)
    refine ⟨q, true, q1, hq, hq1, ?_, ?_, ?_, ?_⟩
    · simp only [hbig, Bool.true_eq_false]
    · intro hb; exact absurd hb hbig
    · intro he; omega
    · intro _; rfl

theorem ReceiveMsgBytes_rejects_iff_oversized_witness :
    ∃ q r q1, feedChunks sampleParams 7 [] [(sampleHeader 3).take 5] = some q ∧
      ReceiveMsgBytes sampleParams 7 q ((sampleHeader 3).drop 5 ++ [9]) = some (r, q1) ∧
      (r = false ↔ sampleParams.MAX_PROTOCOL_MESSAGE_LENGTH < 3) ∧
      (sampleParams.MAX_PROTOCOL_MESSAGE_LENGTH < 3 → ∀ m ∈ q1, m.vRecv = []) ∧
      (3 = sampleParams.MAX_PROTOCOL_MESSAGE_LENGTH + 1 → r = false) ∧
      (3 = sampleParams.MAX_PROTOCOL_MESSAGE_LENGTH → r = true) :=
  ReceiveMsgBytes_rejects_iff_oversized sampleParams 7 (sampleHeader 3) [9, 8, 7]
    ⟨[1, 2, 3, 4], List.replicate 12 0, 3, 0⟩ [(sampleHeader 3).take 5]
    ((sampleHeader 3).drop 5 ++ [9])
    (by decide) (by decide) (by decide) (by decide) (by decide) (by decide) (by decide)
    (by decide)

/-! ## Theorems: inbound eviction -/

theorem vecLess_irrefl (a : List Nat) : vecLess a a = false := by
  induction a with
  | nil => rfl
  | cons x xs ih => simp [vecLess, ih]

theorem vecLess_total : ∀ (a b : List Nat), vecLess a b = false → vecLess b a = false → a = b := by
  intro a
  induction a with
  | nil =>
    intro b h1 h2
    cases b with
    | nil => rfl
    | cons y ys => simp [vecLess] at h1
  | cons x xs ih =>
    intro b h1 h2
    cases b with
    | nil => simp [vecLess] at h2
    | cons y ys =>
      simp only [vecLess] at h1 h2
      by_cases hxy : x < y
      · simp [hxy] at h1
      · by_cases hyx : y < x
        · simp [hyx] at h2
        · simp only [hxy, hyx, if_false] at h1 h2
          have : x = y := by omega
          rw [this, ih ys h1 h2]

theorem vecLess_asymm : ∀ (a b : List Nat), vecLess a b = true → vecLess b a = false := by
  intro a
  induction a with
  | nil =>
    intro b _
    cases b <;> rfl
  | cons x xs ih =>
    intro b h1
    cases b with
    | nil => simp [vecLess] at h1
    | cons y ys =>
      simp only [vecLess] at h1 ⊢
      by_cases hxy : x < y
      · have hyx : ¬ y < x := by omega
        simp [hyx, hxy]
      · by_cases hyx : y < x
        · simp [hxy, hyx] at h1
        · simp only [hxy, hyx, if_false] at h1 ⊢
          exact ih ys h1

theorem vecLess_le_trans : ∀ (a b c : List Nat), vecLess b a = false → vecLess c b = false →
    vecLess c a = false := by
  intro a
  induction a with
  | nil =>
    intro b c _ _
    cases c <;> rfl
  | cons x xs ih =>
    intro b c h1 h2
    cases b with
    | nil => simp [vecLess] at h1
    | cons y ys =>
      cases c with
      | nil => simp [vecLess] at h2
      | cons z zs =>
        simp only [vecLess] at h1 h2 ⊢
        by_cases hyx : y < x
        · simp [hyx] at h1
        · by_cases hzy : z < y
          · simp [hzy] at h2
          · simp only [hyx, hzy, if_false] at h1 h2
            by_cases hxy : x < y
            · have hzx : ¬ z < x := by omega
              have hxz : x < z := by omega
              simp [hzx, hxz]
            · simp only [hxy, if_false] at h1
              by_cases hyz : y < z
              · have hzx : ¬ z < x := by omega
                have hxz : x < z := by omega
                simp [hzx, hxz]
              · simp only [hyz, if_false] at h2
                have hzx : ¬ z < x := by omega
                have hxz : ¬ x < z := by omega
                simp only [hzx, hxz, if_false]
                exact ih ys zs h1 h2

theorem sortsBy_insertionSortFn (comp : NodeEvictionCandidate → NodeEvictionCandidate → Bool)
    (htot : ∀ a b, comp b a = false ∨ comp a b = false)
    (htrans : ∀ a b c, comp b a = false → comp c b = false → comp c a = false) :
    SortsBy insertionSortFn comp := by
  intro l
  haveI : IsTotal NodeEvictionCandidate (fun a b => comp b a = false) := ⟨htot⟩
  haveI : IsTrans NodeEvictionCandidate (fun a b => comp b a = false) := ⟨htrans⟩
  exact ⟨List.perm_insertionSort _ l, List.sorted_insertionSort _ l⟩

theorem insertionSortFn_isStdSort : IsStdSort insertionSortFn := by
  refine ⟨sortsBy_insertionSortFn _ ?_ ?_, sortsBy_insertionSortFn _ ?_ ?_,
    sortsBy_insertionSortFn _ ?_ ?_⟩
  · intro a b
    unfold CompareKeyedNetGroup
    by_cases h : vecLess b.vchKeyedNetGroup a.vchKeyedNetGroup = false
    · exact Or.inl h
    · right
      rw [Bool.not_eq_false] at h
      exact vecLess_asymm _ _ h
  · intro a b c
    unfold CompareKeyedNetGroup
    exact vecLess_le_trans _ _ _
  · intro a b
    unfold ReverseCompareNodeMinPingTime
    simp only [decide_eq_false_iff_not, gt_iff_lt, not_lt]
    omega
  · intro a b c
    unfold ReverseCompareNodeMinPingTime
    simp only [decide_eq_false_iff_not, gt_iff_lt, not_lt]
    omega
  · intro a b
    unfold ReverseCompareNodeTimeConnected
    simp only [decide_eq_false_iff_not, gt_iff_lt, not_lt]
    omega
  · intro a b c
    unfold ReverseCompareNodeTimeConnected
    simp only [decide_eq_false_iff_not, gt_iff_lt, not_lt]
    omega

theorem eraseTail_sublist {α : Type} (v : List α) (k : Nat) : (eraseTail v k).Sublist v :=
  List.take_sublist _ _

/-- After sorting and erasing the last `k`, every element kept has at least
`min k length` erased elements beyond it in the sorted order. -/
theorem countP_of_mem_eraseTail {α : Type} (R : α → α → Prop) (p : α → α → Bool)
    (v : List α) (k : Nat) (hR : v.Pairwise R) (hp : ∀ a b, R a b → p a b = true)
    (c : α) (hc : c ∈ eraseTail v (min k v.length)) :
    k ≤ v.countP (p c) := by
  unfold eraseTail at hc
  have hsplit : v.take (v.length - min k v.length) ++ v.drop (v.length - min k v.length) = v :=
    List.take_append_drop _ _
  have hpos : 0 < (v.take (v.length - min k v.length)).length := List.length_pos_of_mem hc
  have hk : k < v.length := by
    simp only [List.length_take] at hpos
    omega
  rw [← hsplit] at hR
  have hcross := (List.pairwise_append.mp hR).2.2 c hc
  have hall : ∀ d ∈ v.drop (v.length - min k v.length), p c d = true :=
    fun d hd => hp c d (hcross d hd)
  have hcount : (v.drop (v.length - min k v.length)).countP (p c) =
      (v.drop (v.length - min k v.length)).length := List.countP_eq_length.mpr hall
  have hle : (v.drop (v.length - min k v.length)).countP (p c) ≤ v.countP (p c) :=
    (List.drop_sublist _ _).countP_le _
  rw [hcount, List.length_drop] at hle
  omega

theorem scan_mapAddrCounts (l : List NodeEvictionCandidate) (s : GroupScan) (g : List Nat) :
    (l.foldl GroupScan.step s).mapAddrCounts g =
      s.mapAddrCounts g ++ l.filter (fun c => decide (c.vchNetGroup = g)) := by
  induction l generalizing s with
  | nil => simp
  | cons x xs ih =>
    rw [List.foldl_cons, ih]
    have hfun : (s.step x).mapAddrCounts =
        fun g => if g = x.vchNetGroup then s.mapAddrCounts g ++ [x] else s.mapAddrCounts g := by
      unfold GroupScan.step
      simp only []
      split_ifs <;> rfl
    have hstep : (s.step x).mapAddrCounts g =
        if g = x.vchNetGroup then s.mapAddrCounts g ++ [x] else s.mapAddrCounts g := by
      rw [hfun]
    rw [hstep]
    by_cases hg : g = x.vchNetGroup
    · subst hg
      simp
    · have hg2 : ¬ x.vchNetGroup = g := fun h => hg h.symm
      simp [hg, hg2]

theorem mem_evictionNodes (v3 : List NodeEvictionCandidate) (c : NodeEvictionCandidate)
    (hc : c ∈ evictionNodes v3) : c ∈ v3 := by
  unfold evictionNodes at hc
  simp only [scan_mapAddrCounts, GroupScan.init, List.nil_append] at hc
  exact List.mem_of_mem_filter hc

theorem flagById_eq_some (nEvictionId : Int) (l l1 : List CNode)
    (h : flagById nEvictionId l = some l1) :
    ∃ pre n post, l = pre ++ n :: post ∧ (∀ x ∈ pre, x.id ≠ nEvictionId) ∧ n.id = nEvictionId ∧
      l1 = pre ++ { n with fDisconnect := true } :: post := by
  induction l generalizing l1 with
  | nil => simp [flagById] at h
  | cons a rest ih =>
    simp only [flagById] at h
    by_cases ha : a.id = nEvictionId
    · rw [if_pos ha] at h
      injection h with h
      exact ⟨[], a, rest, rfl, by simp, ha, by rw [← h]; rfl⟩
    · simp only [ha, if_false, Option.map_eq_some'] at h
      obtain ⟨r, hr, hl1⟩ := h
      obtain ⟨pre, n, post, h1, h2, h3, h4⟩ := ih r hr
      refine ⟨a :: pre, n, post, by rw [h1]; rfl, ?_, h3, by rw [← hl1, h4]; rfl⟩
      intro x hx
      rcases List.mem_cons.mp hx with hxa | hxp
      · rw [hxa]; exact ha
      · exact h2 x hxp

theorem flagById_isSome (nEvictionId : Int) (l : List CNode)
    (h : ∃ n ∈ l, n.id = nEvictionId) : ∃ l1, flagById nEvictionId l = some l1 := by
  induction l with
  | nil => obtain ⟨n, hn, -⟩ := h; exact absurd hn (List.not_mem_nil n)
  | cons a rest ih =>
    simp only [flagById]
    by_cases ha : a.id = nEvictionId
    · exact ⟨_, if_pos ha⟩
    · obtain ⟨n, hn, hid⟩ := h
      rcases List.mem_cons.mp hn with hna | hnr
      · rw [hna] at hid; exact absurd hid ha
      · obtain ⟨l1, hl1⟩ := ih ⟨n, hnr, hid⟩
        exact ⟨a :: l1, by simp [ha, hl1]⟩

theorem mem_collectCandidates (vNodes : List CNode) (c : NodeEvictionCandidate)
    (hc : c ∈ collectCandidates vNodes) :
    ∃ n ∈ vNodes, n.fWhitelisted = false ∧ n.fInbound = true ∧ n.fDisconnect = false ∧
      NodeEvictionCandidate.ofNode n = c := by
  unfold collectCandidates at hc
  obtain ⟨n, hn, hnc⟩ := List.mem_map.mp hc
  obtain ⟨hmem, hcond⟩ := List.mem_filter.mp hn
  simp only [Bool.and_eq_true, Bool.not_eq_true'] at hcond
  exact ⟨n, hmem, hcond.1.1, hcond.1.2, hcond.2, hnc⟩

/-- The three protected lists and the survivors, unfolded. -/
theorem survivors_eq_some (sort : SortFn) (v v3 : List NodeEvictionCandidate)
    (h : survivors sort v = some v3) :
    v3 = protectByAge sort (protectByPing sort (protectByNetGroup sort v)) ∧ v3 ≠ [] := by
  unfold survivors at h
  simp only [] at h
  split_ifs at h with h1 h2 h3 h4
  simp only [Option.some.injEq] at h
  refine ⟨h.symm, ?_⟩
  rw [← h]
  intro hnil
  rw [hnil] at h4
  exact h4 rfl

theorem mem_protectByAge (sort : SortFn) (hs : IsStdSort sort) (v : List NodeEvictionCandidate)
    (c : NodeEvictionCandidate) (hc : c ∈ protectByAge sort v) : c ∈ v :=
  (hs.2.2 v).1.subset ((eraseTail_sublist _ _).subset hc)

theorem mem_protectByPing (sort : SortFn) (hs : IsStdSort sort) (v : List NodeEvictionCandidate)
    (c : NodeEvictionCandidate) (hc : c ∈ protectByPing sort v) : c ∈ v :=
  (hs.2.1 v).1.subset ((eraseTail_sublist _ _).subset hc)

theorem mem_protectByNetGroup (sort : SortFn) (hs : IsStdSort sort)
    (v : List NodeEvictionCandidate) (c : NodeEvictionCandidate)
    (hc : c ∈ protectByNetGroup sort v) : c ∈ v :=
  (hs.1 v).1.subset ((eraseTail_sublist _ _).subset hc)

/-- What a successful selection gives: the survivors and the position of the
selected candidate among them. -/
theorem selectEviction_eq_some (sort : SortFn) (f : Bool) (v : List NodeEvictionCandidate)
    (c : NodeEvictionCandidate) (h : selectEviction sort f v = some c) :
    ∃ v3, survivors sort v = some v3 ∧ c ∈ evictionNodes v3 ∧
      (evictionNodes v3).head? = some c := by
  unfold selectEviction at h
  cases hsv : survivors sort v with
  | none => simp [hsv] at h
  | some v3 =>
    simp only [hsv] at h
    cases hev : evictionNodes v3 with
    | nil => simp [hev] at h
    | cons first rest =>
      simp only [hev] at h
      split_ifs at h
      simp only [Option.some.injEq] at h
      subst h
      exact ⟨v3, rfl, by rw [hev]; exact List.mem_cons_self _ _, by rw [hev]; rfl⟩

/-- A true return of `AttemptToEvictConnection`: a candidate was selected and
the first connection carrying its id was flagged. -/
theorem AttemptToEvictConnection_eq_true (sort : SortFn) (f : Bool) (vNodes vNodes1 : List CNode)
    (h : AttemptToEvictConnection sort f vNodes = (true, vNodes1)) :
    ∃ c, selectEviction sort f (collectCandidates vNodes) = some c ∧
      flagById c.id vNodes = some vNodes1 := by
  unfold AttemptToEvictConnection at h
  cases hsel : selectEviction sort f (collectCandidates vNodes) with
  | none => simp [hsel] at h
  | some c =>
    simp only [hsel] at h
    cases hfl : flagById c.id vNodes with
    | none => simp [hfl] at h
    | some v1 =>
      simp only [hfl, Prod.mk.injEq, true_and] at h
      exact ⟨c, rfl, by rw [hfl, h]⟩

theorem mem_survivors (sort : SortFn) (hs : IsStdSort sort) (v v3 : List NodeEvictionCandidate)
    (h : survivors sort v = some v3) (c : NodeEvictionCandidate) (hc : c ∈ v3) :
    c ∈ protectByPing sort (protectByNetGroup sort v) ∧ c ∈ protectByNetGroup sort v ∧ c ∈ v := by
  obtain ⟨hv3, -⟩ := survivors_eq_some sort v v3 h
  rw [hv3] at hc
  have h2 := mem_protectByAge sort hs _ c hc
  have h1 := mem_protectByPing sort hs _ c h2
  exact ⟨h2, h1, mem_protectByNetGroup sort hs _ c h1⟩

/-- The selected candidate is one of the survivors. -/
theorem selectEviction_mem (sort : SortFn) (f : Bool) (v : List NodeEvictionCandidate)
    (c : NodeEvictionCandidate) (h : selectEviction sort f v = some c) :
    ∃ v3, survivors sort v = some v3 ∧ c ∈ v3 := by
  obtain ⟨v3, hsv, hmem, -⟩ := selectEviction_eq_some sort f v c h
  exact ⟨v3, hsv, mem_evictionNodes v3 c hmem⟩

/-- C5 (amended): when the keyed network groups of the candidates are pairwise
distinct and `AttemptToEvictConnection` returns true, the connection flagged is
the one carrying the id of a candidate that has at least 4 candidates with a
greater keyed network group: the 4 candidates with the highest keyed values are
the protected ones. -/
theorem AttemptToEvictConnection_spares_four_highest_keyed (sort : SortFn) (hs : IsStdSort sort)
    (f : Bool) (vNodes vNodes1 : List CNode)
    (hk : (collectCandidates vNodes).Pairwise
      (fun a b => a.vchKeyedNetGroup ≠ b.vchKeyedNetGroup))
    (h : AttemptToEvictConnection sort f vNodes = (true, vNodes1)) :
    ∃ c ∈ collectCandidates vNodes, flagById c.id vNodes = some vNodes1 ∧
      4 ≤ (collectCandidates vNodes).countP
        (fun d => vecLess c.vchKeyedNetGroup d.vchKeyedNetGroup) := by
  obtain ⟨c, hsel, hfl⟩ := AttemptToEvictConnection_eq_true sort f vNodes vNodes1 h
  obtain ⟨v3, hsv, hc3⟩ := selectEviction_mem sort f _ c hsel
  obtain ⟨-, hc1, hc0⟩ := mem_survivors sort hs _ v3 hsv c hc3
  refine ⟨c, hc0, hfl, ?_⟩
  obtain ⟨hperm, hsorted⟩ := hs.1 (collectCandidates vNodes)
  have hdist : (sort CompareKeyedNetGroup (collectCandidates vNodes)).Pairwise
      (fun a b => a.vchKeyedNetGroup ≠ b.vchKeyedNetGroup) :=
    (hperm.pairwise_iff (fun {a b} hab => Ne.symm hab)).mpr hk
  unfold protectByNetGroup at hc1
  rw [← hperm.length_eq] at hc1
  have hcount := countP_of_mem_eraseTail
    (fun a b => CompareKeyedNetGroup b a = false ∧ a.vchKeyedNetGroup ≠ b.vchKeyedNetGroup)
    (fun a b => vecLess a.vchKeyedNetGroup b.vchKeyedNetGroup)
    (sort CompareKeyedNetGroup (collectCandidates vNodes)) 4 (hsorted.and hdist)
    (fun a b hab => by
      by_contra hlt
      rw [Bool.not_eq_true] at hlt
      exact hab.2 (vecLess_total _ _ hlt hab.1))
    c hc1
  rw [hperm.countP_eq] at hcount
  exact hcount

/-- C6: when the minimum ping times of the candidates are pairwise distinct and
`AttemptToEvictConnection` returns true, the connection flagged is the one
carrying the id of a candidate that is left after the keyed-network-group step
and has at least 8 candidates with a lower minimum ping among those left after
that step, hence also at least 8 with a lower minimum ping in the whole pool: it
is not one of the 8 lowest-ping candidates of either. -/
theorem AttemptToEvictConnection_spares_eight_lowest_ping (sort : SortFn) (hs : IsStdSort sort)
    (f : Bool) (vNodes vNodes1 : List CNode)
    (hk : (collectCandidates vNodes).Pairwise
      (fun a b => a.nMinPingUsecTime ≠ b.nMinPingUsecTime))
    (h : AttemptToEvictConnection sort f vNodes = (true, vNodes1)) :
    ∃ c ∈ protectByNetGroup sort (collectCandidates vNodes),
      flagById c.id vNodes = some vNodes1 ∧
      8 ≤ (protectByNetGroup sort (collectCandidates vNodes)).countP
        (fun d => decide (d.nMinPingUsecTime < c.nMinPingUsecTime)) ∧
      8 ≤ (collectCandidates vNodes).countP
        (fun d => decide (d.nMinPingUsecTime < c.nMinPingUsecTime)) := by
  obtain ⟨c, hsel, hfl⟩ := AttemptToEvictConnection_eq_true sort f vNodes vNodes1 h
  obtain ⟨v3, hsv, hc3⟩ := selectEviction_mem sort f _ c hsel
  obtain ⟨hc2, hc1, -⟩ := mem_survivors sort hs _ v3 hsv c hc3
  obtain ⟨hperm0, -⟩ := hs.1 (collectCandidates vNodes)
  have hsub : (protectByNetGroup sort (collectCandidates vNodes)).Sublist
      (sort CompareKeyedNetGroup (collectCandidates vNodes)) := eraseTail_sublist _ _
  have hdist1 : (protectByNetGroup sort (collectCandidates vNodes)).Pairwise
      (fun a b => a.nMinPingUsecTime ≠ b.nMinPingUsecTime) :=
    ((hperm0.pairwise_iff (fun {a b} hab => Ne.symm hab)).mpr hk).sublist hsub
  obtain ⟨hperm, hsorted⟩ := hs.2.1 (protectByNetGroup sort (collectCandidates vNodes))
  have hdist : (sort ReverseCompareNodeMinPingTime
      (protectByNetGroup sort (collectCandidates vNodes))).Pairwise
      (fun a b => a.nMinPingUsecTime ≠ b.nMinPingUsecTime) :=
    (hperm.pairwise_iff (fun {a b} hab => Ne.symm hab)).mpr hdist1
  unfold protectByPing at hc2
  rw [← hperm.length_eq] at hc2
  have hcount := countP_of_mem_eraseTail
    (fun a b => ReverseCompareNodeMinPingTime b a = false ∧
      a.nMinPingUsecTime ≠ b.nMinPingUsecTime)
    (fun a b => decide (b.nMinPingUsecTime < a.nMinPingUsecTime))
    (sort ReverseCompareNodeMinPingTime (protectByNetGroup sort (collectCandidates vNodes))) 8
    (hsorted.and hdist)
    (fun a b hab => by
      obtain ⟨h1, h2⟩ := hab
      unfold ReverseCompareNodeMinPingTime at h1
      simp only [decide_eq_false_iff_not, gt_iff_lt, not_lt] at h1
      simp only [decide_eq_true_eq]
      omega)
    c hc2
  rw [hperm.countP_eq] at hcount
  have hcount1 : 8 ≤ (protectByNetGroup sort (collectCandidates vNodes)).countP
      (fun d => decide (d.nMinPingUsecTime < c.nMinPingUsecTime)) := hcount
  refine ⟨c, hc1, hfl, hcount1, ?_⟩
  have hle := hsub.countP_le (fun d => decide (d.nMinPingUsecTime < c.nMinPingUsecTime))
  rw [hperm0.countP_eq] at hle
  omega

theorem pairwise_group_of_count_le (v : List NodeEvictionCandidate)
    (h : ∀ g, v.countP (fun c => decide (c.vchNetGroup = g)) ≤ 1) :
    v.Pairwise (fun a b => a.vchNetGroup ≠ b.vchNetGroup) := by
  induction v with
  | nil => exact List.Pairwise.nil
  | cons x xs ih =>
    refine List.Pairwise.cons ?_ (ih ?_)
    · intro y hy hxy
      have h1 := h x.vchNetGroup
      rw [List.countP_cons_of_pos _ _ (by simp)] at h1
      have h2 : 0 < xs.countP (fun c => decide (c.vchNetGroup = x.vchNetGroup)) :=
        List.countP_pos_iff.mpr ⟨y, hy, by simp [hxy]⟩
      omega
    · intro g
      have h1 := h g
      have h2 := (List.sublist_cons_self x xs).countP_le (fun c => decide (c.vchNetGroup = g))
      omega

/-- While every further candidate opens a network group of its own and is not
connected later than the current choice, the grouping loop keeps its choice. -/
theorem scan_keeps_choice (rest : List NodeEvictionCandidate) :
    ∀ (s : GroupScan), s.nMostConnections = 1 →
      (∀ x ∈ rest, s.mapAddrCounts x.vchNetGroup = []) →
      rest.Pairwise (fun a b => a.vchNetGroup ≠ b.vchNetGroup) →
      (∀ x ∈ rest, x.nTimeConnected ≤ s.nMostConnectionsTime) →
      (rest.foldl GroupScan.step s).naMostConnections = s.naMostConnections := by
  induction rest with
  | nil => intro s _ _ _ _; rfl
  | cons x xs ih =>
    intro s hn hfresh hpw htime
    have hx := hfresh x (List.mem_cons_self x xs)
    have htx := htime x (List.mem_cons_self x xs)
    have hstep : s.step x = { s with mapAddrCounts := fun g =>
        if g = x.vchNetGroup then s.mapAddrCounts g ++ [x] else s.mapAddrCounts g } := by
      unfold GroupScan.step
      simp only [if_true, hx, List.nil_append, List.length_singleton, hn, List.headD_cons]
      rw [if_neg]
      intro hcon
      rcases hcon with h1 | ⟨-, h2⟩
      · omega
      · omega
    rw [List.foldl_cons, hstep]
    have hpw' := List.pairwise_cons.mp hpw
    refine ih _ hn ?_ hpw'.2 (fun y hy => htime y (List.mem_cons_of_mem x hy))
    intro y hy
    have hne : y.vchNetGroup ≠ x.vchNetGroup := fun e => hpw'.1 y hy e.symm
    simp only [hne, if_false]
    exact hfresh y (List.mem_cons_of_mem x hy)

/-- With every survivor in a network group of its own and the survivors in
reverse connect-time order, the chosen vector holds the first survivor only. -/
theorem evictionNodes_singletons (x0 : NodeEvictionCandidate) (rest : List NodeEvictionCandidate)
    (hpw : (x0 :: rest).Pairwise (fun a b => a.vchNetGroup ≠ b.vchNetGroup))
    (hsorted : (x0 :: rest).Pairwise (fun a b => ReverseCompareNodeTimeConnected b a = false)) :
    evictionNodes (x0 :: rest) = [x0] := by
  have hpw' := List.pairwise_cons.mp hpw
  have hs' := List.pairwise_cons.mp hsorted
  have hfirst : GroupScan.init.step x0 =
      { naMostConnections := x0.vchNetGroup, nMostConnections := 1,
        nMostConnectionsTime := x0.nTimeConnected,
        mapAddrCounts := fun g => if g = x0.vchNetGroup then [] ++ [x0] else [] } := by
    unfold GroupScan.step GroupScan.init
    simp
  have hna : (rest.foldl GroupScan.step (GroupScan.init.step x0)).naMostConnections =
      x0.vchNetGroup := by
    rw [scan_keeps_choice rest (GroupScan.init.step x0) (by rw [hfirst]) ?_ hpw'.2 ?_]
    · rw [hfirst]
    · intro y hy
      rw [hfirst]
      have hne : y.vchNetGroup ≠ x0.vchNetGroup := fun e => hpw'.1 y hy e.symm
      simp only [hne, if_false]
    · intro y hy
      rw [hfirst]
      have := hs'.1 y hy
      unfold ReverseCompareNodeTimeConnected at this
      simp only [decide_eq_false_iff_not, gt_iff_lt, not_lt] at this
      exact this
  unfold evictionNodes
  simp only [List.foldl_cons, hna, scan_mapAddrCounts]
  rw [hfirst]
  simp only [if_true, List.nil_append]
  have hfil : rest.filter (fun c => decide (c.vchNetGroup = x0.vchNetGroup)) = [] := by
    rw [List.filter_eq_nil_iff]
    intro y hy
    have hne : y.vchNetGroup ≠ x0.vchNetGroup := fun e => hpw'.1 y hy e.symm
    simp [hne]
  rw [hfil]
  rfl

theorem survivors_sorted (sort : SortFn) (hs : IsStdSort sort) (v v3 : List NodeEvictionCandidate)
    (h : survivors sort v = some v3) :
    v3.Pairwise (fun a b => ReverseCompareNodeTimeConnected b a = false) := by
  obtain ⟨hv3, -⟩ := survivors_eq_some sort v v3 h
  rw [hv3]
  exact (hs.2.2 _).2.sublist (eraseTail_sublist _ _)

/-- C7: when, after the three protection steps, no coarse network group has more
than one member (so the most populous group has exactly one),
`AttemptToEvictConnection(false)` returns false and leaves the registry as it
is, while `AttemptToEvictConnection(true)` returns true and flags exactly one
connection, the one carrying the id of the first survivor `c`, which is the only
member of its network group. -/
theorem AttemptToEvictConnection_single_member_group (sort : SortFn) (hs : IsStdSort sort)
    (vNodes : List CNode) (v3 : List NodeEvictionCandidate)
    (hsv : survivors sort (collectCandidates vNodes) = some v3)
    (hone : ∀ g, v3.countP (fun c => decide (c.vchNetGroup = g)) ≤ 1) :
    AttemptToEvictConnection sort false vNodes = (false, vNodes) ∧
    ∃ c pre n post, v3.head? = some c ∧
      v3.filter (fun d => decide (d.vchNetGroup = c.vchNetGroup)) = [c] ∧
      vNodes = pre ++ n :: post ∧ n.id = c.id ∧ (∀ x ∈ pre, x.id ≠ c.id) ∧
      AttemptToEvictConnection sort true vNodes =
        (true, pre ++ { n with fDisconnect := true } :: post) := by
  obtain ⟨-, hne⟩ := survivors_eq_some sort _ v3 hsv
  have hpw := pairwise_group_of_count_le v3 hone
  have hsorted := survivors_sorted sort hs _ v3 hsv
  cases v3 with
  | nil => exact absurd rfl hne
  | cons x0 rest =>
    have hev := evictionNodes_singletons x0 rest hpw hsorted
    have hselF : selectEviction sort false (collectCandidates vNodes) = none := by
      simp [selectEviction, hsv, hev]
    have hselT : selectEviction sort true (collectCandidates vNodes) = some x0 := by
      simp [selectEviction, hsv, hev]
    have hmem : x0 ∈ collectCandidates vNodes :=
      (mem_survivors sort hs _ _ hsv x0 (List.mem_cons_self x0 rest)).2.2
    obtain ⟨n0, hn0, -, -, -, hof⟩ := mem_collectCandidates vNodes x0 hmem
    have hid : n0.id = x0.id := by rw [← hof]; rfl
    obtain ⟨l1, hl1⟩ := flagById_isSome x0.id vNodes ⟨n0, hn0, hid⟩
    obtain ⟨pre, n, post, h1, h2, h3, h4⟩ := flagById_eq_some x0.id vNodes l1 hl1
    refine ⟨by simp [AttemptToEvictConnection, hselF], x0, pre, n, post, rfl, ?_, h1, h3, h2, ?_⟩
    · have hpw' := List.pairwise_cons.mp hpw
      rw [List.filter_cons_of_pos (by simp)]
      congr 1
      rw [List.filter_eq_nil_iff]
      intro y hy
      have hne : y.vchNetGroup ≠ x0.vchNetGroup := fun e => hpw'.1 y hy e.symm
      simp [hne]
    · simp only [AttemptToEvictConnection, hselT, hl1, h4]

theorem AttemptToEvictConnection_single_member_group_witness :
    AttemptToEvictConnection insertionSortFn false evictionSample = (false, evictionSample) ∧
    ∃ c pre n post, [NodeEvictionCandidate.ofNode (sampleNode 0 100 50 0 0)].head? = some c ∧
      [NodeEvictionCandidate.ofNode (sampleNode 0 100 50 0 0)].filter
        (fun d => decide (d.vchNetGroup = c.vchNetGroup)) = [c] ∧
      evictionSample = pre ++ n :: post ∧ n.id = c.id ∧ (∀ x ∈ pre, x.id ≠ c.id) ∧
      AttemptToEvictConnection insertionSortFn true evictionSample =
        (true, pre ++ { n with fDisconnect := true } :: post) :=
  AttemptToEvictConnection_single_member_group insertionSortFn insertionSortFn_isStdSort
    evictionSample [NodeEvictionCandidate.ofNode (sampleNode 0 100 50 0 0)] (by decide)
    (fun g => by
      by_cases hg : [0] = g
      · simp [NodeEvictionCandidate.ofNode, sampleNode, hg]
      · simp [NodeEvictionCandidate.ofNode, sampleNode, hg])

theorem forall₂_replace {α : Type} (R : α → α → Prop) (hrefl : ∀ x, R x x) (pre post : List α)
    (n n1 : α) (hn : R n n1) : List.Forall₂ R (pre ++ n :: post) (pre ++ n1 :: post) := by
  induction pre with
  | nil => exact List.Forall₂.cons hn (List.forall₂_same.mpr (fun x _ => hrefl x))
  | cons a as ih => exact List.Forall₂.cons (hrefl a) ih

/-- C8: in a registry whose connection ids are pairwise distinct (they come
from the counter `nLastNodeId`), `AttemptToEvictConnection` either returns false
and leaves the registry as it is, or returns true and sets `fDisconnect` on
exactly one connection, which is inbound, not whitelisted and was not flagged
before; position by position, every whitelisted connection and every outbound
connection is the same after the call as before it. -/
theorem AttemptToEvictConnection_flags_only_candidates (sort : SortFn) (hs : IsStdSort sort)
    (f : Bool) (vNodes : List CNode) (hid : (vNodes.map CNode.id).Nodup) :
    (AttemptToEvictConnection sort f vNodes = (false, vNodes) ∨
      ∃ pre n post, vNodes = pre ++ n :: post ∧ n.fInbound = true ∧ n.fWhitelisted = false ∧
        n.fDisconnect = false ∧
        AttemptToEvictConnection sort f vNodes =
          (true, pre ++ { n with fDisconnect := true } :: post)) ∧
    List.Forall₂ (fun a b => (a.fWhitelisted = true ∨ a.fInbound = false) → b = a) vNodes
      (AttemptToEvictConnection sort f vNodes).2 := by
  have hmain : AttemptToEvictConnection sort f vNodes = (false, vNodes) ∨
      ∃ pre n post, vNodes = pre ++ n :: post ∧ n.fInbound = true ∧ n.fWhitelisted = false ∧
        n.fDisconnect = false ∧
        AttemptToEvictConnection sort f vNodes =
          (true, pre ++ { n with fDisconnect := true } :: post) := by
    cases hsel : selectEviction sort f (collectCandidates vNodes) with
    | none => left; simp [AttemptToEvictConnection, hsel]
    | some c =>
      right
      obtain ⟨v3, hsv, hc3⟩ := selectEviction_mem sort f _ c hsel
      have hmem := (mem_survivors sort hs _ v3 hsv c hc3).2.2
      obtain ⟨n0, hn0, hw, hin, hdis, hof⟩ := mem_collectCandidates vNodes c hmem
      have hid0 : n0.id = c.id := by rw [← hof]; rfl
      obtain ⟨l1, hl1⟩ := flagById_isSome c.id vNodes ⟨n0, hn0, hid0⟩
      obtain ⟨pre, n, post, h1, -, h3, h4⟩ := flagById_eq_some c.id vNodes l1 hl1
      have hnmem : n ∈ vNodes := by rw [h1]; simp
      have hnn : n = n0 :=
        List.inj_on_of_nodup_map hid hnmem hn0 (by rw [h3, hid0])
      refine ⟨pre, n, post, h1, by rw [hnn]; exact hin, by rw [hnn]; exact hw,
        by rw [hnn]; exact hdis, ?_⟩
      simp only [AttemptToEvictConnection, hsel, hl1, h4]
  refine ⟨hmain, ?_⟩
  rcases hmain with hF | ⟨pre, n, post, h1, hin, hw, -, hT⟩
  · rw [hF]
    exact List.forall₂_same.mpr (fun x _ _ => rfl)
  · rw [hT]
    simp only []
    rw [h1]
    refine forall₂_replace _ (fun x _ => rfl) pre post n _ ?_
    rintro (hw1 | hin1)
    · rw [hw] at hw1; exact Bool.noConfusion hw1
    · rw [hin] at hin1; exact Bool.noConfusion hin1

theorem AttemptToEvictConnection_flags_only_candidates_witness :
    (AttemptToEvictConnection insertionSortFn true evictionSample = (false, evictionSample) ∨
      ∃ pre n post, evictionSample = pre ++ n :: post ∧ n.fInbound = true ∧
        n.fWhitelisted = false ∧ n.fDisconnect = false ∧
        AttemptToEvictConnection insertionSortFn true evictionSample =
          (true, pre ++ { n with fDisconnect := true } :: post)) ∧
    List.Forall₂ (fun a b => (a.fWhitelisted = true ∨ a.fInbound = false) → b = a) evictionSample
      (AttemptToEvictConnection insertionSortFn true evictionSample).2 :=
  AttemptToEvictConnection_flags_only_candidates insertionSortFn insertionSortFn_isStdSort true
    evictionSample (by decide)

theorem AttemptToEvictConnection_spares_eight_lowest_ping_witness :
    ∃ c ∈ protectByNetGroup insertionSortFn (collectCandidates evictionSample),
      flagById c.id evictionSample =
        some (AttemptToEvictConnection insertionSortFn true evictionSample).2 ∧
      8 ≤ (protectByNetGroup insertionSortFn (collectCandidates evictionSample)).countP
        (fun d => decide (d.nMinPingUsecTime < c.nMinPingUsecTime)) ∧
      8 ≤ (collectCandidates evictionSample).countP
        (fun d => decide (d.nMinPingUsecTime < c.nMinPingUsecTime)) :=
  AttemptToEvictConnection_spares_eight_lowest_ping insertionSortFn insertionSortFn_isStdSort true
    evictionSample (AttemptToEvictConnection insertionSortFn true evictionSample).2
    (by decide) (by decide)

theorem AttemptToEvictConnection_spares_four_highest_keyed_witness :
    ∃ c ∈ collectCandidates evictionSample,
      flagById c.id evictionSample =
        some (AttemptToEvictConnection insertionSortFn true evictionSample).2 ∧
      4 ≤ (collectCandidates evictionSample).countP
        (fun d => vecLess c.vchKeyedNetGroup d.vchKeyedNetGroup) :=
  AttemptToEvictConnection_spares_four_highest_keyed insertionSortFn insertionSortFn_isStdSort
    true evictionSample (AttemptToEvictConnection insertionSortFn true evictionSample).2
    (by decide) (by decide)

/-- C5 (counterexample): in the sample registry all keyed network groups are
distinct, `AttemptToEvictConnection(true)` returns true and flags the connection
with id 0, whose keyed network group `[0]` is the lowest of all candidates: no
candidate has a lower one, so it is among the 4 lowest. -/
theorem AttemptToEvictConnection_flags_lowest_keyed :
    (collectCandidates evictionSample).Pairwise
      (fun a b => a.vchKeyedNetGroup ≠ b.vchKeyedNetGroup) ∧
    AttemptToEvictConnection insertionSortFn true evictionSample =
      (true, { sampleNode 0 100 50 0 0 with fDisconnect := true } :: evictionSample.tail) ∧
    (sampleNode 0 100 50 0 0).vchKeyedNetGroup = [0] ∧
    (collectCandidates evictionSample).countP (fun d => vecLess d.vchKeyedNetGroup [0]) = 0 := by
  decide

/-! ## Theorems: relay cache -/

theorem mapFind_mapErase {K V : Type} [DecidableEq K] (m : List (K × V)) (k k1 : K) :
    mapFind (mapErase m k1) k = if k = k1 then none else mapFind m k := by
  induction m with
  | nil => simp [mapErase, mapFind]
  | cons p rest ih =>
    unfold mapErase at ih ⊢
    by_cases hp : p.1 = k1
    · rw [List.filter_cons_of_neg (by simp [hp]), ih]
      by_cases hk : k = k1
      · simp [hk]
      · have hpk : ¬ p.1 = k := fun e => hk (e.symm.trans hp)
        simp [hk, mapFind, hpk]
    · rw [List.filter_cons_of_pos (by simp [hp])]
      simp only [mapFind]
      by_cases hpk : p.1 = k
      · have hk : ¬ k = k1 := fun e => hp (hpk.trans e)
        simp [hpk, hk]
      · simp only [hpk, if_false]
        exact ih

theorem mapFind_append {K V : Type} [DecidableEq K] (m : List (K × V)) (k k1 : K) (v : V) :
    mapFind (m ++ [(k1, v)]) k =
      match mapFind m k with
      | some w => some w
      | none => if k1 = k then some v else none := by
  induction m with
  | nil => simp [mapFind]
  | cons p rest ih =>
    simp only [List.cons_append, mapFind]
    by_cases hp : p.1 = k
    · simp [hp]
    · simp only [hp, if_false]
      exact ih

theorem mapFind_mapInsert {K V : Type} [DecidableEq K] (m : List (K × V)) (k k1 : K) (v : V) :
    mapFind (mapInsert m k1 v) k =
      match mapFind m k with
      | some w => some w
      | none => if k1 = k then some v else none := by
  unfold mapInsert
  cases h1 : mapFind m k1 with
  | none => exact mapFind_append m k k1 v
  | some w1 =>
    simp only []
    cases h : mapFind m k with
    | some w => rfl
    | none =>
      have hne : ¬ k1 = k := by
        intro e
        rw [e] at h1
        rw [h1] at h
        exact Option.noConfusion h
      simp [hne]

/-- The purge loop never erases a key whose queue entries have not expired. -/
theorem expireRelay_mapFind_keep {K : Type} [DecidableEq K] (now : Int) (k : K) :
    ∀ (q : List (Int × K)) (m : List (K × List Nat)),
      (∀ e ∈ q, e.2 = k → now ≤ e.1) →
      mapFind (expireRelay now m q).mapRelay k = mapFind m k := by
  intro q
  induction q with
  | nil => intro m _; rfl
  | cons e q ih =>
    intro m h
    unfold expireRelay
    by_cases he : e.1 < now
    · rw [if_pos he, ih _ (fun x hx => h x (List.mem_cons_of_mem e hx)), mapFind_mapErase]
      have hne : ¬ k = e.2 := by
        intro hk
        have := h e (List.mem_cons_self e q) hk.symm
        omega
      rw [if_neg hne]
    · rw [if_neg he]

/-- What is left in the queue after the purge loop was in it before. -/
theorem expireRelay_queue_subset {K : Type} [DecidableEq K] (now : Int) :
    ∀ (q : List (Int × K)) (m : List (K × List Nat)),
      (expireRelay now m q).vRelayExpiration.Sublist q := by
  intro q
  induction q with
  | nil => intro m; exact List.Sublist.refl _
  | cons e q ih =>
    intro m
    unfold expireRelay
    by_cases he : e.1 < now
    · rw [if_pos he]
      exact (ih _).trans (List.sublist_cons_self e q)
    · rw [if_neg he]

/-- On a queue in expiry order, the purge loop leaves only entries that have not
expired. -/
theorem expireRelay_queue_ge {K : Type} [DecidableEq K] (now : Int) :
    ∀ (q : List (Int × K)) (m : List (K × List Nat)),
      q.Pairwise (fun a b => a.1 ≤ b.1) →
      ∀ e ∈ (expireRelay now m q).vRelayExpiration, now ≤ e.1 := by
  intro q
  induction q with
  | nil => intro m _ e he; exact absurd he (List.not_mem_nil e)
  | cons e0 q ih =>
    intro m hs e he
    unfold expireRelay at he
    have hs' := List.pairwise_cons.mp hs
    by_cases h0 : e0.1 < now
    · rw [if_pos h0] at he
      exact ih _ hs'.2 e he
    · rw [if_neg h0] at he
      rcases List.mem_cons.mp he with h1 | h1
      · rw [h1]; omega
      · have := hs'.1 e h1
        omega

/-- The purge loop keeps every key of the map represented in the queue. -/
theorem expireRelay_keys {K : Type} [DecidableEq K] (now : Int) :
    ∀ (q : List (Int × K)) (m : List (K × List Nat)),
      (∀ k, mapFind m k ≠ none → ∃ e ∈ q, e.2 = k) →
      ∀ k, mapFind (expireRelay now m q).mapRelay k ≠ none →
        ∃ e ∈ (expireRelay now m q).vRelayExpiration, e.2 = k := by
  intro q
  induction q with
  | nil =>
    intro m h k hk
    exact h k hk
  | cons e0 q ih =>
    intro m h k hk
    unfold expireRelay at hk ⊢
    by_cases h0 : e0.1 < now
    · rw [if_pos h0] at hk ⊢
      refine ih (mapErase m e0.2) ?_ k hk
      intro k1 hk1
      rw [mapFind_mapErase] at hk1
      by_cases hkk : k1 = e0.2
      · rw [if_pos hkk] at hk1; exact absurd rfl hk1
      · rw [if_neg hkk] at hk1
        obtain ⟨e, hmem, hek⟩ := h k1 hk1
        rcases List.mem_cons.mp hmem with h1 | h1
        · rw [h1] at hek; exact absurd hek.symm hkk
        · exact ⟨e, h1, hek⟩
    · rw [if_neg h0] at hk ⊢
      exact h k hk

theorem RelayInv.mono {K : Type} [DecidableEq K] {T T1 : Int} {st : RelayState K}
    (h : RelayInv T st) (hT : T ≤ T1) : RelayInv T1 st :=
  ⟨h.1, fun e he => by have := h.2.1 e he; omega, h.2.2⟩

theorem RelayTransaction_queue {K : Type} [DecidableEq K] (st : RelayState K) (now : Int) (inv : K)
    (ss : List Nat) (e : Int × K) (he : e ∈ (RelayTransaction st now inv ss).vRelayExpiration) :
    (e ∈ (expireRelay now st.mapRelay st.vRelayExpiration).vRelayExpiration ∧
      e ∈ st.vRelayExpiration) ∨ e = (now + 15 * 60, inv) := by
  unfold RelayTransaction at he
  simp only [List.mem_append, List.mem_singleton] at he
  rcases he with h | h
  · exact Or.inl ⟨h, (expireRelay_queue_subset now _ _).subset h⟩
  · exact Or.inr h

theorem RelayInv.step {K : Type} [DecidableEq K] {T : Int} {st : RelayState K}
    (h : RelayInv T st) (now : Int) (hT : T ≤ now) (inv : K) (ss : List Nat) :
    RelayInv now (RelayTransaction st now inv ss) := by
  obtain ⟨hs, hb, hk⟩ := h
  refine ⟨?_, ?_, ?_⟩
  · unfold RelayTransaction
    simp only []
    rw [List.pairwise_append]
    refine ⟨hs.sublist (expireRelay_queue_subset now _ _), List.pairwise_singleton _ _, ?_⟩
    intro a ha b hb1
    rw [List.mem_singleton] at hb1
    have := hb a ((expireRelay_queue_subset now _ _).subset ha)
    rw [hb1]
    simp only []
    omega
  · intro e he
    rcases RelayTransaction_queue st now inv ss e he with ⟨-, h1⟩ | h1
    · have := hb e h1; omega
    · rw [h1]
  · intro k hne
    unfold RelayTransaction at hne ⊢
    simp only [] at hne ⊢
    rw [mapFind_mapInsert] at hne
    cases hf : mapFind (expireRelay now st.mapRelay st.vRelayExpiration).mapRelay k with
    | some w =>
      obtain ⟨e, he, hek⟩ := expireRelay_keys now _ _ hk k (by rw [hf]; exact Option.noConfusion)
      exact ⟨e, List.mem_append_left _ he, hek⟩
    | none =>
      rw [hf] at hne
      simp only [] at hne
      by_cases hik : inv = k
      · exact ⟨(now + 15 * 60, inv), by simp, hik⟩
      · rw [if_neg hik] at hne
        exact absurd rfl hne

theorem relayAll_inv {K : Type} [DecidableEq K] :
    ∀ (calls : List (Int × K × List Nat)) (st : RelayState K) (T T1 : Int), RelayInv T st →
      calls.Pairwise (fun a b => a.1 ≤ b.1) → (∀ c ∈ calls, T ≤ c.1) → (∀ c ∈ calls, c.1 ≤ T1) →
      T ≤ T1 → RelayInv T1 (relayAll st calls) := by
  intro calls
  induction calls with
  | nil => intro st T T1 h _ _ _ hT; exact h.mono hT
  | cons c cs ih =>
    intro st T T1 h hord hlo hhi hT
    have hord' := List.pairwise_cons.mp hord
    unfold relayAll
    rw [List.foldl_cons]
    exact ih _ c.1 T1 (h.step c.1 (hlo c (List.mem_cons_self c cs)) c.2.1 c.2.2) hord'.2
      (fun d hd => hord'.1 d hd) (fun d hd => hhi d (List.mem_cons_of_mem c hd))
      (hhi c (List.mem_cons_self c cs))

/-- Queue entries for `k` all expire before `t` as long as every broadcast of
`k` was made more than 15 minutes before `t`. -/
theorem relayAll_old {K : Type} [DecidableEq K] (k : K) (t : Int) :
    ∀ (calls : List (Int × K × List Nat)) (st : RelayState K),
      (∀ e ∈ st.vRelayExpiration, e.2 = k → e.1 < t) →
      (∀ c ∈ calls, c.2.1 = k → c.1 + 15 * 60 < t) →
      ∀ e ∈ (relayAll st calls).vRelayExpiration, e.2 = k → e.1 < t := by
  intro calls
  induction calls with
  | nil => intro st h _; exact h
  | cons c cs ih =>
    intro st h hc
    unfold relayAll
    rw [List.foldl_cons]
    refine ih _ ?_ (fun d hd => hc d (List.mem_cons_of_mem c hd))
    intro e he hek
    rcases RelayTransaction_queue st c.1 c.2.1 c.2.2 e he with ⟨-, h1⟩ | h1
    · exact h e h1 hek
    · rw [h1] at hek ⊢
      exact hc c (List.mem_cons_self c cs) hek

/-- The broadcast of `k` at `t`, when no unexpired queue entry for `k` is left:
the payload is stored and the only queue entries for `k` expire at `t + 15 * 60`
or later. -/
theorem RelayTransaction_fresh {K : Type} [DecidableEq K] {T : Int} {st : RelayState K}
    (h : RelayInv T st) (t : Int) (k : K) (s : List Nat)
    (hold : ∀ e ∈ st.vRelayExpiration, e.2 = k → e.1 < t) :
    mapFind (RelayTransaction st t k s).mapRelay k = some s ∧
      ∀ e ∈ (RelayTransaction st t k s).vRelayExpiration, e.2 = k → t + 15 * 60 ≤ e.1 := by
  obtain ⟨hs, -, hk⟩ := h
  have hnone : ∀ e ∈ (expireRelay t st.mapRelay st.vRelayExpiration).vRelayExpiration,
      e.2 ≠ k := by
    intro e he hek
    have h1 := expireRelay_queue_ge t _ st.mapRelay hs e he
    have h2 := hold e ((expireRelay_queue_subset t _ _).subset he) hek
    omega
  have habs : mapFind (expireRelay t st.mapRelay st.vRelayExpiration).mapRelay k = none := by
    by_contra hne
    obtain ⟨e, he, hek⟩ := expireRelay_keys t _ _ hk k hne
    exact hnone e he hek
  constructor
  · unfold RelayTransaction
    simp only []
    rw [mapFind_mapInsert, habs]
    simp
  · intro e he hek
    rcases RelayTransaction_queue st t k s e he with ⟨h1, -⟩ | h1
    · exact absurd hek (hnone e h1)
    · rw [h1]

/-- Calls made no later than `t + 15 * 60` keep the payload stored at `t`. -/
theorem relayAll_keep {K : Type} [DecidableEq K] (k : K) (t : Int) (s : List Nat) :
    ∀ (calls : List (Int × K × List Nat)) (st : RelayState K),
      mapFind st.mapRelay k = some s →
      (∀ e ∈ st.vRelayExpiration, e.2 = k → t + 15 * 60 ≤ e.1) →
      (∀ c ∈ calls, t ≤ c.1 ∧ c.1 ≤ t + 15 * 60) →
      mapFind (relayAll st calls).mapRelay k = some s := by
  intro calls
  induction calls with
  | nil => intro st h _ _; exact h
  | cons c cs ih =>
    intro st hm hq hc
    unfold relayAll
    rw [List.foldl_cons]
    have hct := hc c (List.mem_cons_self c cs)
    have hkeep : mapFind (expireRelay c.1 st.mapRelay st.vRelayExpiration).mapRelay k = some s := by
      rw [expireRelay_mapFind_keep c.1 k _ _ (fun e he hek => by have := hq e he hek; omega)]
      exact hm
    refine ih _ ?_ ?_ (fun d hd => hc d (List.mem_cons_of_mem c hd))
    · unfold RelayTransaction
      simp only []
      rw [mapFind_mapInsert, hkeep]
    · intro e he hek
      rcases RelayTransaction_queue st c.1 c.2.1 c.2.2 e he with ⟨-, h1⟩ | h1
      · exact hq e h1 hek
      · rw [h1]
        simp only []
        omega

theorem RelayInv.empty {K : Type} [DecidableEq K] (T : Int) :
    RelayInv T (RelayState.empty : RelayState K) := by
  refine ⟨List.Pairwise.nil, ?_, ?_⟩
  · intro e he; exact absurd he (List.not_mem_nil e)
  · intro k hk; exact absurd rfl hk

/-- The cache after any calls made at non-decreasing times up to `T1`. -/
theorem relayAll_empty_inv {K : Type} [DecidableEq K] (calls : List (Int × K × List Nat))
    (T1 : Int) (hord : calls.Pairwise (fun a b => a.1 ≤ b.1)) (hhi : ∀ c ∈ calls, c.1 ≤ T1) :
    RelayInv T1 (relayAll (RelayState.empty : RelayState K) calls) := by
  cases calls with
  | nil => exact RelayInv.empty T1
  | cons c cs =>
    have hord' := List.pairwise_cons.mp hord
    refine relayAll_inv (c :: cs) _ c.1 T1 (RelayInv.empty c.1) hord ?_ hhi
      (hhi c (List.mem_cons_self c cs))
    intro d hd
    rcases List.mem_cons.mp hd with h1 | h1
    · rw [h1]
    · exact hord'.1 d h1

/-- C9 (amended): for `RelayTransaction` calls made at non-decreasing times from
the empty cache: if key `k` is broadcast with payload `s` at time `t`, every
earlier broadcast of `k` having been made more than 15 minutes before `t`, then
after all the calls made up to any time not later than `t + 15 * 60`, `mapRelay`
maps `k` to exactly `s`. -/
theorem RelayTransaction_payload_kept_for_ttl {K : Type} [DecidableEq K]
    (pre post : List (Int × K × List Nat)) (t : Int) (k : K) (s : List Nat)
    (hord : (pre ++ (t, k, s) :: post).Pairwise (fun a b => a.1 ≤ b.1))
    (hold : ∀ c ∈ pre, c.2.1 = k → c.1 + 15 * 60 < t)
    (hpost : ∀ c ∈ post, c.1 ≤ t + 15 * 60) :
    mapFind (relayAll RelayState.empty (pre ++ (t, k, s) :: post)).mapRelay k = some s := by
  obtain ⟨hpre, hrest, hcross⟩ := List.pairwise_append.mp hord
  have hrest' := List.pairwise_cons.mp hrest
  have hinv : RelayInv t (relayAll (RelayState.empty : RelayState K) pre) :=
    relayAll_empty_inv pre t hpre (fun c hc => hcross c hc (t, k, s) (List.mem_cons_self _ _))
  have hq := relayAll_old k t pre (RelayState.empty : RelayState K)
    (fun e he => absurd he (List.not_mem_nil e)) hold
  obtain ⟨hm, hq1⟩ := RelayTransaction_fresh hinv t k s hq
  have hsplit : relayAll RelayState.empty (pre ++ (t, k, s) :: post) =
      relayAll (RelayTransaction (relayAll RelayState.empty pre) t k s) post := by
    unfold relayAll
    rw [List.foldl_append, List.foldl_cons]
  rw [hsplit]
  exact relayAll_keep k t s post _ hm hq1
    (fun c hc => ⟨hrest'.1 c hc, hpost c hc⟩)

theorem RelayTransaction_payload_kept_for_ttl_witness :
    mapFind (relayAll RelayState.empty
      ([(0, 1, [7]), (10, 2, [5])] ++ (1000, 1, [8]) :: [(1900, 3, [6])])).mapRelay 1 =
      some [8] :=
  RelayTransaction_payload_kept_for_ttl [(0, 1, [7]), (10, 2, [5])] [(1900, 3, [6])] 1000 1 [8]
    (by decide) (by decide) (by decide)

/-- C9 (counterexample): a key broadcast at time 0 with payload `[7]` and again
at time 1 with payload `[8]` is mapped to `[7]` at time 1; and a key broadcast
at times 0 and 600 is no longer in `mapRelay` after a call at time 901, which is
within 15 minutes of the second broadcast. -/
theorem RelayTransaction_repeated_broadcast_not_kept :
    mapFind (relayAll RelayState.empty [(0, (1 : Nat), [7]), (1, 1, [8])]).mapRelay 1 =
      some [7] ∧
    mapFind (relayAll RelayState.empty
      [(0, (1 : Nat), [7]), (600, 1, [7]), (901, 2, [9])]).mapRelay 1 = none ∧
    (901 : Int) ≤ 600 + 15 * 60 := by
  decide

/-- C10 (evaluation at the failing input): key 1 is broadcast at times 0 and
600 and key 2 at time 901. That call is not later than `600 + 15 * 60`, yet after
it `mapRelay` no longer contains key 1, while `vRelayExpiration` still holds the
entry `(1500, 1)`. -/
theorem RelayTransaction_purges_rebroadcast_early :
    mapFind (relayAll RelayState.empty
      [(0, (1 : Nat), [7]), (600, 1, [7])]).mapRelay 1 = some [7] ∧
    mapFind (relayAll RelayState.empty
      [(0, (1 : Nat), [7]), (600, 1, [7]), (901, 2, [9])]).mapRelay 1 = none ∧
    (relayAll RelayState.empty
      [(0, (1 : Nat), [7]), (600, 1, [7]), (901, 2, [9])]).vRelayExpiration =
      [(1500, 1), (1801, 2)] ∧
    ¬ ((901 : Int) > 600 + 15 * 60) := by
  decide

/-! ## Theorems: payload buffer bounds -/

/-- One `readData` call keeps the bounds, leaves the header alone and does not
overflow the 32-bit sum of the resize argument. -/
theorem readData_bounds_step (m : CNetMessage) (pch : List Nat) (nBytes : Nat)
    (hL : m.hdr.nMessageSize < 2 ^ 31) (hB : DataBounds m) :
    DataBounds (readData m pch nBytes).1 ∧ (readData m pch nBytes).1.hdr = m.hdr ∧
      m.nDataPos + min (m.hdr.nMessageSize - m.nDataPos) nBytes + 256 * 1024 < 2 ^ 32 ∧
      (readData m pch nBytes).1.nDataPos =
        m.nDataPos + min (m.hdr.nMessageSize - m.nDataPos) nBytes := by
  obtain ⟨h1, h2, h3⟩ := hB
  obtain ⟨d, hd⟩ : ∃ d, d = m.nDataPos := ⟨_, rfl⟩
  obtain ⟨L, hLe⟩ : ∃ L, L = m.hdr.nMessageSize := ⟨_, rfl⟩
  simp only [← hd, ← hLe] at h1 h2 h3 hL
  have e1 : (L + 2 ^ 32 - d) % 2 ^ 32 = L - d := by omega
  obtain ⟨k, hk⟩ : ∃ k, k = min (L - d) nBytes := ⟨_, rfl⟩
  have e2 : (d + k) % 2 ^ 32 = d + k := by omega
  have e3 : (d + k + 256 * 1024) % 2 ^ 32 = d + k + 256 * 1024 := by omega
  obtain ⟨v1, hv1⟩ : ∃ v1, v1 = (if m.vRecv.length < d + k then
      resize m.vRecv (min L (d + k + 256 * 1024)) else m.vRecv) := ⟨_, rfl⟩
  have hv1len : d + k ≤ v1.length ∧ v1.length ≤ min L (d + k + 256 * 1024) := by
    rw [hv1]
    split_ifs with hlt
    · rw [resize_length]; omega
    · omega
  have hsl : (pch.take k).length ≤ k := by
    simp only [List.length_take]; omega
  have hlen : (memcpy v1 d (pch.take k)).length = v1.length :=
    memcpy_length _ _ _ (by omega)
  have hval : (readData m pch nBytes).1 =
      { m with vRecv := memcpy v1 d (pch.take k), nDataPos := d + k } := by
    simp only [readData, ← hd, ← hLe, e1, ← hk, e2, e3, ← hv1]
  rw [hval]
  refine ⟨⟨?_, ?_, ?_⟩, rfl, ?_, ?_⟩
  · simp only [hlen]; omega
  · simp only [hlen, ← hLe]; omega
  · simp only [← hLe]; omega
  · rw [← hd, ← hLe, ← hk]; omega
  · simp only [← hd, ← hLe, ← hk]

/-- C20: for a message whose header has been accepted with declared length
`L ≤ MAX_SIZE` (`MAX_SIZE < 2 ^ 31`), starting with `nDataPos = 0` and an empty
`vRecv`: after every sequence of `CNetMessage::readData` calls
`nDataPos ≤ vRecv.size() ≤ min(L, nDataPos + 256 * 1024)` and `nDataPos ≤ L`,
the declared length is unchanged, and in every call of the sequence the sum
`nDataPos + nCopy + 256 * 1024` stays below `2 ^ 32`. -/
theorem readData_buffer_bounds (P : FramerParams) (m : CNetMessage)
    (hmax : P.MAX_SIZE < 2 ^ 31) (hL : m.hdr.nMessageSize ≤ P.MAX_SIZE)
    (hpos : m.nDataPos = 0) (hrecv : m.vRecv = []) (calls : List (List Nat × Nat)) :
    DataBounds (readDataAll m calls) ∧ (readDataAll m calls).hdr = m.hdr ∧
    ∀ before c after, calls = before ++ c :: after →
      (readDataAll m before).nDataPos +
        min (m.hdr.nMessageSize - (readDataAll m before).nDataPos) c.2 + 256 * 1024 < 2 ^ 32 := by
  have hB0 : DataBounds m := by
    unfold DataBounds
    rw [hpos, hrecv]
    simp
  have hgen : ∀ (cs : List (List Nat × Nat)) (m1 : CNetMessage), DataBounds m1 →
      m1.hdr = m.hdr → DataBounds (readDataAll m1 cs) ∧ (readDataAll m1 cs).hdr = m.hdr := by
    intro cs
    induction cs with
    | nil => intro m1 hB hh; exact ⟨hB, hh⟩
    | cons c cs ih =>
      intro m1 hB hh
      have hstep := readData_bounds_step m1 c.1 c.2 (by rw [hh]; omega) hB
      unfold readDataAll
      rw [List.foldl_cons]
      exact ih _ hstep.1 (by rw [hstep.2.1, hh])
  refine ⟨(hgen calls m hB0 rfl).1, (hgen calls m hB0 rfl).2, ?_⟩
  intro before c after _
  obtain ⟨hB1, hh1⟩ := hgen before m hB0 rfl
  have hstep := readData_bounds_step (readDataAll m before) c.1 c.2 (by rw [hh1]; omega) hB1
  rw [hh1] at hstep
  exact hstep.2.2.1

theorem readData_buffer_bounds_witness :
    DataBounds (readDataAll sampleDataMessage [([9, 8], 2), ([7], 1)]) ∧
    (readDataAll sampleDataMessage [([9, 8], 2), ([7], 1)]).hdr = sampleDataMessage.hdr ∧
    ∀ before c after, [(([9, 8] : List Nat), 2), ([7], 1)] = before ++ c :: after →
      (readDataAll sampleDataMessage before).nDataPos +
        min (sampleDataMessage.hdr.nMessageSize - (readDataAll sampleDataMessage before).nDataPos)
          c.2 + 256 * 1024 < 2 ^ 32 :=
  readData_buffer_bounds sampleParams sampleDataMessage (by decide) (by decide) rfl rfl
    [([9, 8], 2), ([7], 1)]

/-! ## Theorems: the checksum field -/

/-- C14 (amended): `CNode::ReceiveMsgBytes` does not examine the checksum. For
every message whose header is well-formed and whose declared length is within the
maximum, also when its checksum field differs from the checksum of its payload
(`checksum` stands for the first 4 bytes of the double hash), feeding it in any
chunks from an empty queue is accepted: every call returns true and the message
is left complete in the receive queue, with the checksum field as received. -/
theorem ReceiveMsgBytes_ignores_checksum (P : FramerParams) (now : Int) (H p : List Nat)
    (h : CMessageHeader) (checksum : List Nat → Nat) (chunks : List (List Nat))
    (hH : H.length = 24) (hdes : P.deserializeHeader H = some h)
    (hL : h.nMessageSize ≤ P.MAX_PROTOCOL_MESSAGE_LENGTH) (hp : p.length = h.nMessageSize)
    (hlim : P.MAX_PROTOCOL_MESSAGE_LENGTH ≤ P.MAX_SIZE) (hmax : P.MAX_SIZE < 2 ^ 31)
    (hcut : chunks.flatten = H ++ p) (hbad : h.nChecksum ≠ checksum p) :
    ∃ m, feedChunks P now [] chunks = some [m] ∧ m.complete = true ∧
      m.hdr.nChecksum = h.nChecksum ∧ m.vRecv = p ∧ m.hdr.nChecksum ≠ checksum m.vRecv := by
  have V : ValidStream P (H ++ p) h :=
    ⟨by simp only [List.length_append, hH, hp], by rw [← hH, List.take_left]; exact hdes⟩
  have hlen : chunks.flatten.length = 24 + h.nMessageSize := by
    rw [hcut, List.length_append, hH, hp]
  have hpre : chunks.flatten = ((H ++ p).drop 0).take chunks.flatten.length := by
    rw [List.drop_zero, hcut, List.take_length]
  obtain ⟨q1, hq1, G1⟩ := feedChunks_feeding V now chunks 0 [] (Or.inl ⟨rfl, rfl⟩) hpre
    (fun _ => ⟨hL, hlim, hmax⟩)
  rcases G1 with ⟨h0, -⟩ | ⟨m, hq, F⟩
  · omega
  · subst hq
    rw [Nat.zero_add, hlen] at F
    have hhdr : m.hdr = h := F.hdr_eq (by omega)
    have hrecv : m.vRecv = p := by
      have h1 := F.vRecv_take
      have h2 := F.vRecv_length
      have h3 := F.nDataPos_le
      rw [show 24 + h.nMessageSize - 24 = h.nMessageSize by omega] at h1 h3
      rw [List.take_of_length_le (by omega), ← hH, List.drop_left,
        List.take_of_length_le (by omega)] at h1
      exact h1
    refine ⟨m, hq1, F.complete_iff.mpr rfl, by rw [hhdr], hrecv, ?_⟩
    rw [hhdr, hrecv]
    exact hbad

theorem ReceiveMsgBytes_ignores_checksum_witness :
    ∃ m, feedChunks sampleParams 7 [] [sampleHeaderSum 3 5 ++ [9], [8, 7]] = some [m] ∧
      m.complete = true ∧ m.hdr.nChecksum = 5 ∧ m.vRecv = [9, 8, 7] ∧
      m.hdr.nChecksum ≠ (fun _ => 6) m.vRecv :=
  ReceiveMsgBytes_ignores_checksum sampleParams 7 (sampleHeaderSum 3 5) [9, 8, 7]
    ⟨[1, 2, 3, 4], List.replicate 12 0, 3, 5⟩ (fun _ => 6) [sampleHeaderSum 3 5 ++ [9], [8, 7]]
    (by decide) (by decide) (by decide) (by decide) (by decide) (by decide) (by decide)
    (by decide)

/-- C14 (counterexample): the same payload under a header whose checksum field
is 0 and under one whose checksum field is 1 (at most one of which can be the
checksum of the payload): in both cases `ReceiveMsgBytes` returns true and
leaves a complete message in the receive queue. -/
theorem ReceiveMsgBytes_accepts_any_checksum :
    (ReceiveMsgBytes sampleParams 7 [] (sampleHeaderSum 3 0 ++ [9, 8, 7])).map
        (fun r => (r.1, r.2.map (fun m => (m.complete, m.hdr.nChecksum, m.vRecv)))) =
      some (true, [(true, 0, [9, 8, 7])]) ∧
    (ReceiveMsgBytes sampleParams 7 [] (sampleHeaderSum 3 1 ++ [9, 8, 7])).map
        (fun r => (r.1, r.2.map (fun m => (m.complete, m.hdr.nChecksum, m.vRecv)))) =
      some (true, [(true, 1, [9, 8, 7])]) := by
  constructor <;> rfl

/-! ## Theorems: accepting a connection -/

/-- C15: for a successfully accepted selectable socket whose peer address is
banned: when the connection is not whitelisted (neither by the listening socket
nor by a whitelisted range) `AcceptConnection` closes it, does not add it to the
registry, makes no eviction attempt and leaves the registry as it is; when it is
whitelisted, the outcome is the one the same call has with an empty ban store,
so the ban plays no part in it. -/
theorem AcceptConnection_banned_peer {S A : Type} (subNetMatch : S → A → Bool) (sort : SortFn)
    (inp : AcceptInput S A) (vNodes : List CNode)
    (hsock : inp.fSocketValid = true) (hselect : inp.fSelectable = true)
    (hban : IsBanned subNetMatch inp.setBanned inp.now inp.addr = true) :
    ((inp.listenWhitelisted ||
        IsWhitelistedRange subNetMatch inp.vWhitelistedRange inp.addr) = false →
      AcceptConnection subNetMatch sort inp vNodes =
        { fAccepted := false, fEvictionTried := false, vNodes := vNodes }) ∧
    ((inp.listenWhitelisted ||
        IsWhitelistedRange subNetMatch inp.vWhitelistedRange inp.addr) = true →
      AcceptConnection subNetMatch sort inp vNodes =
        AcceptConnection subNetMatch sort { inp with setBanned := [] } vNodes) := by
  constructor
  · intro hw
    unfold AcceptConnection
    simp only [hsock, hselect, hban, hw, Bool.not_true, Bool.not_false, Bool.false_eq_true,
      if_false, Bool.and_self, if_true]
  · intro hw
    unfold AcceptConnection
    simp only [hsock, hselect, hban, hw, Bool.not_true, Bool.false_eq_true, if_false,
      Bool.and_false, IsBanned, List.foldl_nil, newInboundNode]

theorem AcceptConnection_banned_peer_witness :
    (sampleAcceptInput.listenWhitelisted ||
        IsWhitelistedRange CSubNet.Match sampleAcceptInput.vWhitelistedRange
          sampleAcceptInput.addr) = false ∧
    AcceptConnection CSubNet.Match insertionSortFn sampleAcceptInput evictionSample =
      { fAccepted := false, fEvictionTried := false, vNodes := evictionSample } :=
  ⟨by decide, (AcceptConnection_banned_peer CSubNet.Match insertionSortFn sampleAcceptInput
    evictionSample rfl rfl (by decide)).1 (by decide)⟩

/-! ## Theorems: the chosen network group -/

theorem GroupScan.step_mapAddrCounts (s : GroupScan) (x : NodeEvictionCandidate) :
    (s.step x).mapAddrCounts =
      fun g => if g = x.vchNetGroup then s.mapAddrCounts g ++ [x] else s.mapAddrCounts g := by
  unfold GroupScan.step
  simp only []
  split_ifs <;> rfl

theorem headD_append_singleton (l : List NodeEvictionCandidate) (x : NodeEvictionCandidate) :
    (l ++ [x]).head? = some ((l ++ [x]).headD x) := by
  cases l <;> rfl

theorem scanInv_init : ScanInv [] GroupScan.init := by
  refine ⟨fun g => rfl, fun g => Nat.le_refl 0, fun h => absurd rfl h, fun _ => rfl, ?_⟩
  intro g first h
  simp [GroupScan.init] at h

theorem scanInv_step {l : List NodeEvictionCandidate} {s : GroupScan} (h : ScanInv l s)
    (x : NodeEvictionCandidate) : ScanInv (l ++ [x]) (s.step x) := by
  obtain ⟨ha, hb, hc, hd, he⟩ := h
  have hcounts := GroupScan.step_mapAddrCounts s x
  have hne : l ++ [x] ≠ [] := by simp
  have hhead := headD_append_singleton (s.mapAddrCounts x.vchNetGroup) x
  -- the map after the step
  have ha1 : ∀ g, (s.step x).mapAddrCounts g =
      (l ++ [x]).filter (fun c => decide (c.vchNetGroup = g)) := by
    intro g
    rw [hcounts, List.filter_append]
    by_cases hg : g = x.vchNetGroup
    · subst hg
      simp [ha]
    · have hg2 : ¬ x.vchNetGroup = g := fun e => hg e.symm
      simp [hg, hg2, ha]
  by_cases hcond : (s.mapAddrCounts x.vchNetGroup ++ [x]).length > s.nMostConnections ∨
      ((s.mapAddrCounts x.vchNetGroup ++ [x]).length = s.nMostConnections ∧
        ((s.mapAddrCounts x.vchNetGroup ++ [x]).headD x).nTimeConnected > s.nMostConnectionsTime)
  · have hval : s.step x =
        { naMostConnections := x.vchNetGroup,
          nMostConnections := (s.mapAddrCounts x.vchNetGroup ++ [x]).length,
          nMostConnectionsTime := ((s.mapAddrCounts x.vchNetGroup ++ [x]).headD x).nTimeConnected,
          mapAddrCounts := fun g =>
            if g = x.vchNetGroup then s.mapAddrCounts g ++ [x] else s.mapAddrCounts g } := by
      unfold GroupScan.step
      simp only [if_true]
      rw [if_pos hcond]
    refine ⟨ha1, ?_, ?_, fun h0 => absurd h0 hne, ?_⟩
    · intro g
      rw [hval]
      simp only []
      by_cases hg : g = x.vchNetGroup
      · rw [if_pos hg, hg]
      · rw [if_neg hg]
        have := hb g
        rcases hcond with h1 | ⟨h1, -⟩ <;> omega
    · intro _
      rw [hval]
      simp only [if_true]
      exact ⟨trivial, _, hhead, rfl⟩
    · intro g first hf hlen
      rw [hval] at hf hlen ⊢
      simp only [] at hf hlen ⊢
      by_cases hg : g = x.vchNetGroup
      · rw [if_pos hg, hg, hhead] at hf
        injection hf with hf
        rw [hf]
      · rw [if_neg hg] at hf hlen
        rcases hcond with h1 | ⟨h1, h2⟩
        · have := hb g
          omega
        · have := he g first hf (by omega)
          omega
  · have hval : s.step x = { s with mapAddrCounts := fun g =>
          if g = x.vchNetGroup then s.mapAddrCounts g ++ [x] else s.mapAddrCounts g } := by
      unfold GroupScan.step
      simp only [if_true]
      rw [if_neg hcond]
    have hsize : (s.mapAddrCounts x.vchNetGroup ++ [x]).length ≤ s.nMostConnections := by
      by_contra hlt
      exact hcond (Or.inl (by omega))
    have hl : l ≠ [] := by
      intro hl
      have := hd hl
      simp only [List.length_append, List.length_singleton] at hsize
      omega
    obtain ⟨hc1, first, hc2, hc3⟩ := hc hl
    have hnagx : s.naMostConnections ≠ x.vchNetGroup := by
      intro e
      rw [e] at hc1
      simp only [List.length_append, List.length_singleton] at hsize
      omega
    refine ⟨ha1, ?_, ?_, fun h0 => absurd h0 hne, ?_⟩
    · intro g
      rw [hval]
      simp only []
      by_cases hg : g = x.vchNetGroup
      · rw [if_pos hg, hg]; exact hsize
      · rw [if_neg hg]; exact hb g
    · intro _
      rw [hval]
      simp only [hnagx, if_false]
      exact ⟨hc1, first, hc2, hc3⟩
    · intro g first1 hf hlen
      rw [hval] at hf hlen ⊢
      simp only [] at hf hlen ⊢
      by_cases hg : g = x.vchNetGroup
      · rw [if_pos hg, hg] at hlen
        rw [if_pos hg, hg, hhead] at hf
        injection hf with hf
        rw [← hf]
        by_contra hgt
        exact hcond (Or.inr ⟨hlen, by omega⟩)
      · rw [if_neg hg] at hf hlen
        exact he g first1 hf hlen

theorem scanInv_foldl (xs : List NodeEvictionCandidate) :
    ∀ (l : List NodeEvictionCandidate) (s : GroupScan), ScanInv l s →
      ScanInv (l ++ xs) (xs.foldl GroupScan.step s) := by
  induction xs with
  | nil => intro l s h; simpa using h
  | cons x xs ih =>
    intro l s h
    have := ih (l ++ [x]) (s.step x) (scanInv_step h x)
    simpa using this

theorem scanInv_final (v3 : List NodeEvictionCandidate) :
    ScanInv v3 (v3.foldl GroupScan.step GroupScan.init) := by
  have := scanInv_foldl v3 [] GroupScan.init scanInv_init
  simpa using this

theorem groupSize_eq_length (v3 : List NodeEvictionCandidate) (g : List Nat) :
    groupSize v3 g = (v3.filter (fun c => decide (c.vchNetGroup = g))).length := by
  unfold groupSize
  exact List.countP_eq_length_filter _ _

/-- What the grouping loop has chosen at its end. -/
theorem chosenGroup_spec (v3 : List NodeEvictionCandidate) (hne : v3 ≠ []) :
    evictionNodes v3 = v3.filter (fun c => decide (c.vchNetGroup = chosenGroup v3)) ∧
    (∀ g, groupSize v3 g ≤ groupSize v3 (chosenGroup v3)) ∧
    ∃ first, (evictionNodes v3).head? = some first ∧ first ∈ v3 ∧
      first.vchNetGroup = chosenGroup v3 ∧
      ∀ g f1, (v3.filter (fun c => decide (c.vchNetGroup = g))).head? = some f1 →
        groupSize v3 g = groupSize v3 (chosenGroup v3) →
        f1.nTimeConnected ≤ first.nTimeConnected := by
  obtain ⟨ha, hb, hc, -, he⟩ := scanInv_final v3
  obtain ⟨hc1, first, hc2, hc3⟩ := hc hne
  have hev : evictionNodes v3 = v3.filter (fun c => decide (c.vchNetGroup = chosenGroup v3)) := by
    unfold evictionNodes chosenGroup
    exact ha _
  have hsize : groupSize v3 (chosenGroup v3) =
      (v3.foldl GroupScan.step GroupScan.init).nMostConnections := by
    rw [groupSize_eq_length, ← hc1]
    unfold chosenGroup
    rw [ha]
  refine ⟨hev, ?_, first, ?_, ?_, ?_, ?_⟩
  · intro g
    rw [hsize, groupSize_eq_length, ← ha]
    exact hb g
  · unfold evictionNodes
    exact hc2
  · have hmem : first ∈ (v3.foldl GroupScan.step GroupScan.init).mapAddrCounts
        (v3.foldl GroupScan.step GroupScan.init).naMostConnections :=
      List.mem_of_mem_head? hc2
    rw [ha] at hmem
    exact List.mem_of_mem_filter hmem
  · have hmem : first ∈ (v3.foldl GroupScan.step GroupScan.init).mapAddrCounts
        (v3.foldl GroupScan.step GroupScan.init).naMostConnections :=
      List.mem_of_mem_head? hc2
    rw [ha] at hmem
    have := (List.mem_filter.mp hmem).2
    simp only [decide_eq_true_eq] at this
    exact this
  · intro g f1 hf hg
    rw [← hc3]
    refine he g f1 (by rw [ha]; exact hf) ?_
    rw [ha, ← groupSize_eq_length, hg, hsize]

/-- In reverse connect-time order, the first member of a group is connected no
earlier than any member of the group. -/
theorem head_filter_latest (l : List NodeEvictionCandidate)
    (hs : l.Pairwise (fun a b => ReverseCompareNodeTimeConnected b a = false))
    (d : NodeEvictionCandidate) (hd : d ∈ l) :
    ∃ f1, (l.filter (fun c => decide (c.vchNetGroup = d.vchNetGroup))).head? = some f1 ∧
      d.nTimeConnected ≤ f1.nTimeConnected := by
  have hdf : d ∈ l.filter (fun c => decide (c.vchNetGroup = d.vchNetGroup)) :=
    List.mem_filter.mpr ⟨hd, by simp⟩
  have hsf := hs.sublist (List.filter_sublist l (p := fun c => decide (c.vchNetGroup = d.vchNetGroup)))
  cases hfl : l.filter (fun c => decide (c.vchNetGroup = d.vchNetGroup)) with
  | nil => rw [hfl] at hdf; exact absurd hdf (List.not_mem_nil d)
  | cons f1 rest =>
    rw [hfl] at hdf hsf
    refine ⟨f1, rfl, ?_⟩
    rcases List.mem_cons.mp hdf with h1 | h1
    · rw [h1]
    · have := (List.pairwise_cons.mp hsf).1 d h1
      unfold ReverseCompareNodeTimeConnected at this
      simp only [decide_eq_false_iff_not, gt_iff_lt, not_lt] at this
      exact this

theorem eraseTail_sort_pairwise (sort : SortFn) (comp : NodeEvictionCandidate → NodeEvictionCandidate → Bool)
    (hc : SortsBy sort comp) (R : NodeEvictionCandidate → NodeEvictionCandidate → Prop)
    (hsymm : ∀ a b, R a b → R b a) (v : List NodeEvictionCandidate) (k : Nat)
    (h : v.Pairwise R) : (eraseTail (sort comp v) k).Pairwise R :=
  (((hc v).1.pairwise_iff (fun {a b} hab => hsymm a b hab)).mpr h).sublist (eraseTail_sublist _ _)

/-- A symmetric relation that holds between any two candidates holds between any
two survivors, and between any two of those left after the ping step. -/
theorem survivors_pairwise (sort : SortFn) (hs : IsStdSort sort)
    (R : NodeEvictionCandidate → NodeEvictionCandidate → Prop) (hsymm : ∀ a b, R a b → R b a)
    (v v3 : List NodeEvictionCandidate) (h : survivors sort v = some v3) (hR : v.Pairwise R) :
    v3.Pairwise R ∧ (protectByPing sort (protectByNetGroup sort v)).Pairwise R := by
  obtain ⟨hv3, -⟩ := survivors_eq_some sort v v3 h
  have h1 : (protectByNetGroup sort v).Pairwise R :=
    eraseTail_sort_pairwise sort _ hs.1 R hsymm v _ hR
  have h2 : (protectByPing sort (protectByNetGroup sort v)).Pairwise R :=
    eraseTail_sort_pairwise sort _ hs.2.1 R hsymm _ _ h1
  refine ⟨?_, h2⟩
  rw [hv3]
  exact eraseTail_sort_pairwise sort _ hs.2.2 R hsymm _ _ h2

/-- C16: whenever `AttemptToEvictConnection` returns true, the connection it
flags carries the id of a survivor `c` of the three protection steps whose
coarse network group has the greatest number of members among the survivors:
no group of survivors is larger. -/
theorem AttemptToEvictConnection_flags_largest_group (sort : SortFn) (f : Bool)
    (vNodes vNodes1 : List CNode)
    (h : AttemptToEvictConnection sort f vNodes = (true, vNodes1)) :
    ∃ c v3, survivors sort (collectCandidates vNodes) = some v3 ∧ c ∈ v3 ∧
      flagById c.id vNodes = some vNodes1 ∧
      ∀ g, groupSize v3 g ≤ groupSize v3 c.vchNetGroup := by
  obtain ⟨c, hsel, hfl⟩ := AttemptToEvictConnection_eq_true sort f vNodes vNodes1 h
  obtain ⟨v3, hsv, hmem, hhead⟩ := selectEviction_eq_some sort f _ c hsel
  obtain ⟨-, hne⟩ := survivors_eq_some sort _ v3 hsv
  obtain ⟨-, hmax, first, hf1, -, hf3, -⟩ := chosenGroup_spec v3 hne
  rw [hhead] at hf1
  injection hf1 with hf1
  refine ⟨c, v3, hsv, mem_evictionNodes v3 c hmem, hfl, ?_⟩
  rw [hf1, hf3]
  exact hmax

theorem AttemptToEvictConnection_flags_largest_group_witness :
    ∃ c v3, survivors insertionSortFn (collectCandidates tieSample) = some v3 ∧ c ∈ v3 ∧
      flagById c.id tieSample =
        some (AttemptToEvictConnection insertionSortFn false tieSample).2 ∧
      ∀ g, groupSize v3 g ≤ groupSize v3 c.vchNetGroup :=
  AttemptToEvictConnection_flags_largest_group insertionSortFn false tieSample
    (AttemptToEvictConnection insertionSortFn false tieSample).2 (by decide)

/-- The first member of the chosen group against the members of the tied groups. -/
theorem youngest_member_decides_tie (sort : SortFn) (hs : IsStdSort sort)
    (cands v3 : List NodeEvictionCandidate) (hsv : survivors sort cands = some v3) :
    ∃ c ∈ v3, (evictionNodes v3).head? = some c ∧ c.vchNetGroup = chosenGroup v3 ∧
      (∀ g, groupSize v3 g ≤ groupSize v3 (chosenGroup v3)) ∧
      (∀ d ∈ v3, d.vchNetGroup = chosenGroup v3 → d.nTimeConnected ≤ c.nTimeConnected) ∧
      (∀ d ∈ v3, groupSize v3 d.vchNetGroup = groupSize v3 (chosenGroup v3) →
        d.nTimeConnected ≤ c.nTimeConnected) := by
  obtain ⟨-, hne⟩ := survivors_eq_some sort _ v3 hsv
  have hsorted := survivors_sorted sort hs _ v3 hsv
  obtain ⟨-, hmax, first, hf1, hf2, hf3, hf4⟩ := chosenGroup_spec v3 hne
  have htie : ∀ d ∈ v3, groupSize v3 d.vchNetGroup = groupSize v3 (chosenGroup v3) →
      d.nTimeConnected ≤ first.nTimeConnected := by
    intro d hd hsz
    obtain ⟨f1, hh, hle⟩ := head_filter_latest v3 hsorted d hd
    have := hf4 d.vchNetGroup f1 hh hsz
    omega
  refine ⟨first, hf2, hf1, hf3, hmax, ?_, htie⟩
  intro d hd hg
  exact htie d hd (by rw [hg])

/-- C17 (amended): among the survivors of the three protection steps, the group
the grouping loop chooses has the greatest number of members, and among the
groups tied for that number it is the one whose most recently connected member
(its first member in reverse connect-time order, the one with the greatest
`nTimeConnected`) was connected latest: the first member `c` of the chosen group
is connected no earlier than any member of any tied group. -/
theorem chosenGroup_tie_by_youngest_member (sort : SortFn) (hs : IsStdSort sort)
    (cands v3 : List NodeEvictionCandidate) (hsv : survivors sort cands = some v3) :
    ∃ c ∈ v3, (evictionNodes v3).head? = some c ∧ c.vchNetGroup = chosenGroup v3 ∧
      (∀ g, groupSize v3 g ≤ groupSize v3 (chosenGroup v3)) ∧
      (∀ d ∈ v3, d.vchNetGroup = chosenGroup v3 → d.nTimeConnected ≤ c.nTimeConnected) ∧
      (∀ d ∈ v3, groupSize v3 d.vchNetGroup = groupSize v3 (chosenGroup v3) →
        d.nTimeConnected ≤ c.nTimeConnected) :=
  youngest_member_decides_tie sort hs cands v3 hsv

theorem chosenGroup_tie_by_youngest_member_witness :
    ∃ c ∈ (collectCandidates tieSample).take 4,
      (evictionNodes ((collectCandidates tieSample).take 4)).head? = some c ∧
      c.vchNetGroup = chosenGroup ((collectCandidates tieSample).take 4) ∧
      (∀ g, groupSize ((collectCandidates tieSample).take 4) g ≤
        groupSize ((collectCandidates tieSample).take 4)
          (chosenGroup ((collectCandidates tieSample).take 4))) ∧
      (∀ d ∈ (collectCandidates tieSample).take 4,
        d.vchNetGroup = chosenGroup ((collectCandidates tieSample).take 4) →
        d.nTimeConnected ≤ c.nTimeConnected) ∧
      (∀ d ∈ (collectCandidates tieSample).take 4,
        groupSize ((collectCandidates tieSample).take 4) d.vchNetGroup =
          groupSize ((collectCandidates tieSample).take 4)
            (chosenGroup ((collectCandidates tieSample).take 4)) →
        d.nTimeConnected ≤ c.nTimeConnected) :=
  chosenGroup_tie_by_youngest_member insertionSortFn insertionSortFn_isStdSort
    (collectCandidates tieSample) ((collectCandidates tieSample).take 4) (by decide)

/-- C17 (counterexample): in the sample registry the survivors are the
connections made at times 100 and 50 in network group 7 and at times 90 and 80
in network group 8, two members each. The oldest member of group 8 (time 80) is
connected later than the oldest member of group 7 (time 50), yet the group
chosen is 7, the group of the connection made at time 100. -/
theorem chosenGroup_not_by_oldest_member :
    (survivors insertionSortFn (collectCandidates tieSample)).map
        (fun v3 => v3.map (fun c => (c.nTimeConnected, c.vchNetGroup))) =
      some [(100, [7]), (90, [8]), (80, [8]), (50, [7])] ∧
    (survivors insertionSortFn (collectCandidates tieSample)).map chosenGroup = some [7] ∧
    (survivors insertionSortFn (collectCandidates tieSample)).map
        (fun v3 => (groupSize v3 [7], groupSize v3 [8])) = some (2, 2) ∧
    (selectEviction insertionSortFn false (collectCandidates tieSample)).map
        (fun c => (c.nTimeConnected, c.vchNetGroup)) = some (100, [7]) := by
  decide

theorem ne_of_pairwise_ne {α β : Type} (key : α → β) (l : List α)
    (h : l.Pairwise (fun a b => key a ≠ key b)) (a b : α) (ha : a ∈ l) (hb : b ∈ l)
    (hab : a ≠ b) : key a ≠ key b := by
  induction l with
  | nil => exact absurd ha (List.not_mem_nil a)
  | cons x xs ih =>
    obtain ⟨hx, hxs⟩ := List.pairwise_cons.mp h
    rcases List.mem_cons.mp ha with h1 | h1 <;> rcases List.mem_cons.mp hb with h2 | h2
    · exact absurd (h1.trans h2.symm) hab
    · rw [h1]; exact hx b h2
    · rw [h2]; exact fun e => hx a h1 e.symm
    · exact ih hxs h1 h2

/-- C18: in a registry with pairwise distinct connection ids whose candidates
have pairwise distinct connect times, with the registry the same at candidate
collection and at flagging: when `AttemptToEvictConnection` returns false the
registry is unchanged; when it returns true it has set `fDisconnect` on exactly
one connection and left every other connection as it was, and that connection
is the member of the chosen group with the greatest `nTimeConnected`, the first
element of the group's vector. -/
theorem AttemptToEvictConnection_flags_youngest_of_group (sort : SortFn) (hs : IsStdSort sort)
    (f : Bool) (vNodes : List CNode) (hid : (vNodes.map CNode.id).Nodup)
    (htime : (collectCandidates vNodes).Pairwise
      (fun a b => a.nTimeConnected ≠ b.nTimeConnected)) :
    ((AttemptToEvictConnection sort f vNodes).1 = false →
      (AttemptToEvictConnection sort f vNodes).2 = vNodes) ∧
    ((AttemptToEvictConnection sort f vNodes).1 = true →
      ∃ before n after v3, vNodes = before ++ n :: after ∧
        (AttemptToEvictConnection sort f vNodes).2 =
          before ++ { n with fDisconnect := true } :: after ∧
        n.fDisconnect = false ∧
        survivors sort (collectCandidates vNodes) = some v3 ∧
        NodeEvictionCandidate.ofNode n ∈ v3 ∧
        n.netGroup = chosenGroup v3 ∧
        (evictionNodes v3).head? = some (NodeEvictionCandidate.ofNode n) ∧
        ∀ d ∈ v3, d.vchNetGroup = chosenGroup v3 → d ≠ NodeEvictionCandidate.ofNode n →
          d.nTimeConnected < n.nTimeConnected) := by
  cases hsel : selectEviction sort f (collectCandidates vNodes) with
  | none =>
    have hval : AttemptToEvictConnection sort f vNodes = (false, vNodes) := by
      simp [AttemptToEvictConnection, hsel]
    rw [hval]
    exact ⟨fun _ => rfl, fun h => Bool.noConfusion h⟩
  | some c =>
    obtain ⟨v3, hsv, hcmem, hhead⟩ := selectEviction_eq_some sort f _ c hsel
    have hc3 := mem_evictionNodes v3 c hcmem
    have hmem := (mem_survivors sort hs _ v3 hsv c hc3).2.2
    obtain ⟨n0, hn0, -, -, hdis, hof⟩ := mem_collectCandidates vNodes c hmem
    have hid0 : n0.id = c.id := by rw [← hof]; rfl
    obtain ⟨l1, hl1⟩ := flagById_isSome c.id vNodes ⟨n0, hn0, hid0⟩
    obtain ⟨before, n, after, h1, -, h3, h4⟩ := flagById_eq_some c.id vNodes l1 hl1
    have hnmem : n ∈ vNodes := by rw [h1]; simp
    have hnn : n = n0 := List.inj_on_of_nodup_map hid hnmem hn0 (by rw [h3, hid0])
    have hval : AttemptToEvictConnection sort f vNodes =
        (true, before ++ { n with fDisconnect := true } :: after) := by
      simp only [AttemptToEvictConnection, hsel, hl1, h4]
    rw [hval]
    refine ⟨fun h => Bool.noConfusion h, fun _ => ?_⟩
    have hofn : NodeEvictionCandidate.ofNode n = c := by rw [hnn]; exact hof
    obtain ⟨c1, hc1mem, hc1head, hc1g, -, hyoung, -⟩ :=
      youngest_member_decides_tie sort hs _ v3 hsv
    have hcc : c1 = c := by
      rw [hhead] at hc1head
      injection hc1head with e
      exact e.symm
    rw [hcc] at hc1g hyoung
    have hdist := (survivors_pairwise sort hs
      (fun a b => a.nTimeConnected ≠ b.nTimeConnected) (fun a b hab => Ne.symm hab)
      _ v3 hsv htime).1
    refine ⟨before, n, after, v3, h1, rfl, by rw [hnn]; exact hdis, hsv, by rw [hofn]; exact hc3,
      ?_, by rw [hofn]; exact hhead, ?_⟩
    · rw [← hc1g, ← hofn]; rfl
    · intro d hd hg hne
      rw [hofn] at hne
      have hle := hyoung d hd hg
      have hneq : d.nTimeConnected ≠ c.nTimeConnected :=
        ne_of_pairwise_ne (fun x => x.nTimeConnected) v3 hdist d c hd hc3 hne
      have htn : n.nTimeConnected = c.nTimeConnected := by rw [← hofn]; rfl
      rw [htn]
      omega

theorem AttemptToEvictConnection_flags_youngest_of_group_witness :
    ∃ before n after v3, tieSample = before ++ n :: after ∧
      (AttemptToEvictConnection insertionSortFn false tieSample).2 =
        before ++ { n with fDisconnect := true } :: after ∧
      n.fDisconnect = false ∧
      survivors insertionSortFn (collectCandidates tieSample) = some v3 ∧
      NodeEvictionCandidate.ofNode n ∈ v3 ∧
      n.netGroup = chosenGroup v3 ∧
      (evictionNodes v3).head? = some (NodeEvictionCandidate.ofNode n) ∧
      ∀ d ∈ v3, d.vchNetGroup = chosenGroup v3 → d ≠ NodeEvictionCandidate.ofNode n →
        d.nTimeConnected < n.nTimeConnected :=
  (AttemptToEvictConnection_flags_youngest_of_group insertionSortFn insertionSortFn_isStdSort
    false tieSample (by decide) (by decide)).2 (by decide)

theorem countP_split_by_time (l : List NodeEvictionCandidate) (t : Int) :
    l.countP (fun d => decide (d.nTimeConnected < t)) +
      l.countP (fun d => decide (d.nTimeConnected = t)) +
      l.countP (fun d => decide (t < d.nTimeConnected)) = l.length := by
  induction l with
  | nil => rfl
  | cons x xs ih =>
    simp only [List.countP_cons, List.length_cons, decide_eq_true_eq]
    rcases lt_trichotomy x.nTimeConnected t with h | h | h
    · have h1 : ¬ x.nTimeConnected = t := by omega
      have h2 : ¬ t < x.nTimeConnected := by omega
      rw [if_pos h, if_neg h1, if_neg h2]
      omega
    · have h1 : ¬ x.nTimeConnected < t := by omega
      have h2 : ¬ t < x.nTimeConnected := by omega
      rw [if_neg h1, if_pos h, if_neg h2]
      omega
    · have h1 : ¬ x.nTimeConnected = t := by omega
      have h2 : ¬ x.nTimeConnected < t := by omega
      rw [if_neg h2, if_neg h1, if_pos h]
      omega

/-- C19: when the connect times of the candidates are pairwise distinct and
`AttemptToEvictConnection` returns true, with `m` the number of candidates left
after the keyed-network-group and ping steps: the connection flagged carries the
id of one of them that has at least `m / 2` of them connected earlier, so it is
not one of the `m / 2` longest connected, and fewer than `m - m / 2` of them are
connected later than it. -/
theorem AttemptToEvictConnection_spares_older_half (sort : SortFn) (hs : IsStdSort sort)
    (f : Bool) (vNodes vNodes1 : List CNode)
    (htime : (collectCandidates vNodes).Pairwise
      (fun a b => a.nTimeConnected ≠ b.nTimeConnected))
    (h : AttemptToEvictConnection sort f vNodes = (true, vNodes1)) :
    ∃ c ∈ protectByPing sort (protectByNetGroup sort (collectCandidates vNodes)),
      flagById c.id vNodes = some vNodes1 ∧
      (protectByPing sort (protectByNetGroup sort (collectCandidates vNodes))).length / 2 ≤
        (protectByPing sort (protectByNetGroup sort (collectCandidates vNodes))).countP
          (fun d => decide (d.nTimeConnected < c.nTimeConnected)) ∧
      (protectByPing sort (protectByNetGroup sort (collectCandidates vNodes))).countP
          (fun d => decide (c.nTimeConnected < d.nTimeConnected)) <
        (protectByPing sort (protectByNetGroup sort (collectCandidates vNodes))).length -
          (protectByPing sort (protectByNetGroup sort (collectCandidates vNodes))).length / 2 := by
  obtain ⟨c, hsel, hfl⟩ := AttemptToEvictConnection_eq_true sort f vNodes vNodes1 h
  obtain ⟨v3, hsv, hc3⟩ := selectEviction_mem sort f _ c hsel
  obtain ⟨hc2, -, -⟩ := mem_survivors sort hs _ v3 hsv c hc3
  obtain ⟨hv3, -⟩ := survivors_eq_some sort _ v3 hsv
  obtain ⟨v2, hv2⟩ : ∃ v2, v2 = protectByPing sort (protectByNetGroup sort (collectCandidates vNodes)) :=
    ⟨_, rfl⟩
  rw [← hv2] at hc2 hv3 ⊢
  have hdist2 : v2.Pairwise (fun a b => a.nTimeConnected ≠ b.nTimeConnected) := by
    rw [hv2]
    exact (survivors_pairwise sort hs _ (fun a b hab => Ne.symm hab) _ v3 hsv htime).2
  obtain ⟨hperm, hsorted⟩ := hs.2.2 v2
  have hdist : (sort ReverseCompareNodeTimeConnected v2).Pairwise
      (fun a b => a.nTimeConnected ≠ b.nTimeConnected) :=
    (hperm.pairwise_iff (fun {a b} hab => Ne.symm hab)).mpr hdist2
  have hc3' : c ∈ eraseTail (sort ReverseCompareNodeTimeConnected v2)
      (min (v2.length / 2) (sort ReverseCompareNodeTimeConnected v2).length) := by
    rw [hperm.length_eq, Nat.min_eq_left (Nat.div_le_self _ _)]
    rw [hv3] at hc3
    exact hc3
  have hcount := countP_of_mem_eraseTail
    (fun a b => ReverseCompareNodeTimeConnected b a = false ∧
      a.nTimeConnected ≠ b.nTimeConnected)
    (fun a b => decide (b.nTimeConnected < a.nTimeConnected))
    (sort ReverseCompareNodeTimeConnected v2) (v2.length / 2)
    (hsorted.and hdist)
    (fun a b hab => by
      obtain ⟨h1, h2⟩ := hab
      unfold ReverseCompareNodeTimeConnected at h1
      simp only [decide_eq_false_iff_not, gt_iff_lt, not_lt] at h1
      simp only [decide_eq_true_eq]
      omega)
    c hc3'
  rw [hperm.countP_eq] at hcount
  have hcount1 : v2.length / 2 ≤
      v2.countP (fun d => decide (d.nTimeConnected < c.nTimeConnected)) := hcount
  have hsplit := countP_split_by_time v2 c.nTimeConnected
  have hself : 0 < v2.countP (fun d => decide (d.nTimeConnected = c.nTimeConnected)) :=
    List.countP_pos_iff.mpr ⟨c, hc2, by simp⟩
  refine ⟨c, hc2, hfl, hcount1, ?_⟩
  omega

theorem AttemptToEvictConnection_spares_older_half_witness :
    ∃ c ∈ protectByPing insertionSortFn (protectByNetGroup insertionSortFn
        (collectCandidates tieSample)),
      flagById c.id tieSample =
        some (AttemptToEvictConnection insertionSortFn false tieSample).2 ∧
      (protectByPing insertionSortFn (protectByNetGroup insertionSortFn
          (collectCandidates tieSample))).length / 2 ≤
        (protectByPing insertionSortFn (protectByNetGroup insertionSortFn
          (collectCandidates tieSample))).countP
          (fun d => decide (d.nTimeConnected < c.nTimeConnected)) ∧
      (protectByPing insertionSortFn (protectByNetGroup insertionSortFn
          (collectCandidates tieSample))).countP
          (fun d => decide (c.nTimeConnected < d.nTimeConnected)) <
        (protectByPing insertionSortFn (protectByNetGroup insertionSortFn
          (collectCandidates tieSample))).length -
          (protectByPing insertionSortFn (protectByNetGroup insertionSortFn
            (collectCandidates tieSample))).length / 2 :=
  AttemptToEvictConnection_spares_older_half insertionSortFn insertionSortFn_isStdSort false
    tieSample (AttemptToEvictConnection insertionSortFn false tieSample).2 (by decide) (by decide)

/-! ## Theorems: opportunistic dialer -/

/-- The inner loop is left within the bound, and with `addrConnect` either still
the default address or a selected address that passed every check. -/
theorem selectLoop_spec {A : Type} (E : DialEnv A) (connected : List (List Nat)) (nANow : Int)
    (select : Nat → A) :
    ∀ (fuel nTries : Nat), 101 - nTries < fuel →
      ∃ r, selectLoop E connected nANow select fuel nTries = some r ∧
        (r = E.addrDefault ∨
          (E.IsValid r = true ∧ connected.contains (E.GetGroup r) = false ∧
            E.IsLocal r = false ∧ E.IsLimited r = false)) := by
  intro fuel
  induction fuel with
  | zero => intro nTries h; omega
  | succ fuel ih =>
    intro nTries hfuel
    unfold selectLoop
    simp only []
    by_cases h1 : (!E.IsValid (select nTries) || connected.contains (E.GetGroup (select nTries)) ||
        E.IsLocal (select nTries)) = true
    · rw [if_pos h1]
      exact ⟨_, rfl, Or.inl rfl⟩
    · rw [if_neg h1]
      by_cases h2 : nTries + 1 > 100
      · rw [if_pos h2]
        exact ⟨_, rfl, Or.inl rfl⟩
      · rw [if_neg h2]
        have hrec := ih (nTries + 1) (by omega)
        by_cases h3 : E.IsLimited (select nTries) = true
        · rw [if_pos h3]; exact hrec
        · rw [if_neg h3]
          split_ifs
          · exact hrec
          · exact hrec
          · refine ⟨_, rfl, Or.inr ?_⟩
            simp only [Bool.or_eq_true, Bool.not_eq_true', not_or, Bool.not_eq_false,
              Bool.not_eq_true] at h1 h3
            exact ⟨h1.1.1, h1.1.2, h1.2, h3⟩

/-- C11: one round of the opportunistic dialer always leaves its inner loop, and
the address it passes to `OpenNetworkConnection`, if any, is valid, is not
local, is not on a limited network, and has a network group different from the
group of every outbound connection in `vNodes`. The default-constructed
`CAddress` that `addrConnect` starts as is taken to be invalid. -/
theorem dialRound_address_admissible {A : Type} (E : DialEnv A) (vNodes : List CNode)
    (nANow : Int) (select : Nat → A) (hdef : E.IsValid E.addrDefault = false) :
    ∃ r, dialRound E vNodes nANow select = some r ∧
      ∀ a, r = some a →
        E.IsValid a = true ∧ E.IsLocal a = false ∧ E.IsLimited a = false ∧
        ∀ n ∈ vNodes, n.fInbound = false → n.netGroup ≠ E.GetGroup a := by
  obtain ⟨r, hr, hspec⟩ := selectLoop_spec E (setConnected vNodes) nANow select 102 0 (by omega)
  refine ⟨if E.IsValid r then some r else none, ?_, ?_⟩
  · unfold dialRound
    rw [hr]
  · intro a ha
    by_cases hv : E.IsValid r = true
    · rw [if_pos hv] at ha
      injection ha with ha
      subst ha
      rcases hspec with h0 | ⟨h1, h2, h3, h4⟩
      · rw [h0, hdef] at hv
        exact Bool.noConfusion hv
      · refine ⟨h1, h3, h4, ?_⟩
        intro n hn hout hg
        have hmem : E.GetGroup r ∈ setConnected vNodes := by
          unfold setConnected
          rw [List.mem_map]
          exact ⟨n, List.mem_filter.mpr ⟨hn, by simp [hout]⟩, hg⟩
        have : (setConnected vNodes).contains (E.GetGroup r) = true :=
          List.contains_iff_exists_mem_beq.mpr ⟨_, hmem, beq_self_eq_true _⟩
        rw [h2] at this
        exact Bool.noConfusion this
    · rw [if_neg hv] at ha
      exact Option.noConfusion ha

theorem dialRound_address_admissible_witness :
    ∃ r, dialRound sampleDialEnv evictionSample 1000 sampleSelect = some r ∧
      ∀ a, r = some a →
        sampleDialEnv.IsValid a = true ∧ sampleDialEnv.IsLocal a = false ∧
        sampleDialEnv.IsLimited a = false ∧
        ∀ n ∈ evictionSample, n.fInbound = false → n.netGroup ≠ sampleDialEnv.GetGroup a :=
  dialRound_address_admissible sampleDialEnv evictionSample 1000 sampleSelect rfl

/-! ## Theorems: disconnect pass -/

theorem removeNode_fDisconnect (tryRecv : Int → Bool) (pnode : SockNode) :
    (removeNode tryRecv pnode).fDisconnect = true := by
  unfold removeNode CloseSocketDisconnect SockNode.Release
  simp only []
  split_ifs <;> rfl

/-- C12: in one disconnect pass of `ThreadSocketHandler` the connections deleted
are connections of the pending-deletion pool whose reference count is at most 0
at that moment. A connection of `vNodes` flagged for disconnect that still has
a reference after the registry has released its own leaves `vNodes`, is put in
`vNodesDisconnected` and is not deleted by the pass; a connection of
`vNodesDisconnected` with a positive reference count stays there and is not
deleted; no flagged connection stays in `vNodes`. -/
theorem disconnectPass_deletes_only_unreferenced (tryRecv tryLocks : Int → Bool) (st : SockState) :
    (disconnectPass tryRecv tryLocks st).deleted = st.deleted ++ deletedNow tryRecv tryLocks st ∧
    (∀ n ∈ deletedNow tryRecv tryLocks st, n.nRefCount ≤ 0) ∧
    (∀ n ∈ (disconnectPass tryRecv tryLocks st).vNodes, n.fDisconnect = false) ∧
    (∀ n ∈ st.vNodes, n.fDisconnect = true → 0 < (removeNode tryRecv n).nRefCount →
      removeNode tryRecv n ∈ (disconnectPass tryRecv tryLocks st).vNodesDisconnected ∧
      removeNode tryRecv n ∉ deletedNow tryRecv tryLocks st) ∧
    (∀ n ∈ st.vNodesDisconnected, 0 < n.nRefCount →
      n ∈ (disconnectPass tryRecv tryLocks st).vNodesDisconnected ∧
      n ∉ deletedNow tryRecv tryLocks st) := by
  have hkeep : ∀ n, 0 < n.nRefCount → canDelete tryLocks n = false := by
    intro n hn
    unfold canDelete
    have : ¬ n.nRefCount ≤ 0 := by omega
    simp [this]
  refine ⟨rfl, ?_, ?_, ?_, ?_⟩
  · intro n hn
    unfold deletedNow at hn
    have h := (List.mem_filter.mp hn).2
    unfold canDelete at h
    simp only [Bool.and_eq_true, decide_eq_true_eq] at h
    exact h.1
  · intro n hn
    unfold disconnectPass deleteDisconnected disconnectNodes at hn
    simp only [] at hn
    have h := (List.mem_filter.mp hn).2
    unfold shouldRemove at h
    simp only [Bool.not_eq_true', Bool.or_eq_false_iff] at h
    exact h.1
  · intro n hn hflag href
    have hmem : removeNode tryRecv n ∈ (disconnectNodes tryRecv st).vNodesDisconnected := by
      unfold disconnectNodes
      simp only []
      refine List.mem_append_right _ (List.mem_map.mpr ⟨n, List.mem_filter.mpr ⟨hn, ?_⟩, rfl⟩)
      unfold shouldRemove
      simp [hflag]
    constructor
    · unfold disconnectPass deleteDisconnected
      simp only []
      exact List.mem_filter.mpr ⟨hmem, by simp [hkeep _ href]⟩
    · intro hdel
      unfold deletedNow at hdel
      have h := (List.mem_filter.mp hdel).2
      rw [hkeep _ href] at h
      exact Bool.noConfusion h
  · intro n hn href
    have hmem : n ∈ (disconnectNodes tryRecv st).vNodesDisconnected := by
      unfold disconnectNodes
      simp only []
      exact List.mem_append_left _ hn
    constructor
    · unfold disconnectPass deleteDisconnected
      simp only []
      exact List.mem_filter.mpr ⟨hmem, by simp [hkeep _ href]⟩
    · intro hdel
      unfold deletedNow at hdel
      have h := (List.mem_filter.mp hdel).2
      rw [hkeep _ href] at h
      exact Bool.noConfusion h

theorem disconnectPass_deletes_only_unreferenced_witness :
    removeNode (fun _ => true) sampleSockNode ∈
        (disconnectPass (fun _ => true) (fun _ => true)
          ⟨[sampleSockNode], [], []⟩).vNodesDisconnected ∧
    removeNode (fun _ => true) sampleSockNode ∉
        deletedNow (fun _ => true) (fun _ => true) ⟨[sampleSockNode], [], []⟩ :=
  (disconnectPass_deletes_only_unreferenced (fun _ => true) (fun _ => true)
    ⟨[sampleSockNode], [], []⟩).2.2.2.1 sampleSockNode (by decide) (by decide) (by decide)

/-! ## Theorems: send queue -/

theorem sendLoop_inv (send : SendFn) (now : Int) (hwb : send.WellBehaved) :
    ∀ (it : List (List Nat)) (k : Nat) (st : SendState), SendInv it st →
      ∃ st1 it1, sendLoop send now k it st = some (st1, it1) ∧ SendInv it1 st1 ∧
        st1.queued = st.queued := by
  intro it
  induction it with
  | nil => intro k st h; exact ⟨st, [], rfl, h, rfl⟩
  | cons data rest ih =>
    intro k st h
    obtain ⟨h1, h2, -, h4, h5⟩ := h
    have hoff : st.nSendOffset < data.length := h4 data rest rfl
    have hwbk := hwb k (data.length - st.nSendOffset)
    have hsum : st.nSendSize = data.length + (rest.map List.length).sum := by
      rw [h2]; simp
    have hrest : ∀ b ∈ rest, b ≠ [] := fun b hb => h1 b (List.mem_cons_of_mem data hb)
    have hflat : (data :: rest).flatten.drop st.nSendOffset =
        data.drop st.nSendOffset ++ rest.flatten := by
      rw [List.flatten_cons, List.drop_append_of_le_length (by omega)]
    rw [hflat] at h5
    unfold sendLoop
    rw [if_pos hoff]
    simp only []
    by_cases hpos : (send k (data.length - st.nSendOffset)).nBytes > 0
    · rw [if_pos hpos]
      obtain ⟨n, hn⟩ : ∃ n, n = (send k (data.length - st.nSendOffset)).nBytes.toNat := ⟨_, rfl⟩
      have hn1 : 1 ≤ n := by omega
      have hn2 : st.nSendOffset + n ≤ data.length := by omega
      rw [← hn]
      by_cases hfull : st.nSendOffset + n = data.length
      · rw [if_pos hfull]
        have htake : (data.drop st.nSendOffset).take n = data.drop st.nSendOffset := by
          rw [List.take_of_length_le (by rw [List.length_drop]; omega)]
        obtain ⟨st1, it1, hloop, hinv, hq⟩ := ih (k + 1)
          { st with
            nLastSend := now
            nSendBytes := st.nSendBytes + n
            nSendOffset := 0
            wire := st.wire ++ (data.drop st.nSendOffset).take n
            nSendSize := st.nSendSize - data.length }
          ⟨hrest, by simp only []; omega, fun _ => rfl,
            fun b r hb => List.length_pos.mpr (hrest b (by rw [hb]; exact List.mem_cons_self b r)),
            by simp only [List.drop_zero]; rw [htake, List.append_assoc]; exact h5⟩
        exact ⟨st1, it1, hloop, hinv, hq⟩
      · rw [if_neg hfull]
        refine ⟨_, _, rfl, ⟨h1, h2, fun h0 => List.noConfusion h0, ?_, ?_⟩, rfl⟩
        · intro b r hb
          injection hb with hb1 hb2
          rw [← hb1]
          simp only []
          omega
        · simp only []
          rw [List.flatten_cons, List.drop_append_of_le_length (by omega), ← h5,
            List.append_assoc]
          congr 1
          rw [← List.append_assoc]
          congr 1
          have hdd : data.drop (st.nSendOffset + n) = (data.drop st.nSendOffset).drop n := by
            rw [List.drop_drop]
          rw [hdd, List.take_append_drop]
    · rw [if_neg hpos]
      refine ⟨_, _, rfl, ⟨h1, h2, fun h0 => List.noConfusion h0, h4, ?_⟩, rfl⟩
      simp only []
      rw [hflat]
      exact h5

theorem SocketSendData_inv (send : SendFn) (now : Int) (hwb : send.WellBehaved) (st : SendState)
    (h : SendInv st.vSendMsg st) :
    ∃ st1, SocketSendData send now st = some st1 ∧ SendInv st1.vSendMsg st1 ∧
      st1.queued = st.queued := by
  obtain ⟨st1, it1, hloop, hinv, hq⟩ := sendLoop_inv send now hwb st.vSendMsg 0 st h
  unfold SocketSendData
  rw [hloop]
  simp only []
  have hassert : (it1.isEmpty &&
      !(decide (st1.nSendOffset = 0) && decide (st1.nSendSize = 0))) = false := by
    cases it1 with
    | nil =>
      obtain ⟨-, h2, h3, -, -⟩ := hinv
      have e1 : st1.nSendOffset = 0 := h3 rfl
      have e2 : st1.nSendSize = 0 := by rw [h2]; rfl
      simp [e1, e2]
    | cons b r => rfl
  rw [hassert]
  exact ⟨_, rfl, hinv, hq⟩

theorem frameMessage_length (checksum : List Nat → Nat) (ssSend : List Nat)
    (h : HEADER_SIZE ≤ ssSend.length) : (frameMessage checksum ssSend).length = ssSend.length := by
  unfold HEADER_SIZE at h
  unfold frameMessage
  simp only []
  have h1 : (memcpy ssSend MESSAGE_SIZE_OFFSET
      (le32 ((ssSend.length + 2 ^ 32 - HEADER_SIZE) % 2 ^ 32))).length = ssSend.length :=
    memcpy_length _ _ _ (by unfold MESSAGE_SIZE_OFFSET le32; simp only [List.length_cons, List.length_nil]; omega)
  rw [memcpy_length _ _ _ (by rw [h1]; unfold CHECKSUM_OFFSET le32; simp only [List.length_cons, List.length_nil]; omega), h1]

theorem EndMessage_inv (checksum : List Nat → Nat) (send : SendFn) (now : Int) (fDrop : Bool)
    (ssSend : List Nat) (hwb : send.WellBehaved)
    (hlen : ssSend.length = 0 ∨ HEADER_SIZE ≤ ssSend.length) (st : SendState)
    (h : SendInv st.vSendMsg st) :
    ∃ st1, EndMessage checksum send now fDrop ssSend st = some st1 ∧
      SendInv st1.vSendMsg st1 := by
  unfold EndMessage
  by_cases hd : fDrop = true
  · rw [if_pos hd]; exact ⟨st, rfl, h⟩
  · rw [if_neg hd]
    by_cases h0 : ssSend.length = 0
    · rw [if_pos h0]; exact ⟨st, rfl, h⟩
    · rw [if_neg h0]
      have h24 : HEADER_SIZE ≤ ssSend.length := by
        rcases hlen with h1 | h1
        · exact absurd h1 h0
        · exact h1
      have hblk := frameMessage_length checksum ssSend h24
      have h24' : 24 ≤ ssSend.length := h24
      rw [if_neg (by unfold CHECKSUM_OFFSET; omega)]
      simp only []
      obtain ⟨h1, h2, h3, h4, h5⟩ := h
      have hoffle : st.nSendOffset ≤ st.vSendMsg.flatten.length := by
        cases hq : st.vSendMsg with
        | nil => rw [h3 hq]; exact Nat.zero_le _
        | cons b r =>
          have := h4 b r hq
          rw [List.flatten_cons, List.length_append]
          omega
      have hinv1 : SendInv (st.vSendMsg ++ [frameMessage checksum ssSend])
          { st with
            vSendMsg := st.vSendMsg ++ [frameMessage checksum ssSend]
            nSendSize := st.nSendSize + (frameMessage checksum ssSend).length
            queued := st.queued ++ [frameMessage checksum ssSend] } := by
        refine ⟨?_, ?_, ?_, ?_, ?_⟩
        · intro b hb
          rcases List.mem_append.mp hb with hb1 | hb1
          · exact h1 b hb1
          · rw [List.mem_singleton] at hb1
            rw [hb1]
            exact List.length_pos.mp (by rw [hblk]; omega)
        · simp only [List.map_append, List.sum_append, List.map_cons, List.map_nil,
            List.sum_cons, List.sum_nil, Nat.add_zero, h2]
        · intro hnil
          exact absurd hnil (by simp)
        · intro b r hb
          simp only []
          cases hq : st.vSendMsg with
          | nil =>
            rw [hq] at hb
            simp only [List.nil_append] at hb
            injection hb with hb1 _
            rw [h3 hq, ← hb1, hblk]
            omega
          | cons b0 r0 =>
            rw [hq] at hb
            simp only [List.cons_append] at hb
            injection hb with hb1 _
            rw [← hb1]
            exact h4 b0 r0 hq
        · simp only [List.flatten_append, List.flatten_cons, List.flatten_nil, List.append_nil]
          rw [List.drop_append_of_le_length hoffle, ← List.append_assoc, h5]
      by_cases hemp : st.vSendMsg.isEmpty = true
      · rw [if_pos hemp]
        obtain ⟨st1, hs, hinv, -⟩ := SocketSendData_inv send now hwb
          { st with
            vSendMsg := st.vSendMsg ++ [frameMessage checksum ssSend]
            nSendSize := st.nSendSize + (frameMessage checksum ssSend).length
            queued := st.queued ++ [frameMessage checksum ssSend] } hinv1
        exact ⟨st1, hs, hinv⟩
      · rw [if_neg hemp]
        exact ⟨_, rfl, hinv1⟩

theorem runSendOps_inv (checksum : List Nat → Nat) (now : Int) :
    ∀ (ops : List SendOp) (st : SendState), SendInv st.vSendMsg st →
      (∀ op ∈ ops, op.Admissible) →
      ∃ st1, runSendOps checksum now st ops = some st1 ∧ SendInv st1.vSendMsg st1 := by
  intro ops
  induction ops with
  | nil => intro st h _; exact ⟨st, rfl, h⟩
  | cons op ops ih =>
    intro st h hadm
    have hop := hadm op (List.mem_cons_self op ops)
    have hrest : ∀ o ∈ ops, o.Admissible := fun o ho => hadm o (List.mem_cons_of_mem op ho)
    cases op with
    | endMessage fDrop ssSend send =>
      obtain ⟨st1, hs, hinv⟩ := EndMessage_inv checksum send now fDrop ssSend hop.1 hop.2 st h
      obtain ⟨st2, hs2, hinv2⟩ := ih st1 hinv hrest
      exact ⟨st2, by simp only [runSendOps, hs]; exact hs2, hinv2⟩
    | socketSendData send =>
      obtain ⟨st1, hs, hinv, -⟩ := SocketSendData_inv send now hop st h
      obtain ⟨st2, hs2, hinv2⟩ := ih st1 hinv hrest
      exact ⟨st2, by simp only [runSendOps, hs]; exact hs2, hinv2⟩

theorem sendInv_init : SendInv SendState.init.vSendMsg SendState.init := by
  refine ⟨?_, rfl, fun _ => rfl, ?_, rfl⟩
  · intro b hb; exact absurd hb (List.not_mem_nil b)
  · intro b r hb; exact List.noConfusion hb

/-- C13: for a new connection and every interleaving of `CNode::EndMessage` and
`SocketSendData` calls, whatever each `send()` accepts (an error, nothing, or
any count up to the number of bytes requested): no assertion fails, and the
bytes accepted by the socket, followed by the bytes of the queue from
`nSendOffset` on, are exactly the framed messages in the order `EndMessage`
queued them; so the bytes handed to the socket are a prefix of that
concatenation, and a partly sent message is resumed at `nSendOffset`. -/
theorem send_order_preserved (checksum : List Nat → Nat) (now : Int) (ops : List SendOp)
    (hadm : ∀ op ∈ ops, op.Admissible) :
    ∃ st, runSendOps checksum now SendState.init ops = some st ∧
      st.wire ++ st.vSendMsg.flatten.drop st.nSendOffset = st.queued.flatten ∧
      st.wire <+: st.queued.flatten := by
  obtain ⟨st, hs, hinv⟩ := runSendOps_inv checksum now ops SendState.init sendInv_init hadm
  exact ⟨st, hs, hinv.2.2.2.2, ⟨_, hinv.2.2.2.2⟩⟩

theorem sampleSend_wellBehaved : sampleSend.WellBehaved := by
  intro k len
  unfold sampleSend
  simp only []
  omega

theorem sampleBlocked_wellBehaved : sampleBlocked.WellBehaved := by
  intro k len
  unfold sampleBlocked
  simp only []
  omega

theorem send_order_preserved_witness :
    ∃ st, runSendOps (fun _ => 5) 9 SendState.init sampleSendOps = some st ∧
      st.wire ++ st.vSendMsg.flatten.drop st.nSendOffset = st.queued.flatten ∧
      st.wire <+: st.queued.flatten :=
  send_order_preserved (fun _ => 5) 9 sampleSendOps (by
    intro op hop
    simp only [sampleSendOps, List.mem_cons, List.mem_singleton, List.not_mem_nil,
      or_false] at hop
    rcases hop with h | h | h | h
    · rw [h]; exact ⟨sampleSend_wellBehaved, Or.inr (by decide)⟩
    · rw [h]; exact sampleSend_wellBehaved
    · rw [h]; exact ⟨sampleBlocked_wellBehaved, Or.inr (by decide)⟩
    · rw [h]; exact sampleSend_wellBehaved)

/-! ## Theorems: inactivity check -/

/-- C21, as stated, fails: with `TIMEOUT_INTERVAL = 20 * 60` the receive-silence
threshold of a legacy connection (version 60000) is 5400 seconds, not shorter
than the 1200 seconds of a connection with version 60001; after 3000 seconds of
receive silence the legacy connection is kept and the other one is flagged. -/
theorem inactivityCheck_legacy_threshold_not_shorter :
    ¬ (receiveTimeout sampleTimeouts 60000 < receiveTimeout sampleTimeouts 60001) ∧
    receiveTimeout sampleTimeouts 60000 = 5400 ∧
    receiveTimeout sampleTimeouts 60001 = 1200 ∧
    (inactivityCheck sampleTimeouts 10000 0 (sampleTimedNode 60000)).fDisconnect = false ∧
    (inactivityCheck sampleTimeouts 10000 0 (sampleTimedNode 60001)).fDisconnect = true := by
  decide

/-- C21 (amended): for a connection older than 60 seconds that has both sent and
received and has not exceeded the send timeout, the inactivity check flags it
exactly when it was flagged already, its receive silence exceeds the threshold, or
a ping is outstanding for longer than the timeout; with `TIMEOUT_INTERVAL = 20 * 60`
the threshold is 90 minutes for a legacy connection (`nVersion <= BIP0031_VERSION`)
and 20 minutes otherwise, so the legacy threshold is the longer one. -/
theorem inactivityCheck_legacy_threshold_longer (T : TimeoutParams)
    (hT : T.TIMEOUT_INTERVAL = 20 * 60) (nTime nowMicros : Int) (pnode : TimedNode)
    (h60 : nTime - pnode.nTimeConnected > 60) (hr : pnode.nLastRecv ≠ 0) (hs : pnode.nLastSend ≠ 0)
    (hsend : ¬ nTime - pnode.nLastSend > T.TIMEOUT_INTERVAL) :
    ((inactivityCheck T nTime nowMicros pnode).fDisconnect = true ↔
      (pnode.fDisconnect = true ∨ nTime - pnode.nLastRecv > receiveTimeout T pnode.nVersion ∨
        (pnode.nPingNonceSent ≠ 0 ∧
          pnode.nPingUsecStart + T.TIMEOUT_INTERVAL * 1000000 < nowMicros))) ∧
    (pnode.nVersion ≤ T.BIP0031_VERSION → receiveTimeout T pnode.nVersion = 90 * 60) ∧
    (pnode.nVersion > T.BIP0031_VERSION → receiveTimeout T pnode.nVersion = 20 * 60) ∧
    ∀ legacy modern : Int, legacy ≤ T.BIP0031_VERSION → modern > T.BIP0031_VERSION →
      receiveTimeout T modern < receiveTimeout T legacy := by
  refine ⟨?_, ?_, ?_, ?_⟩
  · unfold inactivityCheck
    rw [if_pos h60, if_neg (by intro h; rcases h with h | h; exact hr h; exact hs h), if_neg hsend]
    by_cases h1 : nTime - pnode.nLastRecv > receiveTimeout T pnode.nVersion
    · rw [if_pos h1]
      exact ⟨fun _ => Or.inr (Or.inl h1), fun _ => rfl⟩
    · rw [if_neg h1]
      by_cases h2 : pnode.nPingNonceSent ≠ 0 ∧
          pnode.nPingUsecStart + T.TIMEOUT_INTERVAL * 1000000 < nowMicros
      · rw [if_pos h2]
        exact ⟨fun _ => Or.inr (Or.inr h2), fun _ => rfl⟩
      · rw [if_neg h2]
        constructor
        · intro h; exact Or.inl h
        · intro h
          rcases h with h | h | h
          · exact h
          · exact absurd h h1
          · exact absurd h h2
  · intro h
    unfold receiveTimeout
    rw [if_neg (by omega)]
  · intro h
    unfold receiveTimeout
    rw [if_pos h, hT]
  · intro legacy modern hl hm
    unfold receiveTimeout
    rw [if_pos hm, if_neg (by omega), hT]
    decide

theorem inactivityCheck_legacy_threshold_longer_witness :
    ((inactivityCheck sampleTimeouts 10000 0 (sampleTimedNode 60000)).fDisconnect = true ↔
      ((sampleTimedNode 60000).fDisconnect = true ∨
        10000 - (sampleTimedNode 60000).nLastRecv > receiveTimeout sampleTimeouts 60000 ∨
        ((sampleTimedNode 60000).nPingNonceSent ≠ 0 ∧
          (sampleTimedNode 60000).nPingUsecStart + sampleTimeouts.TIMEOUT_INTERVAL * 1000000 < 0))) ∧
    receiveTimeout sampleTimeouts 60001 < receiveTimeout sampleTimeouts 60000 :=
  have h := inactivityCheck_legacy_threshold_longer sampleTimeouts rfl 10000 0
    (sampleTimedNode 60000) (by decide) (by decide) (by decide) (by decide)
  ⟨h.1, h.2.2.2 60000 60001 (by decide) (by decide)⟩

/-! ## Theorems: one-shot dialer -/

/-- C22 (the code at the failing input): when the outbound semaphore has no free
slot, `ProcessOneShot` removes the front destination, opens no connection and
does not queue the destination again, so the queue becomes shorter; on the
queue `[7]` it leaves the empty queue. -/
theorem ProcessOneShot_drops_without_grant :
    ProcessOneShot false (fun _ : Nat => true) [7] = ([], none) ∧
    ∀ (D : Type) (OpenNetworkConnection : D → Bool) (d : D) (rest : List D),
      ProcessOneShot false OpenNetworkConnection (d :: rest) = (rest, none) ∧
      (ProcessOneShot false OpenNetworkConnection (d :: rest)).1.length < (d :: rest).length :=
  ⟨rfl, fun _ _ _ _ => ⟨rfl, Nat.lt_succ_self _⟩⟩

/-- With a slot granted, `ProcessOneShot` queues the destination again exactly
when the connection attempt fails. -/
theorem ProcessOneShot_with_grant {D : Type} (OpenNetworkConnection : D → Bool) (d : D)
    (rest : List D) :
    ProcessOneShot true OpenNetworkConnection (d :: rest) =
      if OpenNetworkConnection d then (rest, some d) else (rest ++ [d], none) := by
  cases h : OpenNetworkConnection d <;> simp [ProcessOneShot, AddOneShot, h]

/-! ## Theorems: sweeping and unbanning -/

theorem sweepLoop_fst {S : Type} (now : Int) (l : List (S × CBanEntry)) (dirty : Bool) :
    (sweepLoop now l dirty).1 = l.filter (fun e => !decide (now > e.2.nBanUntil)) := by
  induction l generalizing dirty with
  | nil => rfl
  | cons it rest ih =>
    unfold sweepLoop
    by_cases h : now > it.2.nBanUntil
    · rw [if_pos h, ih, List.filter_cons_of_neg (by simp [h])]
    · rw [if_neg h]
      simp only []
      rw [ih, List.filter_cons_of_pos (by simp [h])]

theorem sweepLoop_snd {S : Type} (now : Int) (l : List (S × CBanEntry)) (dirty : Bool) :
    (sweepLoop now l dirty).2 = (dirty || l.any (fun e => decide (now > e.2.nBanUntil))) := by
  induction l generalizing dirty with
  | nil => simp [sweepLoop]
  | cons it rest ih =>
    unfold sweepLoop
    by_cases h : now > it.2.nBanUntil
    · rw [if_pos h, ih]
      simp [h]
    · rw [if_neg h]
      simp only []
      rw [ih]
      simp [h]

theorem isBanned_filter_unexpired {S A : Type} (subNetMatch : S → A → Bool) (now t : Int)
    (ht : now ≤ t) (ip : A) (l : List (S × CBanEntry)) :
    IsBanned subNetMatch (l.filter (fun e => !decide (now > e.2.nBanUntil))) t ip =
      IsBanned subNetMatch l t ip := by
  rw [Bool.eq_iff_iff, isBanned_iff, isBanned_iff]
  constructor
  · rintro ⟨e, he, hm, hlt⟩
    exact ⟨e, (List.mem_filter.mp he).1, hm, hlt⟩
  · rintro ⟨e, he, hm, hlt⟩
    refine ⟨e, List.mem_filter.mpr ⟨he, ?_⟩, hm, hlt⟩
    simp only [Bool.not_eq_true', decide_eq_false_iff_not]
    omega

/-- C27: `CNode::SweepBanned` at time `now` keeps exactly the entries that do not
satisfy `now > nBanUntil`, in their order and unchanged, and the dirty flag
afterwards is set exactly when it was set before or an entry was removed; so
for every address and every time `t >= now`, `IsBanned` at `t` answers the same on
the swept store as on the unswept one; an entry with `nBanUntil = now` is kept and
does not ban at any such `t`. -/
theorem SweepBanned_removes_exactly_expired {S A : Type} (now : Int) (st : BanStore S)
    (subNetMatch : S → A → Bool) :
    (SweepBanned now st).setBanned = st.setBanned.filter (fun e => !decide (now > e.2.nBanUntil)) ∧
    (∀ e, e ∈ (SweepBanned now st).setBanned ↔ e ∈ st.setBanned ∧ ¬ now > e.2.nBanUntil) ∧
    ((SweepBanned now st).setBannedIsDirty = true ↔
      st.setBannedIsDirty = true ∨ ∃ e ∈ st.setBanned, now > e.2.nBanUntil) ∧
    (∀ (ip : A) (t : Int), now ≤ t →
      IsBanned subNetMatch (SweepBanned now st).setBanned t ip =
        IsBanned subNetMatch st.setBanned t ip) ∧
    (∀ e ∈ st.setBanned, e.2.nBanUntil = now →
      e ∈ (SweepBanned now st).setBanned ∧ ∀ t : Int, now ≤ t → ¬ t < e.2.nBanUntil) := by
  have h1 : (SweepBanned now st).setBanned =
      st.setBanned.filter (fun e => !decide (now > e.2.nBanUntil)) := sweepLoop_fst now _ _
  have h2 : (SweepBanned now st).setBannedIsDirty =
      (st.setBannedIsDirty || st.setBanned.any (fun e => decide (now > e.2.nBanUntil))) :=
    sweepLoop_snd now _ _
  refine ⟨h1, ?_, ?_, ?_, ?_⟩
  · intro e
    rw [h1, List.mem_filter]
    simp
  · rw [h2]
    simp
  · intro ip t ht
    rw [h1]
    exact isBanned_filter_unexpired subNetMatch now t ht ip _
  · intro e he heq
    refine ⟨?_, fun t ht => by omega⟩
    rw [h1, List.mem_filter]
    refine ⟨he, ?_⟩
    simp only [Bool.not_eq_true', decide_eq_false_iff_not]
    omega

theorem SweepBanned_removes_exactly_expired_witness :
    (SweepBanned 100 sampleSweepStore).setBanned = sampleSweepStore.setBanned.drop 1 ∧
    (SweepBanned 100 sampleSweepStore).setBannedIsDirty = true ∧
    IsBanned CSubNet.Match (SweepBanned 100 sampleSweepStore).setBanned 100 (ipv4 11 1 2 3) =
      IsBanned CSubNet.Match sampleSweepStore.setBanned 100 (ipv4 11 1 2 3) ∧
    IsBanned CSubNet.Match sampleSweepStore.setBanned 100 (ipv4 11 1 2 3) = false :=
  have h := SweepBanned_removes_exactly_expired 100 sampleSweepStore CSubNet.Match
  ⟨h.1.trans (by decide), h.2.2.1.mpr (Or.inr ⟨_, List.mem_cons_self _ _, by decide⟩),
    h.2.2.2.1 (ipv4 11 1 2 3) 100 (by decide), by decide⟩

theorem mapErase_length_lt {K V : Type} [DecidableEq K] (m : List (K × V)) (k : K)
    (h : mapFind m k ≠ none) : (mapErase m k).length < m.length := by
  induction m with
  | nil => exact absurd rfl h
  | cons p rest ih =>
    unfold mapErase
    by_cases hp : p.1 = k
    · rw [List.filter_cons_of_neg (by simp [hp])]
      exact Nat.lt_succ_of_le (List.length_filter_le _ _)
    · rw [List.filter_cons_of_pos (by simp [hp]), List.length_cons, List.length_cons]
      have h1 : mapFind rest k ≠ none := by
        unfold mapFind at h
        rw [if_neg hp] at h
        exact h
      exact Nat.succ_lt_succ (ih h1)

theorem mapErase_eq_self {K V : Type} [DecidableEq K] (m : List (K × V)) (k : K)
    (h : mapFind m k = none) : mapErase m k = m := by
  induction m with
  | nil => rfl
  | cons p rest ih =>
    unfold mapFind at h
    by_cases hp : p.1 = k
    · rw [if_pos hp] at h
      exact Option.noConfusion h
    · rw [if_neg hp] at h
      unfold mapErase
      rw [List.filter_cons_of_pos (by simp [hp])]
      congr 1
      exact ih h

theorem Unban_of_key {S : Type} [DecidableEq S] (st : BanStore S) (subNet : S)
    (h : mapFind st.setBanned subNet ≠ none) :
    Unban st subNet = (true, { setBanned := mapErase st.setBanned subNet, setBannedIsDirty := true }) := by
  have hlt := mapErase_length_lt st.setBanned subNet h
  unfold Unban
  simp only []
  rw [if_pos (by omega)]

theorem Unban_of_not_key {S : Type} [DecidableEq S] (st : BanStore S) (subNet : S)
    (h : mapFind st.setBanned subNet = none) : Unban st subNet = (false, st) := by
  unfold Unban
  simp only []
  rw [mapErase_eq_self _ _ h, if_neg (by omega)]

/-- C29: `CNode::Unban(S)` returns true exactly when `S` is a key of the store. When it
returns true, the entries under the key `S` are removed, every other entry is
kept, in order, and the dirty flag is set; when it returns false, the store and
the dirty flag are unchanged, so every address stays banned as before, whatever
wider subnet covers it. -/
theorem Unban_exact_key {S A : Type} [DecidableEq S] (st : BanStore S) (subNet : S)
    (subNetMatch : S → A → Bool) :
    ((Unban st subNet).1 = true ↔ mapFind st.setBanned subNet ≠ none) ∧
    ((Unban st subNet).1 = true →
      (Unban st subNet).2.setBanned = st.setBanned.filter (fun e => !decide (e.1 = subNet)) ∧
      mapFind (Unban st subNet).2.setBanned subNet = none ∧
      (∀ k, k ≠ subNet → mapFind (Unban st subNet).2.setBanned k = mapFind st.setBanned k) ∧
      (Unban st subNet).2.setBannedIsDirty = true) ∧
    ((Unban st subNet).1 = false →
      (Unban st subNet).2 = st ∧
      ∀ (now : Int) (ip : A), IsBanned subNetMatch (Unban st subNet).2.setBanned now ip =
        IsBanned subNetMatch st.setBanned now ip) := by
  by_cases h : mapFind st.setBanned subNet = none
  · rw [Unban_of_not_key st subNet h]
    refine ⟨⟨fun h1 => Bool.noConfusion h1, fun h1 => absurd h h1⟩,
      fun h1 => Bool.noConfusion h1, fun _ => ⟨rfl, fun _ _ => rfl⟩⟩
  · rw [Unban_of_key st subNet h]
    refine ⟨⟨fun _ => h, fun _ => rfl⟩, fun _ => ⟨rfl, ?_, ?_, rfl⟩, fun h1 => Bool.noConfusion h1⟩
    · show mapFind (mapErase st.setBanned subNet) subNet = none
      rw [mapFind_mapErase, if_pos rfl]
    · intro k hk
      show mapFind (mapErase st.setBanned subNet) k = mapFind st.setBanned k
      rw [mapFind_mapErase, if_neg hk]

/-- The instance of C29 in the claim: with 10.0.0.0/8 banned until 1000, unbanning the
address 10.1.2.3 returns false, leaves the store as it was, and the address
is still banned at time 5; unbanning 10.0.0.0/8 itself returns true and empties
the store. -/
theorem Unban_exact_key_witness :
    (UnbanAddr CSubNet.ofAddr sampleBanStore (ipv4 10 1 2 3)).1 = false ∧
    (UnbanAddr CSubNet.ofAddr sampleBanStore (ipv4 10 1 2 3)).2 = sampleBanStore ∧
    IsBanned CSubNet.Match (UnbanAddr CSubNet.ofAddr sampleBanStore (ipv4 10 1 2 3)).2.setBanned 5
      (ipv4 10 1 2 3) = true ∧
    (Unban sampleBanStore { network := ipv4 10 0 0 0, prefixLen := 8 }).1 = true :=
  have h := Unban_exact_key sampleBanStore (CSubNet.ofAddr (ipv4 10 1 2 3)) CSubNet.Match
  have hf : (Unban sampleBanStore (CSubNet.ofAddr (ipv4 10 1 2 3))).1 = false := by decide
  ⟨hf, (h.2.2 hf).1, ((h.2.2 hf).2 5 (ipv4 10 1 2 3)).trans (by decide),
    (Unban_exact_key sampleBanStore { network := ipv4 10 0 0 0, prefixLen := 8 }
      CSubNet.Match).1.mpr (by decide)⟩

/-! ## Theorems: outbound traffic target -/

theorem sub64_of_le (a b : Nat) (ha : a < 2 ^ 64) (hb : b ≤ a) : sub64 a b = a - b := by
  unfold sub64
  have h1 : b % 2 ^ 64 = b := Nat.mod_eq_of_lt (by omega)
  rw [h1]
  omega

/-- C28: for 64-bit values of the limit `L`, the bytes sent `S` and the time left
`tau` (the result of `GetMaxOutboundTimeLeftInCycle`), with `B = tau / 600 * MAX_BLOCK_SIZE`
below `2 ^ 64`: when `L = 0` the target is never reached and no bytes are left;
when `L > 0`, `OutboundTargetReached(false)` holds iff `S >= L`,
`OutboundTargetReached(true)` holds iff `S + B >= L` in exact arithmetic, and
`GetOutboundTargetBytesLeft` is `L - S` when `S < L` and 0 otherwise; the two
subtractions are exact where their guards let them run, and
`OutboundTargetReached(false)` implies `OutboundTargetReached(true)`. -/
theorem OutboundTargetReached_exact (MAX_BLOCK_SIZE : Nat) (st : OutboundState) (now now2 : Int)
    (hL : st.nMaxOutboundLimit < 2 ^ 64) (hS : st.nMaxOutboundTotalBytesSentInCycle < 2 ^ 64)
    (hB : GetMaxOutboundTimeLeftInCycle st now now2 / 600 * MAX_BLOCK_SIZE < 2 ^ 64) :
    (st.nMaxOutboundLimit = 0 →
      OutboundTargetReached MAX_BLOCK_SIZE st now now2 false = false ∧
      OutboundTargetReached MAX_BLOCK_SIZE st now now2 true = false ∧
      GetOutboundTargetBytesLeft st = 0) ∧
    (0 < st.nMaxOutboundLimit →
      (OutboundTargetReached MAX_BLOCK_SIZE st now now2 false = true ↔
        st.nMaxOutboundTotalBytesSentInCycle ≥ st.nMaxOutboundLimit) ∧
      (OutboundTargetReached MAX_BLOCK_SIZE st now now2 true = true ↔
        st.nMaxOutboundTotalBytesSentInCycle +
          GetMaxOutboundTimeLeftInCycle st now now2 / 600 * MAX_BLOCK_SIZE ≥ st.nMaxOutboundLimit) ∧
      GetOutboundTargetBytesLeft st =
        if st.nMaxOutboundTotalBytesSentInCycle < st.nMaxOutboundLimit then
          st.nMaxOutboundLimit - st.nMaxOutboundTotalBytesSentInCycle
        else 0) ∧
    (¬ GetMaxOutboundTimeLeftInCycle st now now2 / 600 * MAX_BLOCK_SIZE ≥ st.nMaxOutboundLimit →
      ((sub64 st.nMaxOutboundLimit
          (GetMaxOutboundTimeLeftInCycle st now now2 / 600 * MAX_BLOCK_SIZE) : Nat) : Int) =
        (st.nMaxOutboundLimit : Int) -
          (GetMaxOutboundTimeLeftInCycle st now now2 / 600 * MAX_BLOCK_SIZE : Nat)) ∧
    (¬ st.nMaxOutboundTotalBytesSentInCycle ≥ st.nMaxOutboundLimit →
      ((sub64 st.nMaxOutboundLimit st.nMaxOutboundTotalBytesSentInCycle : Nat) : Int) =
        (st.nMaxOutboundLimit : Int) - (st.nMaxOutboundTotalBytesSentInCycle : Nat)) ∧
    (OutboundTargetReached MAX_BLOCK_SIZE st now now2 false = true →
      OutboundTargetReached MAX_BLOCK_SIZE st now now2 true = true) := by
  obtain ⟨B, hBdef⟩ : ∃ B, B = GetMaxOutboundTimeLeftInCycle st now now2 / 600 * MAX_BLOCK_SIZE :=
    ⟨_, rfl⟩
  rw [← hBdef] at hB ⊢
  have hmod : B % 2 ^ 64 = B := Nat.mod_eq_of_lt hB
  have hfalse : OutboundTargetReached MAX_BLOCK_SIZE st now now2 false =
      (decide (st.nMaxOutboundLimit ≠ 0) &&
        decide (st.nMaxOutboundTotalBytesSentInCycle ≥ st.nMaxOutboundLimit)) := by
    unfold OutboundTargetReached
    by_cases h0 : st.nMaxOutboundLimit = 0
    · rw [if_pos h0]; simp [h0]
    · rw [if_neg h0]
      by_cases h1 : st.nMaxOutboundTotalBytesSentInCycle ≥ st.nMaxOutboundLimit
      · simp [h0, h1]
      · simp [h0, h1]
  have htrue : OutboundTargetReached MAX_BLOCK_SIZE st now now2 true =
      (decide (st.nMaxOutboundLimit ≠ 0) &&
        decide (st.nMaxOutboundTotalBytesSentInCycle + B ≥ st.nMaxOutboundLimit)) := by
    unfold OutboundTargetReached
    by_cases h0 : st.nMaxOutboundLimit = 0
    · rw [if_pos h0]; simp [h0]
    · rw [if_neg h0, if_pos rfl]
      simp only []
      rw [← hBdef, hmod]
      by_cases h1 : B ≥ st.nMaxOutboundLimit
      · rw [if_pos (Or.inl h1)]
        have : st.nMaxOutboundTotalBytesSentInCycle + B ≥ st.nMaxOutboundLimit := by omega
        simp [h0, this]
      · have hsub := sub64_of_le st.nMaxOutboundLimit B hL (by omega)
        rw [hsub]
        by_cases h2 : st.nMaxOutboundTotalBytesSentInCycle ≥ st.nMaxOutboundLimit - B
        · rw [if_pos (Or.inr h2)]
          have : st.nMaxOutboundTotalBytesSentInCycle + B ≥ st.nMaxOutboundLimit := by omega
          simp [h0, this]
        · rw [if_neg (by intro h; rcases h with h | h; exact h1 h; exact h2 h)]
          have : ¬ st.nMaxOutboundTotalBytesSentInCycle + B ≥ st.nMaxOutboundLimit := by omega
          simp [this]
  have hleft : GetOutboundTargetBytesLeft st =
      if st.nMaxOutboundTotalBytesSentInCycle < st.nMaxOutboundLimit then
        st.nMaxOutboundLimit - st.nMaxOutboundTotalBytesSentInCycle
      else 0 := by
    unfold GetOutboundTargetBytesLeft
    by_cases h0 : st.nMaxOutboundLimit = 0
    · rw [if_pos h0, if_neg (by omega)]
    · rw [if_neg h0]
      by_cases h1 : st.nMaxOutboundTotalBytesSentInCycle ≥ st.nMaxOutboundLimit
      · rw [if_pos h1, if_neg (by omega)]
      · rw [if_neg h1, if_pos (by omega), sub64_of_le _ _ hL (by omega)]
  rw [hfalse, htrue, hleft]
  refine ⟨?_, ?_, ?_, ?_, ?_⟩
  · intro h0
    simp [h0]
  · intro h0
    have : st.nMaxOutboundLimit ≠ 0 := by omega
    simp [this]
  · intro h
    rw [sub64_of_le _ _ hL (by omega)]
    omega
  · intro h
    rw [sub64_of_le _ _ hL (by omega)]
    omega
  · simp only [Bool.and_eq_true, decide_eq_true_eq]
    rintro ⟨h0, h1⟩
    exact ⟨h0, by omega⟩

theorem OutboundTargetReached_exact_witness :
    (OutboundTargetReached 1000 sampleOutbound 0 0 false = true ↔ 1200 ≥ 5000) ∧
    (OutboundTargetReached 1000 sampleOutbound 0 0 true = true ↔
      sampleOutbound.nMaxOutboundTotalBytesSentInCycle +
        GetMaxOutboundTimeLeftInCycle sampleOutbound 0 0 / 600 * 1000 ≥
        sampleOutbound.nMaxOutboundLimit) ∧
    GetOutboundTargetBytesLeft sampleOutbound = 3800 ∧
    OutboundTargetReached 1000 sampleOutbound 0 0 true = true :=
  have h := (OutboundTargetReached_exact 1000 sampleOutbound 0 0 (by decide) (by decide)
    (by decide)).2.1 (by decide)
  ⟨h.1, h.2.1, h.2.2.trans (by decide), h.2.1.mpr (by decide)⟩

/-! ## Theorems: the number of eviction candidates -/

theorem eraseTail_length {α : Type} (v : List α) (k : Nat) :
    (eraseTail v k).length = v.length - k := by
  unfold eraseTail
  rw [List.length_take]
  omega

theorem protectByNetGroup_length (sort : SortFn) (hs : IsStdSort sort)
    (v : List NodeEvictionCandidate) :
    (protectByNetGroup sort v).length = v.length - min 4 v.length := by
  unfold protectByNetGroup
  rw [eraseTail_length, (hs.1 v).1.length_eq]

theorem protectByPing_length (sort : SortFn) (hs : IsStdSort sort)
    (v : List NodeEvictionCandidate) :
    (protectByPing sort v).length = v.length - min 8 v.length := by
  unfold protectByPing
  rw [eraseTail_length, (hs.2.1 v).1.length_eq]

theorem protectByAge_length (sort : SortFn) (hs : IsStdSort sort)
    (v : List NodeEvictionCandidate) :
    (protectByAge sort v).length = v.length - v.length / 2 := by
  unfold protectByAge
  rw [eraseTail_length, (hs.2.2 v).1.length_eq]

theorem isEmpty_eq_decide_length {α : Type} (l : List α) : l.isEmpty = decide (l.length = 0) := by
  cases l <;> rfl

theorem survivors_of_count (sort : SortFn) (hs : IsStdSort sort)
    (v : List NodeEvictionCandidate) :
    (v.length ≤ 12 → survivors sort v = none) ∧
    (13 ≤ v.length → ∃ v3, survivors sort v = some v3 ∧ v3 ≠ []) := by
  have h1 := protectByNetGroup_length sort hs v
  have h2 := protectByPing_length sort hs (protectByNetGroup sort v)
  have h3 := protectByAge_length sort hs (protectByPing sort (protectByNetGroup sort v))
  unfold survivors
  simp only [isEmpty_eq_decide_length, decide_eq_true_eq]
  constructor
  · intro hn
    split_ifs with a b c d
    · rfl
    · rfl
    · rfl
    · rfl
    · exfalso; omega
  · intro hn
    rw [if_neg (by omega), if_neg (by omega), if_neg (by omega), if_neg (by omega)]
    refine ⟨_, rfl, ?_⟩
    intro hnil
    rw [hnil] at h3
    simp only [List.length_nil] at h3
    omega

/-- C25: with `n` eviction candidates (inbound, not whitelisted, not flagged) in
a registry that stays as it is during the call: when `n <= 12`,
`AttemptToEvictConnection` returns false and leaves every connection as it was, for
both values of `fPreferNewConnection`; when `n >= 13`, `AttemptToEvictConnection(true)`
returns true; and the older-half step never empties a non-empty candidate
vector, so the emptiness check after it cannot fail. -/
theorem AttemptToEvictConnection_by_candidate_count (sort : SortFn) (hs : IsStdSort sort)
    (vNodes : List CNode) :
    ((collectCandidates vNodes).length ≤ 12 →
      ∀ f : Bool, AttemptToEvictConnection sort f vNodes = (false, vNodes)) ∧
    (13 ≤ (collectCandidates vNodes).length →
      (AttemptToEvictConnection sort true vNodes).1 = true) ∧
    (∀ v2 : List NodeEvictionCandidate, v2 ≠ [] → protectByAge sort v2 ≠ []) := by
  refine ⟨?_, ?_, ?_⟩
  · intro hn f
    unfold AttemptToEvictConnection selectEviction
    rw [(survivors_of_count sort hs _).1 hn]
  · intro hn
    obtain ⟨v3, hsv, hne⟩ := (survivors_of_count sort hs _).2 hn
    obtain ⟨-, -, first, hhead, hmem, -, -⟩ := chosenGroup_spec v3 hne
    obtain ⟨-, -, hcand⟩ := mem_survivors sort hs _ v3 hsv first hmem
    obtain ⟨n, hnmem, -, -, -, hof⟩ := mem_collectCandidates vNodes first hcand
    obtain ⟨l1, hl1⟩ := flagById_isSome first.id vNodes ⟨n, hnmem, by rw [← hof]; rfl⟩
    have hsel : selectEviction sort true (collectCandidates vNodes) = some first := by
      unfold selectEviction
      rw [hsv]
      simp only []
      cases hev : evictionNodes v3 with
      | nil => rw [hev] at hhead; exact Option.noConfusion hhead
      | cons a rest =>
        rw [hev] at hhead
        simp only [List.head?_cons, Option.some.injEq] at hhead
        simp [hhead]
    unfold AttemptToEvictConnection
    rw [hsel]
    simp only []
    rw [hl1]
  · intro v2 hne hnil
    have h3 := protectByAge_length sort hs v2
    rw [hnil] at h3
    have hpos : 0 < v2.length := List.length_pos.mpr hne
    simp only [List.length_nil] at h3
    omega

theorem AttemptToEvictConnection_by_candidate_count_witness :
    (AttemptToEvictConnection insertionSortFn true evictionSample).1 = true ∧
    AttemptToEvictConnection insertionSortFn false (evictionSample.take 12) =
      (false, evictionSample.take 12) :=
  ⟨(AttemptToEvictConnection_by_candidate_count insertionSortFn insertionSortFn_isStdSort
      evictionSample).2.1 (by decide),
   (AttemptToEvictConnection_by_candidate_count insertionSortFn insertionSortFn_isStdSort
      (evictionSample.take 12)).1 (by decide) false⟩

/-! ## Theorems: the send-queue invariant -/

theorem sendLoop_queueInv (send : SendFn) (now : Int) (hwb : send.WellBehaved) :
    ∀ (it : List (List Nat)) (k : Nat) (st : SendState), SendQueueInv it st →
      ∃ st1 it1, sendLoop send now k it st = some (st1, it1) ∧ SendQueueInv it1 st1 := by
  intro it
  induction it with
  | nil => intro k st h; exact ⟨st, [], rfl, h⟩
  | cons data rest ih =>
    intro k st h
    obtain ⟨h1, h2, -, h4⟩ := h
    have hoff : st.nSendOffset < data.length := h4 data rest rfl
    have hwbk := hwb k (data.length - st.nSendOffset)
    have hsum : st.nSendSize = data.length + (rest.map List.length).sum := by
      rw [h2]; simp
    have hrest : ∀ b ∈ rest, b ≠ [] := fun b hb => h1 b (List.mem_cons_of_mem data hb)
    unfold sendLoop
    rw [if_pos hoff]
    simp only []
    by_cases hpos : (send k (data.length - st.nSendOffset)).nBytes > 0
    · rw [if_pos hpos]
      obtain ⟨n, hn⟩ : ∃ n, n = (send k (data.length - st.nSendOffset)).nBytes.toNat := ⟨_, rfl⟩
      have hn1 : 1 ≤ n := by omega
      have hn2 : st.nSendOffset + n ≤ data.length := by omega
      rw [← hn]
      by_cases hfull : st.nSendOffset + n = data.length
      · rw [if_pos hfull]
        exact ih (k + 1) _
          ⟨hrest, by simp only []; omega, fun _ => rfl,
            fun b r hb => List.length_pos.mpr (hrest b (by rw [hb]; exact List.mem_cons_self b r))⟩
      · rw [if_neg hfull]
        refine ⟨_, _, rfl, ⟨h1, h2, fun h0 => List.noConfusion h0, ?_⟩⟩
        intro b r hb
        injection hb with hb1 hb2
        rw [← hb1]
        simp only []
        omega
    · rw [if_neg hpos]
      exact ⟨_, _, rfl, ⟨h1, h2, fun h0 => List.noConfusion h0, h4⟩⟩

theorem SocketSendData_queueInv (send : SendFn) (now : Int) (hwb : send.WellBehaved)
    (st : SendState) (h : SendQueueInv st.vSendMsg st) :
    ∃ st1, SocketSendData send now st = some st1 ∧ SendQueueInv st1.vSendMsg st1 := by
  obtain ⟨st1, it1, hloop, hinv⟩ := sendLoop_queueInv send now hwb st.vSendMsg 0 st h
  unfold SocketSendData
  rw [hloop]
  simp only []
  have hassert : (it1.isEmpty &&
      !(decide (st1.nSendOffset = 0) && decide (st1.nSendSize = 0))) = false := by
    cases it1 with
    | nil =>
      obtain ⟨-, h2, h3, -⟩ := hinv
      have e1 : st1.nSendOffset = 0 := h3 rfl
      have e2 : st1.nSendSize = 0 := by rw [h2]; rfl
      simp [e1, e2]
    | cons b r => rfl
  rw [hassert]
  exact ⟨_, rfl, hinv⟩

theorem EndMessage_queueInv (checksum : List Nat → Nat) (send : SendFn) (now : Int) (fDrop : Bool)
    (ssSend : List Nat) (hwb : send.WellBehaved)
    (hlen : ssSend.length = 0 ∨ HEADER_SIZE ≤ ssSend.length) (st : SendState)
    (h : SendQueueInv st.vSendMsg st) :
    ∃ st1, EndMessage checksum send now fDrop ssSend st = some st1 ∧
      SendQueueInv st1.vSendMsg st1 := by
  unfold EndMessage
  by_cases hd : fDrop = true
  · rw [if_pos hd]; exact ⟨st, rfl, h⟩
  · rw [if_neg hd]
    by_cases h0 : ssSend.length = 0
    · rw [if_pos h0]; exact ⟨st, rfl, h⟩
    · rw [if_neg h0]
      have h24 : HEADER_SIZE ≤ ssSend.length := by
        rcases hlen with h1 | h1
        · exact absurd h1 h0
        · exact h1
      have hblk := frameMessage_length checksum ssSend h24
      have h24' : 24 ≤ ssSend.length := h24
      rw [if_neg (by unfold CHECKSUM_OFFSET; omega)]
      simp only []
      obtain ⟨h1, h2, h3, h4⟩ := h
      have hinv1 : SendQueueInv (st.vSendMsg ++ [frameMessage checksum ssSend])
          { st with
            vSendMsg := st.vSendMsg ++ [frameMessage checksum ssSend]
            nSendSize := st.nSendSize + (frameMessage checksum ssSend).length
            queued := st.queued ++ [frameMessage checksum ssSend] } := by
        refine ⟨?_, ?_, ?_, ?_⟩
        · intro b hb
          rcases List.mem_append.mp hb with hb1 | hb1
          · exact h1 b hb1
          · rw [List.mem_singleton] at hb1
            rw [hb1]
            exact List.length_pos.mp (by rw [hblk]; omega)
        · simp only [List.map_append, List.sum_append, List.map_cons, List.map_nil,
            List.sum_cons, List.sum_nil, Nat.add_zero, h2]
        · intro hnil
          exact absurd hnil (by simp)
        · intro b r hb
          simp only []
          cases hq : st.vSendMsg with
          | nil =>
            rw [hq] at hb
            simp only [List.nil_append] at hb
            injection hb with hb1 _
            rw [h3 hq, ← hb1, hblk]
            omega
          | cons b0 r0 =>
            rw [hq] at hb
            simp only [List.cons_append] at hb
            injection hb with hb1 _
            rw [← hb1]
            exact h4 b0 r0 hq
      by_cases hemp : st.vSendMsg.isEmpty = true
      · rw [if_pos hemp]
        exact SocketSendData_queueInv send now hwb _ hinv1
      · rw [if_neg hemp]
        exact ⟨_, rfl, hinv1⟩

/-- C26: for every send state in which every queued block is non-empty,
`nSendSize` is the total size of the queued blocks and `nSendOffset` is 0 on an
empty queue and inside the front block otherwise, and for every socket whose
`send()` reports an error, zero, or a count up to the number of bytes requested:
`SocketSendData` passes its three assertions and leaves a state with the same
property, and so does `CNode::EndMessage` for a stream that is empty or holds at
least a whole header. -/
theorem send_queue_invariant_preserved (send : SendFn) (now : Int) (st : SendState)
    (hwb : send.WellBehaved) (h : SendQueueInv st.vSendMsg st) :
    (∃ st1, SocketSendData send now st = some st1 ∧ SendQueueInv st1.vSendMsg st1) ∧
    ∀ (checksum : List Nat → Nat) (fDrop : Bool) (ssSend : List Nat),
      ssSend.length = 0 ∨ HEADER_SIZE ≤ ssSend.length →
      ∃ st2, EndMessage checksum send now fDrop ssSend st = some st2 ∧
        SendQueueInv st2.vSendMsg st2 :=
  ⟨SocketSendData_queueInv send now hwb st h,
    fun checksum fDrop ssSend hlen => EndMessage_queueInv checksum send now fDrop ssSend hwb hlen st h⟩

theorem sampleSendState_queueInv : SendQueueInv sampleSendState.vSendMsg sampleSendState := by
  refine ⟨?_, rfl, ?_, ?_⟩
  · intro b hb
    simp only [sampleSendState, List.mem_cons, List.mem_singleton, List.not_mem_nil, or_false] at hb
    rcases hb with hb | hb <;> rw [hb] <;> exact List.cons_ne_nil _ _
  · intro h0; exact List.noConfusion h0
  · intro b r hb
    injection hb with hb1 _
    rw [← hb1]
    decide

theorem send_queue_invariant_preserved_witness :
    (∃ st1, SocketSendData sampleSend 9 sampleSendState = some st1 ∧
      SendQueueInv st1.vSendMsg st1) ∧
    ∃ st2, EndMessage (fun _ => 5) sampleSend 9 false (sampleHeader 2 ++ [7, 8]) sampleSendState =
      some st2 ∧ SendQueueInv st2.vSendMsg st2 :=
  have h := send_queue_invariant_preserved sampleSend 9 sampleSendState sampleSend_wellBehaved
    sampleSendState_queueInv
  ⟨h.1, h.2 (fun _ => 5) false (sampleHeader 2 ++ [7, 8]) (Or.inr (by decide))⟩

/-! ## Theorems: reachable framer states -/

theorem msgInv_fresh (P : FramerParams) : MsgInv P (CNetMessage.fresh P.MessageStart) :=
  ⟨by simp [CNetMessage.fresh], fun _ => ⟨by simp [CNetMessage.fresh], rfl, rfl⟩,
    fun h => Bool.noConfusion h⟩

theorem currentMessage_cases (P : FramerParams) (q : List CNetMessage) :
    (q = [] ∧ currentMessage P q = ([], CNetMessage.fresh P.MessageStart)) ∨
    (∃ L b, q = L ++ [b] ∧ b.complete = true ∧
      currentMessage P q = (q, CNetMessage.fresh P.MessageStart)) ∨
    (∃ L b, q = L ++ [b] ∧ b.complete = false ∧ currentMessage P q = (L, b)) := by
  rcases List.eq_nil_or_concat q with h | ⟨L, b, h⟩
  · left
    rw [h]
    exact ⟨rfl, rfl⟩
  · right
    rw [List.concat_eq_append] at h
    have hl : q.getLast? = some b := by rw [h]; exact List.getLast?_concat L
    unfold currentMessage
    rw [hl]
    simp only []
    cases hc : b.complete with
    | true =>
      left
      exact ⟨L, b, h, hc, by simp⟩
    | false =>
      right
      refine ⟨L, b, h, hc, ?_⟩
      rw [h, List.dropLast_concat]
      simp

theorem currentMessage_inv (P : FramerParams) (q : List CNetMessage) (hq : FramerInv P q) :
    MsgInv P (currentMessage P q).2 ∧ (currentMessage P q).2.complete = false ∧
    ∀ m ∈ (currentMessage P q).1, MsgInv P m ∧ m.complete = true := by
  obtain ⟨h1, h2⟩ := hq
  rcases currentMessage_cases P q with ⟨-, hc⟩ | ⟨L, b, hq, hb, hc⟩ | ⟨L, b, hq, hb, hc⟩
  · rw [hc]
    exact ⟨msgInv_fresh P, rfl, fun m hm => absurd hm (List.not_mem_nil m)⟩
  · rw [hc]
    refine ⟨msgInv_fresh P, rfl, fun m hm => ⟨h1 m hm, ?_⟩⟩
    rw [hq] at hm h2
    rw [List.dropLast_concat] at h2
    rcases List.mem_append.mp hm with hm1 | hm1
    · exact h2 m hm1
    · rw [List.mem_singleton] at hm1
      rw [hm1]; exact hb
  · rw [hc]
    rw [hq] at h1 h2
    rw [List.dropLast_concat] at h2
    exact ⟨h1 b (by simp), hb, fun m hm => ⟨h1 m (by simp [hm]), h2 m hm⟩⟩

theorem framerInv_concat (P : FramerParams) (front : List CNetMessage) (m1 : CNetMessage)
    (hf : ∀ m ∈ front, MsgInv P m ∧ m.complete = true) (hm : MsgInv P m1) :
    FramerInv P (front ++ [m1]) := by
  constructor
  · intro m hmem
    rcases List.mem_append.mp hmem with h | h
    · exact (hf m h).1
    · rw [List.mem_singleton] at h
      rw [h]; exact hm
  · rw [List.dropLast_concat]
    exact fun m h => (hf m h).2

/-- The header step in exact arithmetic. -/
theorem readHeader_eq (P : FramerParams) (m : CNetMessage) (pch : List Nat) (nBytes : Nat)
    (hpos : m.nHdrPos < 24) :
    readHeader P m pch nBytes =
      (let k := min (24 - m.nHdrPos) nBytes
       let hdrbuf := memcpy m.hdrbuf m.nHdrPos (pch.take k)
       if m.nHdrPos + k < 24 then
         ({ m with hdrbuf := hdrbuf, nHdrPos := m.nHdrPos + k }, (k : Int))
       else
         match P.deserializeHeader hdrbuf with
         | none => ({ m with hdrbuf := hdrbuf, nHdrPos := m.nHdrPos + k }, -1)
         | some h =>
           if h.nMessageSize > P.MAX_SIZE then
             ({ m with hdrbuf := hdrbuf, nHdrPos := m.nHdrPos + k, hdr := h }, -1)
           else
             ({ m with hdrbuf := hdrbuf, nHdrPos := m.nHdrPos + k, hdr := h, in_data := true },
               (k : Int))) := by
  have e1 : (24 + 2 ^ 32 - m.nHdrPos) % 2 ^ 32 = 24 - m.nHdrPos := by omega
  have hk : min (24 - m.nHdrPos) nBytes ≤ 24 := by omega
  have e2 : (m.nHdrPos + min (24 - m.nHdrPos) nBytes) % 2 ^ 32 =
      m.nHdrPos + min (24 - m.nHdrPos) nBytes := by omega
  have e3 : toInt32 (min (24 - m.nHdrPos) nBytes) = ((min (24 - m.nHdrPos) nBytes : Nat) : Int) :=
    toInt32_of_lt _ (by omega)
  unfold readHeader
  simp only [e1, e2, e3]

/-- The payload step in exact arithmetic. -/
theorem readData_eq (m : CNetMessage) (pch : List Nat) (nBytes : Nat)
    (hsize : m.hdr.nMessageSize < 2 ^ 31) (hd : m.nDataPos ≤ m.hdr.nMessageSize) :
    readData m pch nBytes =
      (let k := min (m.hdr.nMessageSize - m.nDataPos) nBytes
       let vRecv1 :=
         if m.vRecv.length < m.nDataPos + k then
           resize m.vRecv (min m.hdr.nMessageSize (m.nDataPos + k + 256 * 1024))
         else m.vRecv
       ({ m with vRecv := memcpy vRecv1 m.nDataPos (pch.take k), nDataPos := m.nDataPos + k },
         (k : Int))) := by
  have e1 : (m.hdr.nMessageSize + 2 ^ 32 - m.nDataPos) % 2 ^ 32 =
      m.hdr.nMessageSize - m.nDataPos := by omega
  have hk : min (m.hdr.nMessageSize - m.nDataPos) nBytes ≤ m.hdr.nMessageSize - m.nDataPos :=
    Nat.min_le_left _ _
  have e2 : (m.nDataPos + min (m.hdr.nMessageSize - m.nDataPos) nBytes) % 2 ^ 32 =
      m.nDataPos + min (m.hdr.nMessageSize - m.nDataPos) nBytes := by omega
  have e3 : (m.nDataPos + min (m.hdr.nMessageSize - m.nDataPos) nBytes + 256 * 1024) % 2 ^ 32 =
      m.nDataPos + min (m.hdr.nMessageSize - m.nDataPos) nBytes + 256 * 1024 := by omega
  have e4 : toInt32 (min (m.hdr.nMessageSize - m.nDataPos) nBytes) =
      ((min (m.hdr.nMessageSize - m.nDataPos) nBytes : Nat) : Int) :=
    toInt32_of_lt _ (by omega)
  unfold readData
  simp only [e1, e2, e3, e4]

theorem msgStep_spec (P : FramerParams) (hP : P.MAX_PROTOCOL_MESSAGE_LENGTH < 2 ^ 31)
    (msg : CNetMessage) (hm : MsgInv P msg) (hc : msg.complete = false) (pch : List Nat) (n : Nat)
    (h0 : 0 < n) (hle : n ≤ pch.length) :
    1 ≤ min (bytesWanted msg.view) n ∧
    (viewStep P msg.view (pch.take (min (bytesWanted msg.view) n)) = none →
      ∃ m1 handled,
        (if !msg.in_data then readHeader P msg pch n else readData msg pch n) = (m1, handled) ∧
        (handled < 0 ∨
          (m1.in_data = true ∧ m1.hdr.nMessageSize > P.MAX_PROTOCOL_MESSAGE_LENGTH))) ∧
    (∀ v1, viewStep P msg.view (pch.take (min (bytesWanted msg.view) n)) = some v1 →
      ∃ m1, (if !msg.in_data then readHeader P msg pch n else readData msg pch n) =
          (m1, ((min (bytesWanted msg.view) n : Nat) : Int)) ∧
        m1.view = v1 ∧ MsgInv P m1) := by
  cases hd : msg.in_data with
  | false =>
    obtain ⟨hpos, hdp, hvr⟩ := hm.header_mode hd
    have hw : bytesWanted msg.view = 24 - msg.nHdrPos := by
      unfold bytesWanted CNetMessage.view
      simp only [hd, Bool.false_eq_true, if_false]
    rw [hw]
    obtain ⟨k, hk⟩ : ∃ k, k = min (24 - msg.nHdrPos) n := ⟨_, rfl⟩
    have hlen : (pch.take k).length = k := by rw [List.length_take]; omega
    have hrd := readHeader_eq P msg pch n hpos
    simp only [] at hrd
    rw [← hk] at hrd ⊢
    have hvs : viewStep P msg.view (pch.take k) =
        if msg.nHdrPos + k < 24 then
          some { msg.view with hdrbuf := memcpy msg.hdrbuf msg.nHdrPos (pch.take k),
                               nHdrPos := msg.nHdrPos + k }
        else
          match P.deserializeHeader (memcpy msg.hdrbuf msg.nHdrPos (pch.take k)) with
          | none => none
          | some h =>
            if h.nMessageSize > P.MAX_SIZE ∨ h.nMessageSize > P.MAX_PROTOCOL_MESSAGE_LENGTH then none
            else some { msg.view with hdrbuf := memcpy msg.hdrbuf msg.nHdrPos (pch.take k),
                                      nHdrPos := msg.nHdrPos + k, hdr := h, in_data := true } := by
      unfold viewStep
      have e : msg.view.in_data = false := hd
      rw [if_neg (by rw [e]; exact Bool.false_ne_true)]
      simp only [hlen]
      rfl
    have hbuf : (memcpy msg.hdrbuf msg.nHdrPos (pch.take k)).length = 24 := by
      rw [memcpy_length _ _ _ (by rw [hlen, hm.hdrbuf_length]; omega), hm.hdrbuf_length]
    simp only [Bool.not_false, if_true]
    rw [hvs, hrd]
    refine ⟨by omega, ?_, ?_⟩
    · intro hnone
      by_cases h24 : msg.nHdrPos + k < 24
      · rw [if_pos h24] at hnone
        exact Option.noConfusion hnone
      · rw [if_neg h24] at hnone ⊢
        cases hdes : P.deserializeHeader (memcpy msg.hdrbuf msg.nHdrPos (pch.take k)) with
        | none => exact ⟨_, _, rfl, Or.inl (by decide)⟩
        | some h =>
          rw [hdes] at hnone
          simp only [] at hnone ⊢
          by_cases hmax : h.nMessageSize > P.MAX_SIZE
          · rw [if_pos hmax]
            exact ⟨_, _, rfl, Or.inl (by decide)⟩
          · rw [if_neg hmax]
            by_cases hmaxp : h.nMessageSize > P.MAX_PROTOCOL_MESSAGE_LENGTH
            · exact ⟨_, _, rfl, Or.inr ⟨rfl, hmaxp⟩⟩
            · rw [if_neg (by intro hh; rcases hh with hh | hh; exact hmax hh; exact hmaxp hh)]
                at hnone
              exact Option.noConfusion hnone
    · intro v1 hsome
      by_cases h24 : msg.nHdrPos + k < 24
      · rw [if_pos h24] at hsome ⊢
        injection hsome with hsome
        refine ⟨_, rfl, ?_, ⟨hbuf, fun _ => ⟨h24, hdp, hvr⟩, ?_⟩⟩
        · rw [← hsome]; rfl
        · intro hin
          rw [hd] at hin
          exact Bool.noConfusion hin
      · rw [if_neg h24] at hsome ⊢
        cases hdes : P.deserializeHeader (memcpy msg.hdrbuf msg.nHdrPos (pch.take k)) with
        | none => rw [hdes] at hsome; exact Option.noConfusion hsome
        | some h =>
          rw [hdes] at hsome
          simp only [] at hsome ⊢
          by_cases hbad : h.nMessageSize > P.MAX_SIZE ∨
              h.nMessageSize > P.MAX_PROTOCOL_MESSAGE_LENGTH
          · rw [if_pos hbad] at hsome
            exact Option.noConfusion hsome
          · rw [if_neg hbad] at hsome
            rw [if_neg (fun hh => hbad (Or.inl hh))]
            injection hsome with hsome
            refine ⟨_, rfl, ?_, ⟨hbuf, ?_, ?_⟩⟩
            · rw [← hsome]; rfl
            · intro hin
              exact Bool.noConfusion hin
            · intro _
              refine ⟨?_, ?_, ?_⟩
              · show h.nMessageSize ≤ P.MAX_PROTOCOL_MESSAGE_LENGTH
                exact Nat.le_of_not_gt (fun hh => hbad (Or.inr hh))
              · show msg.nDataPos ≤ msg.vRecv.length
                rw [hdp]; exact Nat.zero_le _
              · show msg.vRecv.length ≤ h.nMessageSize
                rw [hvr]; exact Nat.zero_le _
  | true =>
    obtain ⟨hsz, hdl, hvl⟩ := hm.data_mode hd
    have hlt : msg.nDataPos < msg.hdr.nMessageSize := by
      unfold CNetMessage.complete at hc
      rw [hd] at hc
      simp only [Bool.true_and, decide_eq_false_iff_not] at hc
      omega
    have hw : bytesWanted msg.view = msg.hdr.nMessageSize - msg.nDataPos := by
      unfold bytesWanted CNetMessage.view
      simp only [hd, if_true]
    rw [hw]
    obtain ⟨k, hk⟩ : ∃ k, k = min (msg.hdr.nMessageSize - msg.nDataPos) n := ⟨_, rfl⟩
    have hlen : (pch.take k).length = k := by rw [List.length_take]; omega
    have hrd := readData_eq msg pch n (by omega) (by omega)
    simp only [] at hrd
    rw [← hk] at hrd ⊢
    have hvs : viewStep P msg.view (pch.take k) =
        some { msg.view with payload := msg.vRecv.take msg.nDataPos ++ pch.take k,
                             nDataPos := msg.nDataPos + k } := by
      unfold viewStep
      have e : msg.view.in_data = true := hd
      rw [if_pos e, hlen]
      rfl
    simp only [Bool.not_true, Bool.false_eq_true, if_false]
    rw [hvs, hrd]
    refine ⟨by omega, fun hnone => Option.noConfusion hnone, ?_⟩
    intro v1 hsome
    injection hsome with hsome
    obtain ⟨v1r, hv1r⟩ : ∃ v, v = (if msg.vRecv.length < msg.nDataPos + k then
        resize msg.vRecv (min msg.hdr.nMessageSize (msg.nDataPos + k + 256 * 1024))
      else msg.vRecv) := ⟨_, rfl⟩
    rw [← hv1r]
    have hv1len : msg.nDataPos + k ≤ v1r.length ∧ v1r.length ≤ msg.hdr.nMessageSize := by
      rw [hv1r]
      split_ifs with hif
      · rw [resize_length]; omega
      · omega
    have hv1take : v1r.take msg.nDataPos = msg.vRecv.take msg.nDataPos := by
      rw [hv1r]
      split_ifs with hif
      · exact resize_take _ _ _ hdl (by omega)
      · rfl
    have hmlen : (memcpy v1r msg.nDataPos (pch.take k)).length = v1r.length :=
      memcpy_length _ _ _ (by rw [hlen]; omega)
    have hmtake : (memcpy v1r msg.nDataPos (pch.take k)).take (msg.nDataPos + k) =
        msg.vRecv.take msg.nDataPos ++ pch.take k := by
      unfold memcpy
      have hl : (v1r.take msg.nDataPos ++ pch.take k).length = msg.nDataPos + k := by
        rw [List.length_append, List.length_take, hlen]
        omega
      rw [List.take_append_of_le_length (by omega), List.take_of_length_le (by omega), hv1take]
    refine ⟨_, rfl, ?_, ⟨hm.hdrbuf_length, ?_, ?_⟩⟩
    · rw [← hsome]
      unfold CNetMessage.view
      simp only [hmtake]
    · intro hin
      rw [hd] at hin
      exact Bool.noConfusion hin
    · intro _
      refine ⟨hsz, ?_, ?_⟩
      · show msg.nDataPos + k ≤ (memcpy v1r msg.nDataPos (pch.take k)).length
        omega
      · show (memcpy v1r msg.nDataPos (pch.take k)).length ≤ msg.hdr.nMessageSize
        omega

theorem receiveIteration_spec (P : FramerParams) (hP : P.MAX_PROTOCOL_MESSAGE_LENGTH < 2 ^ 31)
    (now : Int) (q : List CNetMessage) (hq : FramerInv P q) (pch : List Nat) (n : Nat)
    (h0 : 0 < n) (hle : n ≤ pch.length) (h32 : n < 2 ^ 32) :
    1 ≤ min (bytesWanted (currentMessage P q).2.view) n ∧
    (viewStep P (currentMessage P q).2.view
        (pch.take (min (bytesWanted (currentMessage P q).2.view) n)) = none →
      ∃ qe, receiveIteration P now q pch n = Except.error qe) ∧
    (∀ v1, viewStep P (currentMessage P q).2.view
        (pch.take (min (bytesWanted (currentMessage P q).2.view) n)) = some v1 →
      ∃ m1, receiveIteration P now q pch n =
          Except.ok ((currentMessage P q).1 ++ [m1],
            pch.drop (min (bytesWanted (currentMessage P q).2.view) n),
            n - min (bytesWanted (currentMessage P q).2.view) n) ∧
        m1.view = v1 ∧ MsgInv P m1) := by
  obtain ⟨hm, hc, -⟩ := currentMessage_inv P q hq
  cases hcm : currentMessage P q with
  | mk front msg =>
    rw [hcm] at hm hc
    simp only [] at hm hc ⊢
    obtain ⟨hk1, hnone, hsome⟩ := msgStep_spec P hP msg hm hc pch n h0 hle
    obtain ⟨k, hk⟩ : ∃ k, k = min (bytesWanted msg.view) n := ⟨_, rfl⟩
    rw [← hk] at hk1 hnone hsome ⊢
    refine ⟨hk1, ?_, ?_⟩
    · intro hv
      obtain ⟨m1, handled, hstep, hbad⟩ := hnone hv
      unfold receiveIteration
      rw [hcm]
      simp only []
      rw [hstep]
      simp only []
      rcases hbad with hneg | ⟨hin, hsz⟩
      · rw [if_pos hneg]
        exact ⟨_, rfl⟩
      · by_cases hneg : handled < 0
        · rw [if_pos hneg]
          exact ⟨_, rfl⟩
        · rw [if_neg hneg, if_pos (by simp [hin, hsz])]
          exact ⟨_, rfl⟩
    · intro v1 hv
      obtain ⟨m1, hstep, hview, hinv⟩ := hsome v1 hv
      have hneg : ¬ ((k : Int) < 0) := by omega
      have hsub : ((((n : Nat) : Int) - (k : Int)) % 2 ^ 32).toNat = n - k := by omega
      have hover : (m1.in_data &&
          decide (m1.hdr.nMessageSize > P.MAX_PROTOCOL_MESSAGE_LENGTH)) = false := by
        cases hin : m1.in_data with
        | false => rfl
        | true =>
          have := (hinv.data_mode hin).1
          simp only [Bool.true_and, decide_eq_false_iff_not]
          omega
      refine ⟨if m1.complete then { m1 with nTime := now } else m1, ?_, ?_, ?_⟩
      · simp only [receiveIteration, hcm, hstep, hneg, if_false, hover, Bool.false_eq_true,
          Int.toNat_ofNat, hsub]
      · rw [← hview]
        split_ifs <;> rfl
      · split_ifs
        · exact ⟨hinv.hdrbuf_length, hinv.header_mode, hinv.data_mode⟩
        · exact hinv

/-- One iteration keeps the queue invariant, consumes between 1 and `nBytes`
bytes, and leaves exactly the remaining count. -/
theorem receiveIteration_progress (P : FramerParams) (hP : P.MAX_PROTOCOL_MESSAGE_LENGTH < 2 ^ 31)
    (now : Int) (q : List CNetMessage) (hq : FramerInv P q) (pch : List Nat) (n : Nat)
    (h0 : 0 < n) (hle : n ≤ pch.length) (h32 : n < 2 ^ 32) :
    (∃ qe, receiveIteration P now q pch n = Except.error qe) ∨
    ∃ q1 handled, 1 ≤ handled ∧ handled ≤ n ∧
      receiveIteration P now q pch n = Except.ok (q1, pch.drop handled, n - handled) ∧
      FramerInv P q1 := by
  obtain ⟨hk1, hnone, hsome⟩ := receiveIteration_spec P hP now q hq pch n h0 hle h32
  obtain ⟨-, -, hf⟩ := currentMessage_inv P q hq
  cases hv : viewStep P (currentMessage P q).2.view
      (pch.take (min (bytesWanted (currentMessage P q).2.view) n)) with
  | none => exact Or.inl (hnone hv)
  | some v1 =>
    obtain ⟨m1, hit, -, hinv⟩ := hsome v1 hv
    exact Or.inr ⟨_, _, hk1, Nat.min_le_right _ _, hit, framerInv_concat P _ m1 hf hinv⟩

theorem receiveLoop_total (P : FramerParams) (hP : P.MAX_PROTOCOL_MESSAGE_LENGTH < 2 ^ 31)
    (now : Int) :
    ∀ (n : Nat) (fuel : Nat) (q : List CNetMessage) (pch : List Nat), n < fuel → FramerInv P q →
      n ≤ pch.length → n < 2 ^ 32 →
      ∃ r, receiveLoop P now fuel q pch n = some r ∧ (r.1 = true → FramerInv P r.2) := by
  intro n
  induction n using Nat.strong_induction_on with
  | _ n ih =>
    intro fuel q pch hf hq hle h32
    cases fuel with
    | zero => omega
    | succ fuel =>
      unfold receiveLoop
      by_cases h0 : n = 0
      · rw [if_pos h0]
        exact ⟨_, rfl, fun _ => hq⟩
      · rw [if_neg h0]
        rcases receiveIteration_progress P hP now q hq pch n (by omega) hle h32 with
          ⟨qe, he⟩ | ⟨q1, handled, hh1, hh2, hit, hq1⟩
        · rw [he]
          exact ⟨_, rfl, fun h => Bool.noConfusion h⟩
        · rw [hit]
          simp only []
          exact ih (n - handled) (by omega) fuel q1 (pch.drop handled) (by omega) hq1
            (by rw [List.length_drop]; omega) (by omega)

theorem receiveLoop_fuel (P : FramerParams) (now : Int) :
    ∀ (fuel fuel1 : Nat) (q : List CNetMessage) (pch : List Nat) (n : Nat)
      (r : Bool × List CNetMessage), fuel ≤ fuel1 →
      receiveLoop P now fuel q pch n = some r → receiveLoop P now fuel1 q pch n = some r := by
  intro fuel
  induction fuel with
  | zero => intro fuel1 q pch n r _ h; exact Option.noConfusion h
  | succ fuel ih =>
    intro fuel1 q pch n r hle h
    cases fuel1 with
    | zero => omega
    | succ fuel1 =>
      unfold receiveLoop at h ⊢
      by_cases h0 : n = 0
      · rw [if_pos h0] at h ⊢; exact h
      · rw [if_neg h0] at h ⊢
        cases hit : receiveIteration P now q pch n with
        | error qe => rw [hit] at h; exact h
        | ok x =>
          rw [hit] at h
          exact ih fuel1 _ _ _ r (by omega) h

theorem reachable_framerInv (P : FramerParams) (hP : P.MAX_PROTOCOL_MESSAGE_LENGTH < 2 ^ 31)
    (q : List CNetMessage) (h : Reachable P q) : FramerInv P q := by
  induction h with
  | empty =>
    exact ⟨fun m hm => absurd hm (List.not_mem_nil m), fun m hm => absurd hm (List.not_mem_nil m)⟩
  | call now q pch q1 _ hlen hcall ih =>
    obtain ⟨r, hr, hinv⟩ := receiveLoop_total P hP now pch.length (pch.length + 1) q pch
      (Nat.lt_succ_self _) ih (Nat.le_refl _) hlen
    unfold ReceiveMsgBytes at hcall
    rw [hcall] at hr
    injection hr with hr
    rw [← hr] at hinv
    exact hinv rfl

theorem sampleQueue_reachable : Reachable sampleParams sampleQueue :=
  Reachable.call 0 [] (sampleStream.take 25) sampleQueue Reachable.empty (by decide) rfl

theorem receiveIteration_queue (P : FramerParams) (now : Int) (q : List CNetMessage)
    (pch : List Nat) (n : Nat) (q1 : List CNetMessage) (pch1 : List Nat) (n1 : Nat)
    (h : receiveIteration P now q pch n = Except.ok (q1, pch1, n1)) :
    ∃ m1, q1 = (currentMessage P q).1 ++ [m1] ∧
      ((currentMessage P q).2 = CNetMessage.fresh P.MessageStart →
        m1.hdrbuf = memcpy (List.replicate 24 0) 0 (pch.take (min 24 n))) := by
  unfold receiveIteration at h
  cases hcm : currentMessage P q with
  | mk front msg =>
    rw [hcm] at h
    simp only [] at h ⊢
    cases hst : (if !msg.in_data then readHeader P msg pch n else readData msg pch n) with
    | mk msg1 handled =>
      rw [hst] at h
      simp only [] at h
      split_ifs at h with h1 h2 h3
      · injection h with h
        simp only [Prod.mk.injEq] at h
        refine ⟨_, h.1.symm, ?_⟩
        intro hfresh
        rw [hfresh] at hst
        have hb : msg1.hdrbuf = memcpy (List.replicate 24 0) 0 (pch.take (min 24 n)) := by
          have := congrArg (fun x => x.1.hdrbuf) hst
          simp only [CNetMessage.fresh, Bool.not_false, if_true, readHeader] at this
          rw [← this]
          split_ifs <;> try rfl
          all_goals (split <;> try split_ifs) <;> rfl
        exact hb
      · injection h with h
        simp only [Prod.mk.injEq] at h
        refine ⟨_, h.1.symm, ?_⟩
        intro hfresh
        rw [hfresh] at hst
        have := congrArg (fun x => x.1.hdrbuf) hst
        simp only [CNetMessage.fresh, Bool.not_false, if_true, readHeader] at this
        rw [← this]
        split_ifs <;> try rfl
        all_goals (split <;> try split_ifs) <;> rfl

theorem tail_complete_step (P : FramerParams) (q : List CNetMessage)
    (hq : ∀ m ∈ q.dropLast, m.complete = true) :
    ∀ m ∈ (currentMessage P q).1, m.complete = true := by
  rcases currentMessage_cases P q with ⟨-, hc⟩ | ⟨L, b, hql, hb, hc⟩ | ⟨L, b, hql, hb, hc⟩
  · rw [hc]
    exact fun m hm => absurd hm (List.not_mem_nil m)
  · rw [hc]
    intro m hm
    rw [hql] at hm hq
    rw [List.dropLast_concat] at hq
    rcases List.mem_append.mp hm with hm1 | hm1
    · exact hq m hm1
    · rw [List.mem_singleton] at hm1
      rw [hm1]; exact hb
  · rw [hc]
    rw [hql, List.dropLast_concat] at hq
    exact hq

theorem receiveLoop_tail_complete (P : FramerParams) (now : Int) :
    ∀ (fuel : Nat) (q : List CNetMessage) (pch : List Nat) (n : Nat) (q1 : List CNetMessage),
      (∀ m ∈ q.dropLast, m.complete = true) →
      receiveLoop P now fuel q pch n = some (true, q1) →
      ∀ m ∈ q1.dropLast, m.complete = true := by
  intro fuel
  induction fuel with
  | zero => intro q pch n q1 _ h; exact Option.noConfusion h
  | succ fuel ih =>
    intro q pch n q1 hq h
    unfold receiveLoop at h
    by_cases h0 : n = 0
    · rw [if_pos h0] at h
      injection h with h
      injection h with _ h
      rw [← h]; exact hq
    · rw [if_neg h0] at h
      cases hit : receiveIteration P now q pch n with
      | error qe =>
        rw [hit] at h
        injection h with h
        injection h with h _
        exact Bool.noConfusion h
      | ok x =>
        obtain ⟨q2, pch2, n2⟩ := x
        rw [hit] at h
        obtain ⟨m1, hq2, -⟩ := receiveIteration_queue P now q pch n q2 pch2 n2 hit
        refine ih q2 pch2 n2 q1 ?_ h
        rw [hq2, List.dropLast_concat]
        exact tail_complete_step P q hq

theorem reachable_tail_complete (P : FramerParams) (q : List CNetMessage) (h : Reachable P q) :
    ∀ m ∈ q.dropLast, m.complete = true := by
  induction h with
  | empty => exact fun m hm => absurd hm (List.not_mem_nil m)
  | call now q pch q1 _ _ hcall ih =>
    exact receiveLoop_tail_complete P now _ q pch _ q1 ih hcall

/-- C23: in every receive queue reached from the empty queue through
`CNode::ReceiveMsgBytes` calls that all returned true, every message except
possibly the last is complete, so at most one message is in progress. In every
loop iteration that does not return false: when the queue is empty or its last
message is complete, exactly one message is appended behind the unchanged queue
and the next bytes of the buffer go to the start of its header buffer;
otherwise no message is appended and only the last message changes. -/
theorem receive_queue_single_tail (P : FramerParams) (q : List CNetMessage)
    (h : Reachable P q) :
    (∀ m ∈ q.dropLast, m.complete = true) ∧
    q.countP (fun m => !m.complete) ≤ 1 ∧
    ∀ (q0 : List CNetMessage) (now : Int) (pch : List Nat) (nBytes : Nat)
      (q1 : List CNetMessage) (pch1 : List Nat) (n1 : Nat),
      receiveIteration P now q0 pch nBytes = Except.ok (q1, pch1, n1) →
      ((q0 = [] ∨ ∃ back, q0.getLast? = some back ∧ back.complete = true) →
        ∃ m1, q1 = q0 ++ [m1] ∧
          m1.hdrbuf = memcpy (List.replicate 24 0) 0 (pch.take (min 24 nBytes))) ∧
      ((∃ back, q0.getLast? = some back ∧ back.complete = false) →
        q1.length = q0.length ∧ q1.dropLast = q0.dropLast) := by
  have htail := reachable_tail_complete P q h
  refine ⟨htail, ?_, ?_⟩
  · rcases List.eq_nil_or_concat q with hq | ⟨L, b, hq⟩
    · rw [hq]; exact Nat.zero_le _
    · rw [List.concat_eq_append] at hq
      rw [hq, List.dropLast_concat] at htail
      rw [hq, List.countP_append]
      have h1 : L.countP (fun m => !m.complete) = 0 := by
        rw [List.countP_eq_zero]
        intro m hm
        simp [htail m hm]
      have h2 : [b].countP (fun m => !m.complete) ≤ 1 := by
        have := List.countP_le_length (fun m : CNetMessage => !m.complete) (l := [b])
        simpa using this
      omega
  · intro q0 now pch nBytes q1 pch1 n1 hit
    obtain ⟨m1, hq1, hbuf⟩ := receiveIteration_queue P now q0 pch nBytes q1 pch1 n1 hit
    rcases currentMessage_cases P q0 with ⟨hq0, hc⟩ | ⟨L, b, hq0, hb, hc⟩ | ⟨L, b, hq0, hb, hc⟩
    · rw [hc] at hq1 hbuf
      constructor
      · intro _
        exact ⟨m1, by rw [hq1, hq0], hbuf rfl⟩
      · rintro ⟨back, hback, -⟩
        rw [hq0] at hback
        exact Option.noConfusion hback
    · rw [hc] at hq1 hbuf
      constructor
      · intro _
        exact ⟨m1, hq1, hbuf rfl⟩
      · rintro ⟨back, hback, hbc⟩
        rw [hq0, List.getLast?_concat] at hback
        injection hback with hback
        rw [← hback, hb] at hbc
        exact Bool.noConfusion hbc
    · rw [hc] at hq1
      constructor
      · rintro (hnil | ⟨back, hback, hbc⟩)
        · rw [hq0] at hnil
          exact absurd hnil (by simp)
        · rw [hq0, List.getLast?_concat] at hback
          injection hback with hback
          rw [← hback, hb] at hbc
          exact Bool.noConfusion hbc
      · intro _
        rw [hq1, hq0]
        simp

theorem receive_queue_single_tail_witness :
    (∀ m ∈ sampleQueue.dropLast, m.complete = true) ∧
    sampleQueue.countP (fun m => !m.complete) ≤ 1 :=
  have h := receive_queue_single_tail sampleParams sampleQueue sampleQueue_reachable
  ⟨h.1, h.2.1⟩

/-- C30: with `MAX_PROTOCOL_MESSAGE_LENGTH < 2 ^ 31`, every queue `q` reached from the
empty queue through calls that returned true satisfies the invariant `FramerInv`,
under which `readHeader` is only called with `nHdrPos < 24` and `readData` only with
`nDataPos < hdr.nMessageSize`; every loop iteration on a queue with that invariant
either returns false or consumes `handled` bytes with `1 <= handled <= nBytes`,
leaves exactly `nBytes - handled` and keeps the invariant; and
`CNode::ReceiveMsgBytes` on `q` returns for every buffer of fewer than `2 ^ 32` bytes
within `nBytes` iterations. -/
theorem ReceiveMsgBytes_terminates (P : FramerParams)
    (hP : P.MAX_PROTOCOL_MESSAGE_LENGTH < 2 ^ 31) (q : List CNetMessage) (h : Reachable P q) :
    FramerInv P q ∧
    (∀ q0 : List CNetMessage, FramerInv P q0 →
      ((currentMessage P q0).2.in_data = false → (currentMessage P q0).2.nHdrPos < 24) ∧
      ((currentMessage P q0).2.in_data = true →
        (currentMessage P q0).2.nDataPos < (currentMessage P q0).2.hdr.nMessageSize) ∧
      ∀ (now : Int) (pch : List Nat) (nBytes : Nat), 0 < nBytes → nBytes ≤ pch.length →
        nBytes < 2 ^ 32 →
        (∃ qe, receiveIteration P now q0 pch nBytes = Except.error qe) ∨
        ∃ q1 handled, 1 ≤ handled ∧ handled ≤ nBytes ∧
          receiveIteration P now q0 pch nBytes =
            Except.ok (q1, pch.drop handled, nBytes - handled) ∧
          FramerInv P q1) ∧
    ∀ (now : Int) (pch : List Nat), pch.length < 2 ^ 32 →
      ∃ r, receiveLoop P now (pch.length + 1) q pch pch.length = some r ∧
        ReceiveMsgBytes P now q pch = some r := by
  have hq := reachable_framerInv P hP q h
  refine ⟨hq, ?_, ?_⟩
  · intro q0 hq0
    obtain ⟨hm, hc, -⟩ := currentMessage_inv P q0 hq0
    refine ⟨fun hin => (hm.header_mode hin).1, ?_, ?_⟩
    · intro hin
      have := (hm.data_mode hin).2
      unfold CNetMessage.complete at hc
      rw [hin] at hc
      simp only [Bool.true_and, decide_eq_false_iff_not] at hc
      omega
    · intro now pch nBytes h0 hle h32
      exact receiveIteration_progress P hP now q0 hq0 pch nBytes h0 hle h32
  · intro now pch hlen
    obtain ⟨r, hr, -⟩ := receiveLoop_total P hP now pch.length (pch.length + 1) q pch
      (Nat.lt_succ_self _) hq (Nat.le_refl _) hlen
    exact ⟨r, hr, hr⟩

theorem ReceiveMsgBytes_terminates_witness :
    FramerInv sampleParams sampleQueue ∧
    ∃ r, ReceiveMsgBytes sampleParams 1 sampleQueue (sampleStream.drop 25) = some r :=
  have h := ReceiveMsgBytes_terminates sampleParams (by decide) sampleQueue sampleQueue_reachable
  ⟨h.1, (h.2.2 1 (sampleStream.drop 25) (by decide)).imp (fun _ hr => hr.2)⟩

/-! ## Theorems: feeding schedules -/

theorem complete_eq_of_view (m m1 : CNetMessage) (h : m.view = m1.view) :
    m.complete = m1.complete := by
  have h1 : m.in_data = m1.in_data := congrArg MsgView.in_data h
  have h2 : m.hdr = m1.hdr := congrArg MsgView.hdr h
  have h3 : m.nDataPos = m1.nDataPos := congrArg MsgView.nDataPos h
  unfold CNetMessage.complete
  rw [h1, h2, h3]

theorem complete_of_wanted (m : CNetMessage) (h : 0 < bytesWanted m.view) :
    m.complete = false := by
  unfold bytesWanted CNetMessage.view at h
  unfold CNetMessage.complete
  cases hd : m.in_data with
  | false => rfl
  | true =>
    rw [hd] at h
    simp only [if_true] at h
    simp only [Bool.true_and, decide_eq_false_iff_not]
    omega

theorem currentMessage_view (P : FramerParams) (q q1 : List CNetMessage)
    (h : q.map CNetMessage.view = q1.map CNetMessage.view) :
    (currentMessage P q).1.map CNetMessage.view = (currentMessage P q1).1.map CNetMessage.view ∧
    (currentMessage P q).2.view = (currentMessage P q1).2.view := by
  have hl : q.getLast?.map CNetMessage.view = q1.getLast?.map CNetMessage.view := by
    rw [← List.getLast?_map, ← List.getLast?_map, h]
  have hdl : q.dropLast.map CNetMessage.view = q1.dropLast.map CNetMessage.view := by
    rw [List.map_dropLast, List.map_dropLast, h]
  unfold currentMessage
  cases hq : q.getLast? with
  | none =>
    cases hq1 : q1.getLast? with
    | none => exact ⟨rfl, rfl⟩
    | some b1 => rw [hq, hq1] at hl; exact Option.noConfusion hl
  | some b =>
    cases hq1 : q1.getLast? with
    | none => rw [hq, hq1] at hl; exact Option.noConfusion hl
    | some b1 =>
      rw [hq, hq1] at hl
      simp only [Option.map_some', Option.some.injEq] at hl
      have hc := complete_eq_of_view b b1 hl
      simp only []
      rw [hc]
      cases b1.complete with
      | true => exact ⟨h, rfl⟩
      | false => exact ⟨hdl, hl⟩

theorem currentMessage_concat (P : FramerParams) (front : List CNetMessage) (m : CNetMessage)
    (hc : m.complete = false) : currentMessage P (front ++ [m]) = (front, m) := by
  unfold currentMessage
  rw [List.getLast?_concat]
  simp only [hc, Bool.false_eq_true, if_false, List.dropLast_concat]

theorem memcpy_append (d : List Nat) (p : Nat) (x y : List Nat) (h : p + x.length ≤ d.length) :
    memcpy (memcpy d p x) (p + x.length) y = memcpy d p (x ++ y) := by
  unfold memcpy
  have hl : (d.take p ++ x).length = p + x.length := by
    rw [List.length_append, List.length_take]
    omega
  have h1 : (d.take p ++ x ++ d.drop (p + x.length)).take (p + x.length) = d.take p ++ x := by
    rw [List.take_append_of_le_length (by omega), List.take_of_length_le (by omega)]
  have h2 : (d.take p ++ x ++ d.drop (p + x.length)).drop (p + x.length + y.length) =
      d.drop (p + (x ++ y).length) := by
    rw [List.drop_append_eq_append_drop, List.drop_of_length_le (by omega), hl, List.drop_drop,
      List.length_append, List.nil_append]
    congr 1
    omega
  rw [h1, h2]
  simp only [List.append_assoc]

theorem viewStep_append (P : FramerParams) (v : MsgView) (x : List Nat)
    (hb : v.in_data = false → v.hdrbuf.length = 24) (hx : x.length < bytesWanted v) :
    ∃ v1, viewStep P v x = some v1 ∧ bytesWanted v1 = bytesWanted v - x.length ∧
      (v1.in_data = false → v1.hdrbuf.length = 24) ∧
      ∀ y, viewStep P v1 y = viewStep P v (x ++ y) := by
  cases hd : v.in_data with
  | true =>
    have hw : bytesWanted v = v.hdr.nMessageSize - v.nDataPos := by
      unfold bytesWanted; rw [if_pos hd]
    refine ⟨{ v with payload := v.payload ++ x, nDataPos := v.nDataPos + x.length }, ?_, ?_, ?_, ?_⟩
    · unfold viewStep; rw [if_pos hd]
    · rw [hw]
      unfold bytesWanted
      simp only [hd, if_true]
      omega
    · intro h
      simp only [hd] at h
      exact Bool.noConfusion h
    · intro y
      unfold viewStep
      simp only [hd, if_true, List.append_assoc, List.length_append, Nat.add_assoc]
  | false =>
    have hw : bytesWanted v = 24 - v.nHdrPos := by
      unfold bytesWanted; rw [if_neg (by rw [hd]; exact Bool.false_ne_true)]
    rw [hw] at hx
    have hlen := hb hd
    refine ⟨{ v with hdrbuf := memcpy v.hdrbuf v.nHdrPos x, nHdrPos := v.nHdrPos + x.length },
      ?_, ?_, ?_, ?_⟩
    · unfold viewStep
      rw [if_neg (by rw [hd]; exact Bool.false_ne_true)]
      simp only []
      rw [if_pos (by omega)]
    · rw [hw]
      unfold bytesWanted
      simp only [hd, Bool.false_eq_true, if_false]
      omega
    · intro _
      show (memcpy v.hdrbuf v.nHdrPos x).length = 24
      rw [memcpy_length _ _ _ (by omega), hlen]
    · intro y
      unfold viewStep
      simp only [hd, Bool.false_eq_true, if_false, List.length_append, Nat.add_assoc]
      rw [memcpy_append _ _ _ _ (by omega)]

theorem ReceiveMsgBytes_nil (P : FramerParams) (now : Int) (q : List CNetMessage) :
    ReceiveMsgBytes P now q [] = some (true, q) := rfl

theorem ReceiveMsgBytes_error (P : FramerParams) (now : Int) (q : List CNetMessage)
    (pch : List Nat) (hne : 0 < pch.length) (qe : List CNetMessage)
    (h : receiveIteration P now q pch pch.length = Except.error qe) :
    ReceiveMsgBytes P now q pch = some (false, qe) := by
  unfold ReceiveMsgBytes receiveLoop
  rw [if_neg (by omega), h]

theorem ReceiveMsgBytes_step (P : FramerParams) (hP : P.MAX_PROTOCOL_MESSAGE_LENGTH < 2 ^ 31)
    (now : Int) (q : List CNetMessage) (pch : List Nat) (h0 : 0 < pch.length)
    (h32 : pch.length < 2 ^ 32) (q1 : List CNetMessage) (k : Nat) (hk : 1 ≤ k)
    (hq1 : FramerInv P q1)
    (h : receiveIteration P now q pch pch.length = Except.ok (q1, pch.drop k, pch.length - k)) :
    ReceiveMsgBytes P now q pch = ReceiveMsgBytes P now q1 (pch.drop k) := by
  have hlen : (pch.drop k).length = pch.length - k := List.length_drop k pch
  obtain ⟨r, hr, -⟩ := receiveLoop_total P hP now (pch.drop k).length ((pch.drop k).length + 1)
    q1 (pch.drop k) (Nat.lt_succ_self _) hq1 (Nat.le_refl _) (by omega)
  have hstep : receiveLoop P now (pch.length + 1) q pch pch.length =
      receiveLoop P now pch.length q1 (pch.drop k) (pch.length - k) := by
    conv_lhs => unfold receiveLoop
    rw [if_neg (by omega), h]
  unfold ReceiveMsgBytes
  rw [hr, hstep]
  rw [hlen] at hr
  exact receiveLoop_fuel P now _ _ _ _ _ r (by omega) hr

theorem ReceiveMsgBytes_first (P : FramerParams) (hP : P.MAX_PROTOCOL_MESSAGE_LENGTH < 2 ^ 31)
    (now : Int) (q : List CNetMessage) (hq : FramerInv P q) (pch : List Nat)
    (h0 : 0 < pch.length) (h32 : pch.length < 2 ^ 32) :
    1 ≤ min (bytesWanted (currentMessage P q).2.view) pch.length ∧
    (viewStep P (currentMessage P q).2.view
        (pch.take (min (bytesWanted (currentMessage P q).2.view) pch.length)) = none →
      ∃ qe, ReceiveMsgBytes P now q pch = some (false, qe)) ∧
    (∀ v1, viewStep P (currentMessage P q).2.view
        (pch.take (min (bytesWanted (currentMessage P q).2.view) pch.length)) = some v1 →
      ∃ m1, m1.view = v1 ∧ MsgInv P m1 ∧ FramerInv P ((currentMessage P q).1 ++ [m1]) ∧
        ReceiveMsgBytes P now q pch =
          ReceiveMsgBytes P now ((currentMessage P q).1 ++ [m1])
            (pch.drop (min (bytesWanted (currentMessage P q).2.view) pch.length))) := by
  obtain ⟨hk1, hnone, hsome⟩ :=
    receiveIteration_spec P hP now q hq pch pch.length h0 (Nat.le_refl _) h32
  obtain ⟨-, -, hf⟩ := currentMessage_inv P q hq
  refine ⟨hk1, ?_, ?_⟩
  · intro hv
    obtain ⟨qe, he⟩ := hnone hv
    exact ⟨qe, ReceiveMsgBytes_error P now q pch h0 qe he⟩
  · intro v1 hv
    obtain ⟨m1, hit, hview, hinv⟩ := hsome v1 hv
    have hq1 := framerInv_concat P _ m1 hf hinv
    exact ⟨m1, hview, hinv, hq1, ReceiveMsgBytes_step P hP now q pch h0 h32 _ _ hk1 hq1 hit⟩

theorem sameOutcome_false (qe qe1 : List CNetMessage) :
    SameOutcome (some (false, qe)) (some (false, qe1)) :=
  ⟨_, _, rfl, rfl, rfl, fun h => Bool.noConfusion h⟩

theorem ReceiveMsgBytes_congr (P : FramerParams) (hP : P.MAX_PROTOCOL_MESSAGE_LENGTH < 2 ^ 31)
    (now now1 : Int) :
    ∀ (n : Nat) (pch : List Nat) (q q1 : List CNetMessage), pch.length = n → n < 2 ^ 32 →
      FramerInv P q → FramerInv P q1 → q.map CNetMessage.view = q1.map CNetMessage.view →
      SameOutcome (ReceiveMsgBytes P now q pch) (ReceiveMsgBytes P now1 q1 pch) := by
  intro n
  induction n using Nat.strong_induction_on with
  | _ n ih =>
    intro pch q q1 hn h32 hq hq1 hv
    by_cases h0 : pch.length = 0
    · have hnil : pch = [] := List.length_eq_zero.mp h0
      rw [hnil]
      exact ⟨_, _, rfl, rfl, rfl, fun _ => hv⟩
    · have hpos : 0 < pch.length := Nat.pos_of_ne_zero h0
      obtain ⟨hk1, hnone, hsome⟩ := ReceiveMsgBytes_first P hP now q hq pch hpos (by omega)
      obtain ⟨-, hnone1, hsome1⟩ := ReceiveMsgBytes_first P hP now1 q1 hq1 pch hpos (by omega)
      obtain ⟨hfront, hmsg⟩ := currentMessage_view P q q1 hv
      rw [← hmsg] at hnone1 hsome1
      cases hvs : viewStep P (currentMessage P q).2.view
          (pch.take (min (bytesWanted (currentMessage P q).2.view) pch.length)) with
      | none =>
        obtain ⟨qe, he⟩ := hnone hvs
        obtain ⟨qe1, he1⟩ := hnone1 hvs
        rw [he, he1]
        exact sameOutcome_false qe qe1
      | some v1 =>
        obtain ⟨m, hmv, -, hqm, he⟩ := hsome v1 hvs
        obtain ⟨m1, hmv1, -, hqm1, he1⟩ := hsome1 v1 hvs
        rw [he, he1]
        refine ih (n - min (bytesWanted (currentMessage P q).2.view) pch.length) (by omega) _ _ _
          (by rw [List.length_drop]; omega) (by omega) hqm hqm1 ?_
        rw [List.map_append, List.map_append, hfront]
        simp only [List.map_cons, List.map_nil, hmv, hmv1]

theorem receiveTwoCalls_of_first (P : FramerParams) (now1 now2 : Int) (q q1 : List CNetMessage)
    (a a1 b : List Nat)
    (h : ReceiveMsgBytes P now1 q a = ReceiveMsgBytes P now1 q1 a1) :
    receiveTwoCalls P now1 now2 q a b = receiveTwoCalls P now1 now2 q1 a1 b := by
  unfold receiveTwoCalls
  rw [h]

theorem receiveTwoCalls_error (P : FramerParams) (now1 now2 : Int) (q qe : List CNetMessage)
    (a b : List Nat) (h : ReceiveMsgBytes P now1 q a = some (false, qe)) :
    receiveTwoCalls P now1 now2 q a b = some (false, qe) := by
  unfold receiveTwoCalls
  rw [h]

theorem receiveTwoCalls_ok (P : FramerParams) (now1 now2 : Int) (q qa : List CNetMessage)
    (a b : List Nat) (h : ReceiveMsgBytes P now1 q a = some (true, qa)) :
    receiveTwoCalls P now1 now2 q a b = ReceiveMsgBytes P now2 qa b := by
  unfold receiveTwoCalls
  rw [h]

theorem receive_split (P : FramerParams) (hP : P.MAX_PROTOCOL_MESSAGE_LENGTH < 2 ^ 31)
    (now now1 now2 : Int) :
    ∀ (n : Nat) (a b : List Nat) (q q1 : List CNetMessage), a.length = n →
      (a ++ b).length < 2 ^ 32 → FramerInv P q → FramerInv P q1 →
      q.map CNetMessage.view = q1.map CNetMessage.view →
      SameOutcome (ReceiveMsgBytes P now q (a ++ b)) (receiveTwoCalls P now1 now2 q1 a b) := by
  intro n
  induction n using Nat.strong_induction_on with
  | _ n ih =>
    intro a b q q1 hn h32 hq hq1 hv
    rw [List.length_append] at h32
    by_cases ha : a.length = 0
    · have hnil : a = [] := List.length_eq_zero.mp ha
      rw [hnil, receiveTwoCalls_ok P now1 now2 q1 q1 [] b rfl, List.nil_append]
      exact ReceiveMsgBytes_congr P hP now now2 _ b q q1 rfl (by omega) hq hq1 hv
    · by_cases hb : b.length = 0
      · have hnil : b = [] := List.length_eq_zero.mp hb
        rw [hnil, List.append_nil]
        have hc := ReceiveMsgBytes_congr P hP now now1 _ a q q1 rfl (by omega) hq hq1 hv
        have h2 : receiveTwoCalls P now1 now2 q1 a [] = ReceiveMsgBytes P now1 q1 a := by
          obtain ⟨x, x1, -, hx1, -, -⟩ := hc
          obtain ⟨f, qa⟩ := x1
          cases f with
          | false => rw [hx1]; exact receiveTwoCalls_error P now1 now2 q1 qa a [] hx1
          | true => rw [hx1, receiveTwoCalls_ok P now1 now2 q1 qa a [] hx1]; rfl
        rw [h2]
        exact hc
      · have hapos : 0 < a.length := Nat.pos_of_ne_zero ha
        have hbpos : 0 < b.length := Nat.pos_of_ne_zero hb
        obtain ⟨hfront, hmsg⟩ := currentMessage_view P q q1 hv
        obtain ⟨hm1, -, -⟩ := currentMessage_inv P q1 hq1
        obtain ⟨hk, hnone, hsome⟩ := ReceiveMsgBytes_first P hP now q hq (a ++ b)
          (by rw [List.length_append]; omega) (by rw [List.length_append]; omega)
        obtain ⟨hk1, hnone1, hsome1⟩ := ReceiveMsgBytes_first P hP now1 q1 hq1 a hapos (by omega)
        rw [← hmsg] at hnone1 hsome1 hk1
        rw [List.length_append] at hk hnone hsome
        obtain ⟨w, hw⟩ : ∃ w, w = bytesWanted (currentMessage P q).2.view := ⟨_, rfl⟩
        rw [← hw] at hk hnone hsome hk1 hnone1 hsome1
        by_cases hwa : w ≤ a.length
        · have e1 : min w (a.length + b.length) = w := by omega
          have e2 : min w a.length = w := by omega
          rw [e1] at hnone hsome
          rw [e2] at hnone1 hsome1
          rw [List.take_append_of_le_length hwa] at hnone hsome
          have hdrop : (a ++ b).drop w = a.drop w ++ b := List.drop_append_of_le_length hwa
          rw [hdrop] at hsome
          cases hvs : viewStep P (currentMessage P q).2.view (a.take w) with
          | none =>
            obtain ⟨qe, he⟩ := hnone hvs
            obtain ⟨qe1, he1⟩ := hnone1 hvs
            rw [he, receiveTwoCalls_error P now1 now2 q1 qe1 a b he1]
            exact sameOutcome_false qe qe1
          | some v1 =>
            obtain ⟨m, hmv, -, hqm, he⟩ := hsome v1 hvs
            obtain ⟨m1, hmv1, -, hqm1, he1⟩ := hsome1 v1 hvs
            rw [he, receiveTwoCalls_of_first P now1 now2 q1 _ a _ b he1]
            refine ih (a.length - w) (by omega) _ _ _ _ (by rw [List.length_drop])
              (by rw [List.length_append, List.length_drop]; omega) hqm hqm1 ?_
            rw [List.map_append, List.map_append, hfront]
            simp only [List.map_cons, List.map_nil, hmv, hmv1]
        · have hwa1 : a.length < w := by omega
          have e2 : min w a.length = a.length := by omega
          rw [e2, List.take_length] at hnone1 hsome1
          rw [List.drop_length] at hsome1
          have hbuf : (currentMessage P q).2.view.in_data = false →
              (currentMessage P q).2.view.hdrbuf.length = 24 := by
            intro _
            rw [hmsg]
            exact hm1.hdrbuf_length
          obtain ⟨va, hva, hwant, -, hcomp⟩ :=
            viewStep_append P (currentMessage P q).2.view a hbuf (by rw [← hw]; exact hwa1)
          obtain ⟨ma, hmav, hmainv, hqa, hea⟩ := hsome1 va hva
          have hfirst : ReceiveMsgBytes P now1 q1 a =
              some (true, (currentMessage P q1).1 ++ [ma]) := by
            rw [hea]; rfl
          rw [receiveTwoCalls_ok P now1 now2 q1 _ a b hfirst]
          have hwma : bytesWanted ma.view = w - a.length := by rw [hmav, hwant, ← hw]
          have hcur : currentMessage P ((currentMessage P q1).1 ++ [ma]) =
              ((currentMessage P q1).1, ma) :=
            currentMessage_concat P _ ma (complete_of_wanted ma (by omega))
          obtain ⟨-, hnone2, hsome2⟩ := ReceiveMsgBytes_first P hP now2 _ hqa b hbpos (by omega)
          rw [hcur] at hnone2 hsome2
          simp only [] at hnone2 hsome2
          rw [hwma, hmav, hcomp] at hnone2 hsome2
          obtain ⟨k3, hk3⟩ : ∃ k3, k3 = min (w - a.length) b.length := ⟨_, rfl⟩
          rw [← hk3] at hnone2 hsome2
          have e1 : min w (a.length + b.length) = a.length + k3 := by omega
          rw [e1] at hnone hsome
          have htake : (a ++ b).take (a.length + k3) = a ++ b.take k3 := by
            rw [List.take_append]
          have hdrop : (a ++ b).drop (a.length + k3) = b.drop k3 := by
            rw [List.drop_append]
          rw [htake] at hnone hsome
          rw [hdrop] at hsome
          cases hvs : viewStep P (currentMessage P q).2.view (a ++ b.take k3) with
          | none =>
            obtain ⟨qe, he⟩ := hnone hvs
            obtain ⟨qe1, he1⟩ := hnone2 hvs
            rw [he, he1]
            exact sameOutcome_false qe qe1
          | some v1 =>
            obtain ⟨m, hmv, -, hqm, he⟩ := hsome v1 hvs
            obtain ⟨m1, hmv1, -, hqm1, he1⟩ := hsome2 v1 hvs
            rw [he, he1]
            refine ReceiveMsgBytes_congr P hP now now2 _ _ _ _ rfl
              (by rw [List.length_drop]; omega) hqm hqm1 ?_
            rw [List.map_append, List.map_append, hfront]
            simp only [List.map_cons, List.map_nil, hmv, hmv1]

/-- C24: with `MAX_PROTOCOL_MESSAGE_LENGTH < 2 ^ 31`, for every queue reached from the
empty queue through calls that returned true and every buffer `a ++ b` of fewer
than `2 ^ 32` bytes: `CNode::ReceiveMsgBytes` on `a ++ b` and the two calls on `a` and
then on `b` both return, the one call returns true exactly when both of the two
calls do, and then the two resulting queues hold the same messages (header
buffer, header, positions, payload bytes, hence completeness) up to timestamps
and the buffer beyond the payload position. -/
theorem ReceiveMsgBytes_split_invariant (P : FramerParams)
    (hP : P.MAX_PROTOCOL_MESSAGE_LENGTH < 2 ^ 31) (q : List CNetMessage) (h : Reachable P q)
    (now now1 now2 : Int) (a b : List Nat) (hlen : (a ++ b).length < 2 ^ 32) :
    SameOutcome (ReceiveMsgBytes P now q (a ++ b)) (receiveTwoCalls P now1 now2 q a b) :=
  receive_split P hP now now1 now2 a.length a b q q rfl hlen (reachable_framerInv P hP q h)
    (reachable_framerInv P hP q h) rfl

theorem ReceiveMsgBytes_split_invariant_witness :
    SameOutcome (ReceiveMsgBytes sampleParams 5 sampleQueue ((sampleStream.drop 25).take 9 ++
        (sampleStream.drop 25).drop 9))
      (receiveTwoCalls sampleParams 6 7 sampleQueue ((sampleStream.drop 25).take 9)
        ((sampleStream.drop 25).drop 9)) :=
  ReceiveMsgBytes_split_invariant sampleParams (by decide) sampleQueue sampleQueue_reachable 5 6 7
    ((sampleStream.drop 25).take 9) ((sampleStream.drop 25).drop 9) (by decide)

end Net
